import Mathlib

/-!
# Row modification of a sparse LDLᵗ factorization (`ldlrowmodify.c`)

Shallow embedding of the MEX kernel `mexFunction` of `ldlrowmodify.c`.

* The C arrays (`Lp`, `Li`, `Lx`, `cp`, `ci`, `cx`, ...) are pointers that the
  code indexes without any bound check.  They are modelled as total maps
  `Nat → _`: a read past the stored entries returns whatever the map holds
  there, a write is `Function.update`.
* `double` is replaced by an arbitrary field `K` with decidable equality
  (exact arithmetic); `sqrt` of `math.h` is a parameter of the kernel.
* `mexErrMsgTxt` aborts the call: the kernel returns `Except`.
* `k` is the 0-based index, i.e. the value of the C variable after `k = k-1`.
  Sizes and indices are natural numbers; `n - 1` agrees with the unsigned
  C expression as soon as `1 ≤ n`.
* The scratch arrays `krowind` / `krowcol` (allocated with `k` slots) are one
  list of pairs; allocation and release of memory are not modelled.
-/

namespace LdlRowModify

/-! ## Loops -/

/-- The loop `for (p = lo; p < hi; p++) s = body p s`. -/
def forRange {σ : Type} (lo hi : Nat) (body : Nat → σ → σ) (s : σ) : σ :=
  (List.range' lo (hi - lo)).foldl (fun s p => body p s) s

/-- A loop over the indices `ps` whose body starts with `if (brk p) break;`. -/
def forBreak {σ : Type} (brk : Nat → Bool) (body : Nat → σ → σ) : List Nat → σ → σ
  | [], s => s
  | p :: ps, s => if brk p then s else forBreak brk body ps (body p s)

/-! ## Data -/

/-- The arguments of the kernel: `n`, the 0-based index `k`, the factor
`L` (`Lp2`, `Li2`, `Lx2`), and the outgoing and incoming columns
(`cp`, `ci`, `cx` and `cx2`; the row indices `ci2` are fetched by the code but
never read). -/
structure Args (K : Type) where
  n : Nat
  k : Nat
  Lp2 : Nat → Nat
  Li2 : Nat → Nat
  Lx2 : Nat → K
  cp : Nat → Nat
  ci : Nat → Nat
  cx : Nat → K
  cx2 : Nat → K

/-- A compressed-column matrix: column pointers, row indices, values. -/
structure Factor (K : Type) where
  Lp : Nat → Nat
  Li : Nat → Nat
  Lx : Nat → K

/-- The only error the kernel itself raises:
`"The vector c must contain k'th element!"`. -/
inductive KernelError where
  | missingKthElement
  deriving DecidableEq, Repr

/-- State of the copy loop: the output arrays and the list of the pairs
`(krowcol[t], krowind[t])`, `t < lrowk`. -/
structure CopyState (K : Type) where
  Lp : Nat → Nat
  Li : Nat → Nat
  Lx : Nat → K
  krow : List (Nat × Nat)

/-- State after the `l_12` / `D22` block. -/
structure PivotState (K : Type) where
  Lx : Nat → K
  deltal12 : Nat → K
  d : K
  db : K
  cind : Nat

/-- State of the `L_33` loop. -/
structure RotState (K : Type) where
  Lx : Nat → K
  wu : Nat → K
  wd : Nat → K
  alpha : K
  alpha2 : K

section Kernel

variable {K : Type} [Field K] [DecidableEq K]

/-! ## Copy of the input and indices of row `k` (lines 114-133) -/

/-- Body of the inner copy loop, lines 124-130. -/
def copyEntry (k j : Nat) (Li2 : Nat → Nat) (Lx2 : Nat → K) (i : Nat)
    (s : CopyState K) : CopyState K :=
  let Li := Function.update s.Li i (Li2 i)
  let Lx := Function.update s.Lx i (Lx2 i)
  { Lp := s.Lp
    Li := Li
    Lx := Lx
    krow := if Li i = k ∧ j < k then s.krow ++ [(j, i)] else s.krow }

/-- Body of the outer copy loop, lines 121-131. -/
def copyColumn (a : Args K) (j : Nat) (s : CopyState K) : CopyState K :=
  forRange (a.Lp2 j) (a.Lp2 (j + 1)) (copyEntry a.k j a.Li2 a.Lx2)
    { s with Lp := Function.update s.Lp j (a.Lp2 j) }

/-- Lines 105-133: the output created by `mxCreateSparse` (zero filled), the
copy of the input into it and the collection of `krowind` / `krowcol`. -/
def copyPhase (a : Args K) : CopyState K :=
  let s := forRange 0 a.n (copyColumn a)
    { Lp := fun _ => 0, Li := fun _ => 0, Lx := fun _ => 0, krow := [] }
  { s with Lp := Function.update s.Lp a.n (a.Lp2 a.n) }

/-! ## The `l_12` vector and the `D22` element (lines 138-182) -/

/-- Lines 139-143: the dense vector `deltal12` filled from `c2 - c`. -/
def deltaInit (a : Args K) : Nat → K :=
  forBreak (fun p => decide (a.k ≤ a.ci p))
    (fun p dl => Function.update dl (a.ci p) (a.cx2 p - a.cx p))
    (List.range' (a.cp 0) (a.cp 1 - a.cp 0)) (fun _ => 0)

/-- Lines 147-151: one column of the forward substitution. -/
def solveColumn (k : Nat) (Lp Li : Nat → Nat) (Lx : Nat → K) (j : Nat)
    (dl : Nat → K) : Nat → K :=
  let dl1 := forBreak (fun p => decide (k ≤ Li p))
    (fun p dl => Function.update dl (Li p) (dl (Li p) - Lx p * dl j))
    (List.range' (Lp j + 1) (Lp (j + 1) - (Lp j + 1))) dl
  Function.update dl1 j (dl1 j / Lx (Lp j))

/-- Lines 146-152: `Solve L11*D11*deltal12 = deltac12`. -/
def solveL11 (k : Nat) (Lp Li : Nat → Nat) (Lx : Nat → K) (dl : Nat → K) : Nat → K :=
  forRange 0 k (solveColumn k Lp Li Lx) dl

/-- Lines 155-157: `Set the new l12' elements into L`. -/
def setL12 (krow : List (Nat × Nat)) (dl : Nat → K) (Lx : Nat → K) : Nat → K :=
  krow.foldl (fun Lx t => Function.update Lx t.2 (Lx t.2 + dl t.1)) Lx

/-- Lines 161-166: the first offset `i < cp[1]` with `ci[i] == k`, if any. -/
def findDiag (a : Args K) : Option Nat :=
  (List.range (a.cp 1)).find? (fun i => decide (a.ci i = a.k))

/-- Body of the loop of lines 170-173, on the pair `(deltal12, db)`. -/
def pivotStep (Lp2 : Nat → Nat) (Lx2 Lx : Nat → K) (st : (Nat → K) × K)
    (t : Nat × Nat) : (Nat → K) × K :=
  let dl := Function.update st.1 t.1 (st.1 t.1 * Lx2 (Lp2 t.1))
  (dl, st.2 - dl t.1 * (Lx2 t.2 + Lx t.2))

/-- Lines 138-182. -/
def pivotPhase (a : Args K) (s : CopyState K) : Except KernelError (PivotState K) :=
  if 0 < a.k then
    let dl := solveL11 a.k s.Lp s.Li s.Lx (deltaInit a)
    let Lx := setL12 s.krow dl s.Lx
    let d := Lx (s.Lp a.k)
    match findDiag a with
    | none => Except.error KernelError.missingKthElement
    | some cind =>
      let db := d + a.cx2 cind - a.cx cind
      let st := s.krow.foldl (pivotStep a.Lp2 a.Lx2 Lx) (dl, db)
      Except.ok { Lx := Function.update Lx (s.Lp a.k) st.2, deltal12 := st.1,
                  d := d, db := st.2, cind := cind }
  else
    let d := s.Lx (s.Lp a.k)
    let cind := 0
    let db := d + a.cx2 cind - a.cx cind
    Except.ok { Lx := Function.update s.Lx (s.Lp a.k) db, deltal12 := fun _ => 0,
                d := d, db := db, cind := cind }

/-! ## The `l_32` vector (lines 191-222) -/

/-- Lines 194-199: `w = L31*D11*deltal12`. -/
def accumW (a : Args K) (Lp Li : Nat → Nat) (dl : Nat → K) : Nat → K :=
  forRange 0 a.k (fun j w =>
    forRange (Lp j) (Lp (j + 1)) (fun p w =>
      if a.k < Li p then Function.update w (Li p) (w (Li p) + a.Lx2 p * dl j) else w) w)
    (fun _ => 0)

/-- Body of the loop of lines 202-209 (`k > 0`), on the pair `(Lx, cind)`. -/
def mergeStep (a : Args K) (Li : Nat → Nat) (w : Nat → K) (d db : K) (p : Nat)
    (st : (Nat → K) × Nat) : (Nat → K) × Nat :=
  if Li p = a.ci st.2 then
    (Function.update st.1 p
      ((a.cx2 st.2 - a.cx st.2 + st.1 p * d - w (Li p)) / db), st.2 + 1)
  else
    (Function.update st.1 p ((st.1 p * d - w (Li p)) / db), st.2)

/-- Body of the loop of lines 214-221 (`k == 0`), on the pair `(Lx, cind)`. -/
def mergeStep0 (a : Args K) (Li : Nat → Nat) (d db : K) (p : Nat)
    (st : (Nat → K) × Nat) : (Nat → K) × Nat :=
  if Li p = a.ci st.2 then
    (Function.update st.1 p ((a.cx2 st.2 - a.cx st.2 + st.1 p * d) / db), st.2 + 1)
  else
    (Function.update st.1 p (st.1 p * d / db), st.2)

/-- Lines 191-222: the pair `(Lx, cind)` after the update of the `l_32` part. -/
def trailingColumn (a : Args K) (s : CopyState K) (ps : PivotState K) :
    (Nat → K) × Nat :=
  if 0 < a.k then
    let w := accumW a s.Lp s.Li ps.deltal12
    forRange (s.Lp a.k + 1) (s.Lp (a.k + 1)) (mergeStep a s.Li w ps.d ps.db)
      (ps.Lx, ps.cind + 1)
  else
    forRange (s.Lp a.k + 1) (s.Lp (a.k + 1)) (mergeStep0 a s.Li ps.d ps.db)
      (ps.Lx, a.cp a.k + 1)

/-! ## The `L_33` part (lines 225-255) -/

/-- Lines 227-232: the two direction vectors. -/
def initDirections (sqrt : K → K) (a : Args K) (s : CopyState K) (d db : K)
    (Lx : Nat → K) : (Nat → K) × (Nat → K) :=
  forRange (s.Lp a.k + 1) (s.Lp (a.k + 1))
    (fun p st => (Function.update st.1 (s.Li p) (a.Lx2 p * sqrt d),
                  Function.update st.2 (s.Li p) (Lx p * sqrt db)))
    (fun _ => 0, fun _ => 0)

/-- Body of the loop of lines 247-253, for row `i` and the coefficients
`gamma`, `gamma2`. -/
def rotateEntry (Li : Nat → Nat) (i : Nat) (gamma gamma2 : K) (p : Nat)
    (s : RotState K) : RotState K :=
  let wu := Function.update s.wu (Li p) (s.wu (Li p) - s.wu i * s.Lx p)
  let Lx := Function.update s.Lx p (s.Lx p + gamma * wu (Li p))
  let wd := Function.update s.wd (Li p) (s.wd (Li p) - s.wd i * Lx p)
  let Lx := Function.update Lx p (Lx p - gamma2 * wd (Li p))
  { s with Lx := Lx, wu := wu, wd := wd }

/-- Body of the loop of lines 234-255. -/
def rotateRow (Lp Li : Nat → Nat) (i : Nat) (s : RotState K) : RotState K :=
  if s.wu i ≠ 0 then
    let beta := s.alpha + s.wu i * s.wu i / s.Lx (Lp i)
    let gamma := s.wu i / (beta * s.Lx (Lp i))
    let Lx := Function.update s.Lx (Lp i) ((beta / s.alpha) * s.Lx (Lp i))
    let alpha := beta
    let beta2 := s.alpha2 - s.wd i * s.wd i / Lx (Lp i)
    let gamma2 := s.wd i / (beta2 * Lx (Lp i))
    let Lx := Function.update Lx (Lp i) ((beta2 / s.alpha2) * Lx (Lp i))
    let alpha2 := beta2
    forRange (Lp i + 1) (Lp (i + 1)) (rotateEntry Li i gamma gamma2)
      { Lx := Lx, wu := s.wu, wd := s.wd, alpha := alpha, alpha2 := alpha2 }
  else s

/-- Lines 225-255. -/
def rotatePhase (sqrt : K → K) (a : Args K) (s : CopyState K) (d db : K)
    (Lx : Nat → K) : RotState K :=
  let w := initDirections sqrt a s d db Lx
  forRange (a.k + 1) a.n (rotateRow s.Lp s.Li)
    { Lx := Lx, wu := w.1, wd := w.2, alpha := 1, alpha2 := 1 }

/-! ## The kernel -/

/-- The kernel `mexFunction`, from line 105 on (after the argument checks and
`k = k-1`). -/
def ldlrowmodify (sqrt : K → K) (a : Args K) : Except KernelError (Factor K) :=
  let s := copyPhase a
  match pivotPhase a s with
  | Except.error e => Except.error e
  | Except.ok ps =>
    if a.k < a.n - 1 then
      let t := trailingColumn a s ps
      let r := rotatePhase sqrt a s ps.d ps.db t.1
      Except.ok { Lp := s.Lp, Li := s.Li, Lx := r.Lx }
    else
      Except.ok { Lp := s.Lp, Li := s.Li, Lx := ps.Lx }

end Kernel


/-! ## Specification-side notions -/

/-- Offset `i` lies in one of the columns `0 .. n-1` of the column pointers `Lp2`. -/
def Stored (Lp2 : Nat → Nat) (n i : Nat) : Prop :=
  ∃ j, j < n ∧ Lp2 j ≤ i ∧ i < Lp2 (j + 1)

/-- The offsets of column `j` that the copy loop records: those holding row
index `k`, when `j < k`. -/
def rowKOffsets {K : Type} (a : Args K) (j : Nat) : List Nat :=
  (List.range' (a.Lp2 j) (a.Lp2 (j + 1) - a.Lp2 j)).filter
    (fun i => decide (a.Li2 i = a.k ∧ j < a.k))

/-- The pairs (column, offset) recorded by the copy loop over the columns
`0 .. m-1`, in the order of the loop. -/
def krowSpec {K : Type} (a : Args K) (m : Nat) : List (Nat × Nat) :=
  (List.range m).flatMap (fun j => (rowKOffsets a j).map (fun i => (j, i)))

/-- The columns `0 .. m-1` of a compressed-column pattern are well formed:
each is non-empty, stores its diagonal entry first, and has strictly increasing
row indices. -/
def ColumnsValid (m : Nat) (Lp Li : Nat → Nat) : Prop :=
  ∀ j, j < m → Lp j < Lp (j + 1) ∧ Li (Lp j) = j ∧
    ∀ p q, Lp j ≤ p → p < q → q < Lp (j + 1) → Li p < Li q

/-- The stored row indices of the update column are strictly increasing. -/
def PatternSorted {K : Type} (a : Args K) : Prop :=
  ∀ p q, a.cp 0 ≤ p → p < q → q < a.cp 1 → a.ci p < a.ci q

/-- The entry `(i, j)` of the strictly lower triangular part of the factor: the
sum of the values stored at row `i` after the first entry of column `j` (there is
at most one when the row indices of the column strictly increase, and none
gives `0`). -/
def lowerEntry {K : Type} [Field K] (Lp Li : Nat → Nat) (Lx : Nat → K) (i j : Nat) : K :=
  ((List.range' (Lp j + 1) (Lp (j + 1) - (Lp j + 1))).map
    (fun p => if Li p = i then Lx p else 0)).sum

/-- The entry `(i, j)` of the unit lower triangular factor `L`. -/
def unitLower {K : Type} [Field K] (Lp Li : Nat → Nat) (Lx : Nat → K) (i j : Nat) : K :=
  if i = j then 1 else lowerEntry Lp Li Lx i j

/-- The change `after[i] - before[i]` of row `i` of the update column: the sum
over the stored entries with row index `i` (at most one when the pattern is
strictly increasing, and none gives `0`). -/
def colDelta {K : Type} [Field K] (a : Args K) (i : Nat) : K :=
  ((List.range' (a.cp 0) (a.cp 1 - a.cp 0)).map
    (fun p => if a.ci p = i then a.cx2 p - a.cx p else 0)).sum

/-- The entry `(i, j)` of the product `L * D * Lᵗ` represented by the stored
factor `f` of dimension `n` (`D` on the diagonal of the storage, `L` unit lower
triangular). -/
def ldlt {K : Type} [Field K] (n : Nat) (f : Factor K) (i j : Nat) : K :=
  ∑ m in Finset.range n,
    unitLower f.Lp f.Li f.Lx i m * f.Lx (f.Lp m) * unitLower f.Lp f.Li f.Lx j m

/-- The matrix `C` with row and column `k` changed by `after - before`. -/
def updatedMatrix {K : Type} [Field K] (a : Args K) (C : Nat → Nat → K) (i j : Nat) : K :=
  if j = a.k then C i j + colDelta a i
  else if i = a.k then C i j + colDelta a j
  else C i j

/-- The input factor of a call. -/
def inputFactor {K : Type} (a : Args K) : Factor K :=
  { Lp := a.Lp2, Li := a.Li2, Lx := a.Lx2 }

/-- The vector `Δ` left by the forward substitution of lines 139-152 (before
the rescaling of lines 170-173). -/
def leadingDelta {K : Type} [Field K] [DecidableEq K] (a : Args K) : Nat → K :=
  solveL11 a.k (copyPhase a).Lp (copyPhase a).Li (copyPhase a).Lx (deltaInit a)


/-! ## Concrete inputs -/

/-- The array holding the entries of `l`, read as `0` past its end. -/
def arr {α : Type} [Zero α] (l : List α) : Nat → α := fun i => l.getD i 0

/-- The values stored at the offsets `0 .. m-1`. -/
def values {K : Type} (m : Nat) (Lx : Nat → K) : List K := (List.range m).map Lx

/-- Scenario A: `L = diag(4,3)`, `before = [4,0]`, `after = [9,0]`, `k = 0`. -/
def scenarioA : Args ℚ :=
  { n := 2, k := 0, Lp2 := arr [0, 1, 2], Li2 := arr [0, 1], Lx2 := arr [4, 3],
    cp := arr [0, 1], ci := arr [0], cx := arr [4], cx2 := arr [9] }

/-- A dense 3×3 example, `k = 1`.  `C = [[1,1,1],[1,2,1],[1,1,3]]` has the
factor `L = [[1,0,0],[1,1,0],[1,0,1]]`, `D = diag(1,1,2)`, stored with the full
lower triangular pattern (the entry `L[2,1] = 0` is stored).  Column 1 changes
from `[1,2,1]` to `[1,2,2]`. -/
def denseExample : Args ℚ :=
  { n := 3, k := 1, Lp2 := arr [0, 3, 5, 6], Li2 := arr [0, 1, 2, 1, 2, 2],
    Lx2 := arr [1, 1, 1, 1, 0, 2],
    cp := arr [0, 3], ci := arr [0, 1, 2], cx := arr [1, 2, 1], cx2 := arr [1, 2, 2] }

/-- A dense 3×3 example without any zero entry, `k = 0`.
`C = [[1,1,1],[1,2,2],[1,2,7]]` has the factor `L = [[1,0,0],[1,1,0],[1,1,1]]`,
`D = diag(1,1,5)`.  Column 0 changes from `[1,1,1]` to `[1,1,2]`; the changed
matrix `[[1,1,2],[1,2,2],[2,2,7]]` has the factor `L = [[1,0,0],[1,1,0],[2,0,1]]`,
`D = diag(1,1,3)`. -/
def cancellationExample : Args ℚ :=
  { n := 3, k := 0, Lp2 := arr [0, 3, 5, 6], Li2 := arr [0, 1, 2, 1, 2, 2],
    Lx2 := arr [1, 1, 1, 1, 1, 5],
    cp := arr [0, 3], ci := arr [0, 1, 2], cx := arr [1, 1, 1], cx2 := arr [1, 1, 2] }

/-- The factor `L = diag(4,3)`, `k = 0`, and update columns that store row 1 only. -/
def missingRowZero : Args ℚ :=
  { n := 2, k := 0, Lp2 := arr [0, 1, 2], Li2 := arr [0, 1], Lx2 := arr [4, 3],
    cp := arr [0, 1], ci := arr [1], cx := arr [5], cx2 := arr [7] }

/-- A dense 3×3 example with `k = 2`: `L = [[1,0,0],[1/2,1,0],[1,1/3,1]]`,
`D = diag(2,3,5)`, and the last column changes from `[2,1,5]` to `[4,2,7]`. -/
def denseExample2 : Args ℚ :=
  { n := 3, k := 2, Lp2 := arr [0, 3, 5, 6], Li2 := arr [0, 1, 2, 1, 2, 2],
    Lx2 := arr [2, 1 / 2, 1, 3, 1 / 3, 5],
    cp := arr [0, 3], ci := arr [0, 1, 2], cx := arr [2, 1, 5], cx2 := arr [4, 2, 7] }

/-- A tridiagonal 3×3 factor, `k = 1`, and update columns that store row 1 only
(`cp[1] = 1`) in arrays with room for two entries: the unused second slot holds
the row index 2 and the values 0 (`before`) and 1 (`after`). -/
def staleSlack : Args ℚ :=
  { n := 3, k := 1, Lp2 := arr [0, 2, 4, 5], Li2 := arr [0, 1, 1, 2, 2],
    Lx2 := arr [4, 1 / 2, 4, 1 / 2, 2],
    cp := arr [0, 1], ci := arr [1, 2], cx := arr [5, 0], cx2 := arr [6, 1] }


/-! ## Scenario C: the 3×3 tridiagonal pattern -/

/-- The symmetric tridiagonal 3×3 matrix with the given lower entries. -/
def tridiagMatrix {K : Type} [Field K] (c00 c10 c11 c21 c22 : K) : Nat → Nat → K :=
  fun i j =>
    if i = 0 ∧ j = 0 then c00
    else if (i = 1 ∧ j = 0) ∨ (i = 0 ∧ j = 1) then c10
    else if i = 1 ∧ j = 1 then c11
    else if (i = 2 ∧ j = 1) ∨ (i = 1 ∧ j = 2) then c21
    else if i = 2 ∧ j = 2 then c22
    else 0

/-- The matrix `C` of dimension `n` is positive definite. -/
def PosDef {K : Type} [LinearOrderedField K] (n : Nat) (C : Nat → Nat → K) : Prop :=
  ∀ x : Nat → K, (∃ i, i < n ∧ x i ≠ 0) →
    0 < ∑ i in Finset.range n, ∑ j in Finset.range n, x i * C i j * x j

/-- Column `j` of the textbook dense `L * D * Lᵗ` factorization of `C`, computed
from the columns before it: the state is the pair (`L`, `D`). -/
def ldlColumn {K : Type} [Field K] (n : Nat) (C : Nat → Nat → K) (j : Nat)
    (st : (Nat → Nat → K) × (Nat → K)) : (Nat → Nat → K) × (Nat → K) :=
  let dj := C j j - ∑ m in Finset.range j, st.1 j m * st.1 j m * st.2 m
  (fun i m =>
    if m = j ∧ j < i ∧ i < n then
      (C i j - ∑ q in Finset.range j, st.1 i q * st.1 j q * st.2 q) / dj
    else st.1 i m,
   Function.update st.2 j dj)

/-- The `L * D * Lᵗ` factorization of the `n × n` matrix `C` computed from
scratch, column by column. -/
def denseLDL {K : Type} [Field K] (n : Nat) (C : Nat → Nat → K) :
    (Nat → Nat → K) × (Nat → K) :=
  forRange 0 n (ldlColumn n C) (fun _ _ => 0, fun _ => 0)

/-- The values of a dense factorization in the storage order of the tridiagonal
3×3 pattern: column 0 rows {0,1}, column 1 rows {1,2}, column 2 row {2}. -/
def tridiagStore {K : Type} (f : (Nat → Nat → K) × (Nat → K)) : List K :=
  [f.2 0, f.1 1 0, f.2 1, f.1 2 1, f.2 2]

/-- The call of scenario C: a factor with the tridiagonal 3×3 pattern, `k = 1`,
update columns on the pattern {0,1,2}. -/
def tridiagArgs {K : Type} [Field K] (Lx2 before after : List K) : Args K :=
  { n := 3, k := 1, Lp2 := arr [0, 2, 4, 5], Li2 := arr [0, 1, 1, 2, 2], Lx2 := arr Lx2,
    cp := arr [0, 3], ci := arr [0, 1, 2], cx := arr before, cx2 := arr after }


/-! ## Notions for the trailing phases -/

/-- The entry `(i, j)` of the product `L33 * D33 * L33ᵗ` of the trailing block
(the columns `k+1 .. n-1`) of the stored factor `f`. -/
def ldltTrailing {K : Type} [Field K] (k n : Nat) (f : Factor K) (i j : Nat) : K :=
  ∑ m in Finset.Ico (k + 1) n,
    unitLower f.Lp f.Li f.Lx i m * f.Lx (f.Lp m) * unitLower f.Lp f.Li f.Lx j m

/-- The pattern is closed under fill from column `k` on: when a column `j ≥ k`
stores the rows `r1 < r2` below its diagonal, column `r1` stores row `r2`. -/
def FillClosed (k n : Nat) (Lp Li : Nat → Nat) : Prop :=
  ∀ j, k ≤ j → j < n → ∀ p q, Lp j < p → p < q → q < Lp (j + 1) →
    ∃ t, Lp (Li p) < t ∧ t < Lp (Li p + 1) ∧ Li t = Li q

section Instrumented

variable {K : Type} [Field K] [DecidableEq K]

/-- The merge loop of lines 202-209 together with the list of the offsets
`cind` at which it reads `ci[cind]` (one read per iteration, line 203). -/
def mergeStepReads (a : Args K) (Li : Nat → Nat) (w : Nat → K) (d db : K) (p : Nat)
    (st : ((Nat → K) × Nat) × List Nat) : ((Nat → K) × Nat) × List Nat :=
  (mergeStep a Li w d db p st.1, st.2 ++ [st.1.2])

/-- The merge loop of lines 214-221 together with the list of the offsets
`cind` at which it reads `ci[cind]` (one read per iteration, line 215). -/
def mergeStep0Reads (a : Args K) (Li : Nat → Nat) (d db : K) (p : Nat)
    (st : ((Nat → K) × Nat) × List Nat) : ((Nat → K) × Nat) × List Nat :=
  (mergeStep0 a Li d db p st.1, st.2 ++ [st.1.2])

/-- The offsets at which lines 191-222 read the row-index array `ci` of the
update column, in the order of the reads. -/
def trailingColumnReads (a : Args K) (s : CopyState K) (ps : PivotState K) : List Nat :=
  if 0 < a.k then
    let w := accumW a s.Lp s.Li ps.deltal12
    (forRange (s.Lp a.k + 1) (s.Lp (a.k + 1)) (mergeStepReads a s.Li w ps.d ps.db)
      ((ps.Lx, ps.cind + 1), [])).2
  else
    (forRange (s.Lp a.k + 1) (s.Lp (a.k + 1)) (mergeStep0Reads a s.Li ps.d ps.db)
      ((ps.Lx, a.cp a.k + 1), [])).2

end Instrumented

/-! ## The two-pass variant of the `L_33` loop -/

section TwoPass

variable {K : Type} [Field K] [DecidableEq K]

/-- The update half of the body of lines 247-253 (lines 248-249). -/
def updateEntry (Li : Nat → Nat) (i : Nat) (gamma : K) (p : Nat) (s : RotState K) :
    RotState K :=
  let wu := Function.update s.wu (Li p) (s.wu (Li p) - s.wu i * s.Lx p)
  let Lx := Function.update s.Lx p (s.Lx p + gamma * wu (Li p))
  { s with Lx := Lx, wu := wu }

/-- The downdate half of the body of lines 247-253 (lines 251-252). -/
def downdateEntry (Li : Nat → Nat) (i : Nat) (gamma2 : K) (p : Nat) (s : RotState K) :
    RotState K :=
  let wd := Function.update s.wd (Li p) (s.wd (Li p) - s.wd i * s.Lx p)
  let Lx := Function.update s.Lx p (s.Lx p - gamma2 * wd (Li p))
  { s with Lx := Lx, wd := wd }

/-- The update step of row `i` alone: lines 237-240 and the update half of the
inner loop, under the gate `wu[i] != 0`. -/
def updateRow (Lp Li : Nat → Nat) (i : Nat) (s : RotState K) : RotState K :=
  if s.wu i ≠ 0 then
    let beta := s.alpha + s.wu i * s.wu i / s.Lx (Lp i)
    let gamma := s.wu i / (beta * s.Lx (Lp i))
    let Lx := Function.update s.Lx (Lp i) ((beta / s.alpha) * s.Lx (Lp i))
    forRange (Lp i + 1) (Lp (i + 1)) (updateEntry Li i gamma)
      { s with Lx := Lx, alpha := beta }
  else s

/-- The downdate step of row `i` alone: lines 242-245 and the downdate half of
the inner loop, under the same gate `wu[i] != 0`. -/
def downdateRow (Lp Li : Nat → Nat) (i : Nat) (s : RotState K) : RotState K :=
  if s.wu i ≠ 0 then
    let beta2 := s.alpha2 - s.wd i * s.wd i / s.Lx (Lp i)
    let gamma2 := s.wd i / (beta2 * s.Lx (Lp i))
    let Lx := Function.update s.Lx (Lp i) ((beta2 / s.alpha2) * s.Lx (Lp i))
    forRange (Lp i + 1) (Lp (i + 1)) (downdateEntry Li i gamma2)
      { s with Lx := Lx, alpha2 := beta2 }
  else s

/-- The two-pass variant of lines 225-255: the update step for all the rows
`k+1 .. n-1`, and only afterwards the downdate step for the same rows in the
same order. -/
def rotatePhaseTwoPass (sqrt : K → K) (a : Args K) (s : CopyState K) (d db : K)
    (Lx : Nat → K) : RotState K :=
  let w := initDirections sqrt a s d db Lx
  forRange (a.k + 1) a.n (downdateRow s.Lp s.Li)
    (forRange (a.k + 1) a.n (updateRow s.Lp s.Li)
      { Lx := Lx, wu := w.1, wd := w.2, alpha := 1, alpha2 := 1 })

/-- The kernel with the two-pass variant in place of the `L_33` loop. -/
def ldlrowmodifyTwoPass (sqrt : K → K) (a : Args K) : Except KernelError (Factor K) :=
  let s := copyPhase a
  match pivotPhase a s with
  | Except.error e => Except.error e
  | Except.ok ps =>
    if a.k < a.n - 1 then
      let t := trailingColumn a s ps
      let r := rotatePhaseTwoPass sqrt a s ps.d ps.db t.1
      Except.ok { Lp := s.Lp, Li := s.Li, Lx := r.Lx }
    else
      Except.ok { Lp := s.Lp, Li := s.Li, Lx := ps.Lx }

end TwoPass

/-! ## Further concrete inputs -/

/-- A 2×2 factor with `L[1,0] = 1/2`, `D = diag(4,2)`, `k = 0`, and update
columns that store row 0 only (`cp[1] = 1`) in arrays with room for two
entries: the unused second slot holds the row index 1 and the values 0
(`before`) and 1 (`after`). -/
def staleSlack0 : Args ℚ :=
  { n := 2, k := 0, Lp2 := arr [0, 2, 3], Li2 := arr [0, 1, 1], Lx2 := arr [4, 1 / 2, 2],
    cp := arr [0, 1], ci := arr [0, 1], cx := arr [4, 0], cx2 := arr [9, 1] }

/-- A tridiagonal 3×3 factor, `k = 1`, and update columns whose only stored
entry is row 1, in arrays with exactly one entry. -/
def patternEndsEarly : Args ℚ :=
  { n := 3, k := 1, Lp2 := arr [0, 2, 4, 5], Li2 := arr [0, 1, 1, 2, 2],
    Lx2 := arr [4, 1 / 2, 4, 1 / 2, 2],
    cp := arr [0, 1], ci := arr [1], cx := arr [5], cx2 := arr [6] }

/-- A dense 3×3 factor, `L = [[1,0,0],[1/2,1,0],[1,1/3,1]]`, `D = diag(2,3,5)`,
the exact factor of `C = [[2,1,2],[1,7/2,2],[2,2,22/3]]`, `k = 1`.  Column 1
changes from `[1,7/2,2]` to `[2,7/2,2]` on the pattern {0,1,2}: the changed
matrix is positive definite and its factor has the same (full) pattern. -/
def leadingChange : Args ℚ :=
  { n := 3, k := 1, Lp2 := arr [0, 3, 5, 6], Li2 := arr [0, 1, 2, 1, 2, 2],
    Lx2 := arr [2, 1 / 2, 1, 3, 1 / 3, 5],
    cp := arr [0, 3], ci := arr [0, 1, 2], cx := arr [1, 7 / 2, 2],
    cx2 := arr [2, 7 / 2, 2] }

/-- A 3×3 factor whose column 0 stores the rows {0,2} only, `k = 1`, and update
columns on the pattern {0,1} that change the entry (0,1) from 0 to 1: an update
that would change the pattern of `L`. -/
def unstoredRowK : Args ℚ :=
  { n := 3, k := 1, Lp2 := arr [0, 2, 4, 5], Li2 := arr [0, 2, 1, 2, 2],
    Lx2 := arr [2, 1, 3, 1, 4],
    cp := arr [0, 2], ci := arr [0, 1], cx := arr [0, 5], cx2 := arr [1, 5] }

/-- A 3×3 factor stored without the entry (2,1): `L = [[1,0,0],[1,1,0],[1,0,1]]`,
`D = diag(1,1,1)`, the exact factor of `C = [[1,1,1],[1,2,1],[1,1,2]]`, whose
entry `L[2,1]` is 0.  `k = 0`, and `before = after = [1,1,1]`. -/
def openPattern : Args ℚ :=
  { n := 3, k := 0, Lp2 := arr [0, 3, 4, 5], Li2 := arr [0, 1, 2, 1, 2],
    Lx2 := arr [1, 1, 1, 1, 1],
    cp := arr [0, 3], ci := arr [0, 1, 2], cx := arr [1, 1, 1], cx2 := arr [1, 1, 1] }


/-- The dense 3×3 factor `L = [[1,0,0],[1,1,0],[1,1,1]]`, `D = diag(1,1,5)` of
`cancellationExample`, `k = 0`, and `before = after = [1,1,1]`. -/
def identityExample : Args ℚ :=
  { n := 3, k := 0, Lp2 := arr [0, 3, 5, 6], Li2 := arr [0, 1, 2, 1, 2, 2],
    Lx2 := arr [1, 1, 1, 1, 1, 5],
    cp := arr [0, 3], ci := arr [0, 1, 2], cx := arr [1, 1, 1], cx2 := arr [1, 1, 1] }
set_option linter.unusedSectionVars false

/-! ## Loop lemmas -/

theorem forRange_nil {σ : Type} (lo hi : Nat) (body : Nat → σ → σ) (s : σ) (h : hi ≤ lo) :
    forRange lo hi body s = s := by
  simp [forRange, Nat.sub_eq_zero_of_le h]

theorem forRange_succ_right {σ : Type} (lo hi : Nat) (body : Nat → σ → σ) (s : σ)
    (h : lo ≤ hi) :
    forRange lo (hi + 1) body s = body hi (forRange lo hi body s) := by
  unfold forRange
  have : hi + 1 - lo = (hi - lo) + 1 := by omega
  rw [this, List.range'_concat, List.foldl_append]
  simp
  congr 1
  omega

theorem forRange_succ_left {σ : Type} (lo hi : Nat) (body : Nat → σ → σ) (s : σ)
    (h : lo < hi) :
    forRange lo hi body s = forRange (lo + 1) hi body (body lo s) := by
  unfold forRange
  have : hi - lo = (hi - (lo + 1)) + 1 := by omega
  rw [this, List.range'_succ]
  simp

/-- Invariant rule for `forRange`: a property that holds at the start and is
kept by every iteration holds at the end. -/
theorem forRange_induction {σ : Type} (P : Nat → σ → Prop) (lo hi : Nat)
    (body : Nat → σ → σ) (s : σ) (hle : lo ≤ hi) (h0 : P lo s)
    (hstep : ∀ p s, lo ≤ p → p < hi → P p s → P (p + 1) (body p s)) :
    P hi (forRange lo hi body s) := by
  induction hi with
  | zero =>
    have : lo = 0 := by omega
    subst this
    simpa [forRange] using h0
  | succ m ih =>
    rcases Nat.eq_or_lt_of_le hle with h | h
    · subst h
      rw [forRange_nil _ _ _ _ (le_refl _)]
      exact h0
    · have hle2 : lo ≤ m := by omega
      rw [forRange_succ_right _ _ _ _ hle2]
      apply hstep m _ hle2 (by omega)
      exact ih hle2 (fun p s h1 h2 hp => hstep p s h1 (by omega) hp)

section CopyLemmas

variable {K : Type} [Field K] [DecidableEq K]

theorem copyColumn_Lp (a : Args K) (j : Nat) (s : CopyState K) :
    (copyColumn a j s).Lp = Function.update s.Lp j (a.Lp2 j) := by
  unfold copyColumn
  rcases Nat.lt_or_ge (a.Lp2 (j + 1)) (a.Lp2 j) with h | h
  · rw [forRange_nil _ _ _ _ (by omega)]
  · exact forRange_induction (fun _ (t : CopyState K) => t.Lp = Function.update s.Lp j (a.Lp2 j))
      _ _ _ _ h rfl (fun p t _ _ ht => by simpa [copyEntry] using ht)

theorem copyColumn_Li (a : Args K) (j : Nat) (s : CopyState K) (i : Nat) :
    (copyColumn a j s).Li i =
      if a.Lp2 j ≤ i ∧ i < a.Lp2 (j + 1) then a.Li2 i else s.Li i := by
  unfold copyColumn
  rcases Nat.lt_or_ge (a.Lp2 (j + 1)) (a.Lp2 j) with h | h
  · rw [forRange_nil _ _ _ _ (by omega), if_neg (by omega)]
  · have := forRange_induction
      (fun q (t : CopyState K) => t.Li i = if a.Lp2 j ≤ i ∧ i < q then a.Li2 i else s.Li i)
      (a.Lp2 j) (a.Lp2 (j + 1)) (copyEntry a.k j a.Li2 a.Lx2)
      { s with Lp := Function.update s.Lp j (a.Lp2 j) } h
      (by beta_reduce; rw [if_neg (by omega)])
      (fun p t h1 h2 ht => by
        simp only [copyEntry]
        by_cases hip : i = p
        · subst hip
          simp [h1]
        · rw [Function.update_noteq hip, ht]
          have : (a.Lp2 j ≤ i ∧ i < p + 1) ↔ (a.Lp2 j ≤ i ∧ i < p) := by omega
          simp only [this])
    exact this

theorem copyColumn_Lx (a : Args K) (j : Nat) (s : CopyState K) (i : Nat) :
    (copyColumn a j s).Lx i =
      if a.Lp2 j ≤ i ∧ i < a.Lp2 (j + 1) then a.Lx2 i else s.Lx i := by
  unfold copyColumn
  rcases Nat.lt_or_ge (a.Lp2 (j + 1)) (a.Lp2 j) with h | h
  · rw [forRange_nil _ _ _ _ (by omega), if_neg (by omega)]
  · have := forRange_induction
      (fun q (t : CopyState K) => t.Lx i = if a.Lp2 j ≤ i ∧ i < q then a.Lx2 i else s.Lx i)
      (a.Lp2 j) (a.Lp2 (j + 1)) (copyEntry a.k j a.Li2 a.Lx2)
      { s with Lp := Function.update s.Lp j (a.Lp2 j) } h
      (by beta_reduce; rw [if_neg (by omega)])
      (fun p t h1 h2 ht => by
        simp only [copyEntry]
        by_cases hip : i = p
        · subst hip
          simp [h1]
        · rw [Function.update_noteq hip, ht]
          have : (a.Lp2 j ≤ i ∧ i < p + 1) ↔ (a.Lp2 j ≤ i ∧ i < p) := by omega
          simp only [this])
    exact this

/-- State of the copy loop after the columns `0 .. m-1`. -/
theorem copyLoop_spec (a : Args K) (m : Nat) :
    let s := forRange 0 m (copyColumn a)
      { Lp := fun _ => 0, Li := fun _ => 0, Lx := fun _ => 0, krow := [] }
    (∀ j, s.Lp j = if j < m then a.Lp2 j else 0) ∧
    (∀ i, Stored a.Lp2 m i → s.Li i = a.Li2 i ∧ s.Lx i = a.Lx2 i) ∧
    (∀ i, ¬ Stored a.Lp2 m i → s.Li i = 0 ∧ s.Lx i = 0) := by
  induction m with
  | zero =>
    simp [forRange, Stored]
  | succ m ih =>
    simp only at ih ⊢
    rw [forRange_succ_right _ _ _ _ (Nat.zero_le m)]
    obtain ⟨ih1, ih2, ih3⟩ := ih
    refine ⟨?_, ?_, ?_⟩
    · intro j
      rw [copyColumn_Lp]
      by_cases hj : j = m
      · subst hj; simp
      · rw [Function.update_noteq hj, ih1]
        have : j < m + 1 ↔ j < m := by omega
        simp only [this]
    · intro i hi
      rw [copyColumn_Li, copyColumn_Lx]
      by_cases hc : a.Lp2 m ≤ i ∧ i < a.Lp2 (m + 1)
      · simp [hc]
      · rw [if_neg hc, if_neg hc]
        apply ih2
        obtain ⟨j, hj, h1, h2⟩ := hi
        rcases Nat.lt_or_ge j m with h | h
        · exact ⟨j, h, h1, h2⟩
        · have : j = m := by omega
          subst this
          exact absurd ⟨h1, h2⟩ hc
    · intro i hi
      rw [copyColumn_Li, copyColumn_Lx]
      have hc : ¬ (a.Lp2 m ≤ i ∧ i < a.Lp2 (m + 1)) := fun h =>
        hi ⟨m, Nat.lt_succ_self m, h.1, h.2⟩
      rw [if_neg hc, if_neg hc]
      apply ih3
      rintro ⟨j, hj, h1, h2⟩
      exact hi ⟨j, by omega, h1, h2⟩

theorem copyPhase_Lp (a : Args K) (j : Nat) (hj : j ≤ a.n) :
    (copyPhase a).Lp j = a.Lp2 j := by
  unfold copyPhase
  simp only
  by_cases h : j = a.n
  · subst h; simp
  · rw [Function.update_noteq h, (copyLoop_spec a a.n).1, if_pos (by omega)]

theorem copyPhase_Li (a : Args K) (i : Nat) (hi : Stored a.Lp2 a.n i) :
    (copyPhase a).Li i = a.Li2 i :=
  ((copyLoop_spec a a.n).2.1 i hi).1

theorem copyPhase_Lx (a : Args K) (i : Nat) (hi : Stored a.Lp2 a.n i) :
    (copyPhase a).Lx i = a.Lx2 i :=
  ((copyLoop_spec a a.n).2.1 i hi).2

theorem stored_of_lt (Lp2 : Nat → Nat) (h0 : Lp2 0 = 0) (n i : Nat) (hi : i < Lp2 n) :
    Stored Lp2 n i := by
  induction n with
  | zero => omega
  | succ m ih =>
    rcases Nat.lt_or_ge i (Lp2 m) with h | h
    · obtain ⟨j, hj, h1, h2⟩ := ih h
      exact ⟨j, by omega, h1, h2⟩
    · exact ⟨m, Nat.lt_succ_self m, h, hi⟩

end CopyLemmas


section KernelLemmas

variable {K : Type} [Field K] [DecidableEq K]

/-- What a successful call returns: the copied pattern, and the values left by
the last block that ran. -/
theorem ldlrowmodify_ok (sqrt : K → K) (a : Args K) (out : Factor K)
    (h : ldlrowmodify sqrt a = Except.ok out) :
    out.Lp = (copyPhase a).Lp ∧ out.Li = (copyPhase a).Li ∧
    ∃ ps, pivotPhase a (copyPhase a) = Except.ok ps ∧
      out.Lx = if a.k < a.n - 1 then
        (rotatePhase sqrt a (copyPhase a) ps.d ps.db
          (trailingColumn a (copyPhase a) ps).1).Lx
      else ps.Lx := by
  unfold ldlrowmodify at h
  simp only at h
  cases hp : pivotPhase a (copyPhase a) with
  | error e => rw [hp] at h; simp at h
  | ok ps =>
    rw [hp] at h
    simp only at h
    by_cases hk : a.k < a.n - 1
    · rw [if_pos hk] at h
      injection h with h
      subst h
      exact ⟨rfl, rfl, ps, rfl, by simp [hk]⟩
    · rw [if_neg hk] at h
      injection h with h
      subst h
      exact ⟨rfl, rfl, ps, rfl, by simp [hk]⟩

end KernelLemmas

/-- Claim C2 (pattern preservation).  For an input whose column pointers start
at `0`, every call that returns an output returns the input's column pointers
(all `n+1` entries) and the input's row indices (all `nnz = Lp2[n]` entries). -/
theorem C2_pattern_preserved {K : Type} [Field K] [DecidableEq K] (sqrt : K → K)
    (a : Args K) (out : Factor K) (h0 : a.Lp2 0 = 0)
    (h : ldlrowmodify sqrt a = Except.ok out) :
    (∀ j, j ≤ a.n → out.Lp j = a.Lp2 j) ∧ (∀ i, i < a.Lp2 a.n → out.Li i = a.Li2 i) := by
  obtain ⟨h1, h2, _⟩ := ldlrowmodify_ok sqrt a out h
  refine ⟨fun j hj => ?_, fun i hi => ?_⟩
  · rw [h1]; exact copyPhase_Lp a j hj
  · rw [h2]; exact copyPhase_Li a i (stored_of_lt a.Lp2 h0 a.n i hi)


/-! ## The indices of row `k` -/

section KrowLemmas

variable {K : Type} [Field K] [DecidableEq K]

theorem copyEntry_foldl_krow (k j : Nat) (Li2 : Nat → Nat) (Lx2 : Nat → K) (l : List Nat)
    (s : CopyState K) :
    (l.foldl (fun s p => copyEntry k j Li2 Lx2 p s) s).krow =
      s.krow ++ (l.filter (fun i => decide (Li2 i = k ∧ j < k))).map (fun i => (j, i)) := by
  induction l generalizing s with
  | nil => simp
  | cons p l ih =>
    rw [List.foldl_cons, ih]
    by_cases hp : Li2 p = k ∧ j < k
    · simp [copyEntry, hp, List.filter_cons]
    · simp [copyEntry, hp, List.filter_cons]

theorem copyColumn_krow (a : Args K) (j : Nat) (s : CopyState K) :
    (copyColumn a j s).krow = s.krow ++ (rowKOffsets a j).map (fun i => (j, i)) := by
  unfold copyColumn forRange rowKOffsets
  rw [copyEntry_foldl_krow]

theorem copyLoop_krow (a : Args K) (m : Nat) :
    (forRange 0 m (copyColumn a)
      { Lp := fun _ => 0, Li := fun _ => 0, Lx := fun _ => 0, krow := [] }).krow
      = krowSpec a m := by
  induction m with
  | zero => simp [forRange, krowSpec]
  | succ m ih =>
    rw [forRange_succ_right _ _ _ _ (Nat.zero_le m), copyColumn_krow, ih]
    simp [krowSpec, List.range_succ]

theorem copyPhase_krow (a : Args K) : (copyPhase a).krow = krowSpec a a.n :=
  copyLoop_krow a a.n

theorem mem_krowSpec (a : Args K) (m : Nat) (t : Nat × Nat) :
    t ∈ krowSpec a m ↔
      t.1 < m ∧ t.1 < a.k ∧ a.Lp2 t.1 ≤ t.2 ∧ t.2 < a.Lp2 (t.1 + 1) ∧ a.Li2 t.2 = a.k := by
  obtain ⟨j, i⟩ := t
  simp only [krowSpec, rowKOffsets, List.mem_flatMap, List.mem_map, List.mem_filter,
    List.mem_range, List.mem_range', decide_eq_true_eq, Prod.mk.injEq]
  constructor
  · rintro ⟨j', hj', i', ⟨⟨q, hq, hi'⟩, h1, h2⟩, rfl, rfl⟩
    refine ⟨hj', h2, ?_, ?_, h1⟩ <;> omega
  · rintro ⟨h1, h2, h3, h4, h5⟩
    exact ⟨j, h1, i, ⟨⟨i - a.Lp2 j, by omega, by omega⟩, h5, h2⟩, rfl, rfl⟩

theorem setL12_of_not_mem (krow : List (Nat × Nat)) (dl Lx : Nat → K) (q : Nat)
    (hq : ∀ t ∈ krow, t.2 ≠ q) : setL12 krow dl Lx q = Lx q := by
  unfold setL12
  induction krow generalizing Lx with
  | nil => rfl
  | cons t krow ih =>
    rw [List.foldl_cons, ih _ (fun u hu => hq u (List.mem_cons_of_mem _ hu))]
    exact Function.update_noteq (Ne.symm (hq t (List.mem_cons_self _ _))) _ _

/-- Values left by the `l_12` / `D22` block away from the diagonal of column `k`
and from the recorded offsets of row `k`. -/
theorem pivotPhase_frame (a : Args K) (s : CopyState K) (ps : PivotState K)
    (h : pivotPhase a s = Except.ok ps) (q : Nat) (hq1 : q ≠ s.Lp a.k)
    (hq2 : ∀ t ∈ s.krow, t.2 ≠ q) : ps.Lx q = s.Lx q := by
  unfold pivotPhase at h
  by_cases hk : 0 < a.k
  · rw [if_pos hk] at h
    simp only at h
    cases hf : findDiag a with
    | none => rw [hf] at h; simp at h
    | some cind =>
      rw [hf] at h
      simp only at h
      injection h with h
      subst h
      simp only
      rw [Function.update_noteq hq1, setL12_of_not_mem _ _ _ _ hq2]
  · rw [if_neg hk] at h
    injection h with h
    subst h
    simp only
    rw [Function.update_noteq hq1]

end KrowLemmas

/-- Claim C5 (boundary `k = n-1`).  When `k = n-1` a successful call returns
the values left by the `l_12` / `D22` block (neither the `l_32` block nor the
`L_33` loop runs), and every stored value other than the diagonal entry of
column `k` and the entries with row index `k` in the columns before `k` equals
the input's. -/
theorem C5_last_column {K : Type} [Field K] [DecidableEq K] (sqrt : K → K)
    (a : Args K) (out : Factor K) (hk : a.k = a.n - 1)
    (h : ldlrowmodify sqrt a = Except.ok out) :
    (∃ ps, pivotPhase a (copyPhase a) = Except.ok ps ∧ out.Lx = ps.Lx) ∧
    ∀ p, Stored a.Lp2 a.n p → p ≠ a.Lp2 a.k →
      (¬ ∃ j, j < a.k ∧ a.Lp2 j ≤ p ∧ p < a.Lp2 (j + 1) ∧ a.Li2 p = a.k) →
      out.Lx p = a.Lx2 p := by
  obtain ⟨_, _, ps, hps, hLx⟩ := ldlrowmodify_ok sqrt a out h
  rw [if_neg (by omega)] at hLx
  refine ⟨⟨ps, hps, hLx⟩, fun p hp hpk hrow => ?_⟩
  rw [hLx, pivotPhase_frame a _ ps hps p, copyPhase_Lx a p hp]
  · rw [copyPhase_Lp a a.k (by omega)]; exact hpk
  · intro t ht hE
    rw [copyPhase_krow, mem_krowSpec] at ht
    exact hrow ⟨t.1, ht.2.1, by rw [← hE]; exact ht.2.2.1, by rw [← hE]; exact ht.2.2.2.1,
      by rw [← hE]; exact ht.2.2.2.2⟩


section DiagonalLemmas

variable {K : Type} [Field K] [DecidableEq K]

theorem krowSpec_eq_nil (a : Args K) (m : Nat)
    (h : ∀ j, j < m → rowKOffsets a j = []) : krowSpec a m = [] := by
  unfold krowSpec
  induction m with
  | zero => rfl
  | succ m ih =>
    rw [List.range_succ, List.flatMap_append, ih (fun j hj => h j (by omega))]
    simp [h m (Nat.lt_succ_self m)]

/-- The `L_33` loop changes nothing while `wu` is zero at every row it visits. -/
theorem rotate_wu_zero (Lp Li : Nat → Nat) (lo hi : Nat) (s : RotState K)
    (h : ∀ i, s.wu i = 0) : forRange lo hi (rotateRow Lp Li) s = s := by
  rcases Nat.lt_or_ge hi lo with hlt | hle
  · exact forRange_nil _ _ _ _ (by omega)
  · exact forRange_induction (fun _ t => t = s) lo hi _ s hle rfl
      (fun p t _ _ ht => by subst ht; simp [rotateRow, h p])

end DiagonalLemmas

/-- Claim C6 (diagonal-only update).  For a diagonal factor `L` (column `j`
stores only its pivot, at offset `j`) and update columns storing the single
row `k`, the call succeeds and returns `L` with the pivot of column `k`
replaced by `d_k + (after_k - before_k)`; every other value is unchanged. -/
theorem C6_diagonal_update {K : Type} [Field K] [DecidableEq K] (sqrt : K → K)
    (a : Args K) (hk : a.k < a.n) (hLp : ∀ j, j ≤ a.n → a.Lp2 j = j)
    (hLi : ∀ j, j < a.n → a.Li2 j = j) (hcp1 : a.cp 1 = 1)
    (hci : a.ci 0 = a.k) :
    ∃ out, ldlrowmodify sqrt a = Except.ok out ∧
      ∀ p, p < a.n → out.Lx p =
        if p = a.k then a.Lx2 a.k + (a.cx2 0 - a.cx 0) else a.Lx2 p := by
  have hst : ∀ p, p < a.n → Stored a.Lp2 a.n p := fun p hp =>
    ⟨p, hp, by rw [hLp p (by omega)], by rw [hLp (p + 1) (by omega)]; omega⟩
  have hkrow : (copyPhase a).krow = [] := by
    rw [copyPhase_krow]
    apply krowSpec_eq_nil
    intro j hj
    unfold rowKOffsets
    rw [hLp j (by omega), hLp (j + 1) (by omega)]
    have : j + 1 - j = 1 := by omega
    rw [this]
    simp only [List.range', List.filter_cons, List.filter_nil]
    rw [hLi j hj]
    have : ¬ (j = a.k ∧ j < a.k) := by omega
    simp [this]
  have hfind : findDiag a = some 0 := by
    unfold findDiag
    rw [hcp1]
    simp [List.range_succ, hci]
  have hLpk : (copyPhase a).Lp a.k = a.k := by
    rw [copyPhase_Lp a a.k (by omega), hLp a.k (by omega)]
  have hLpk1 : (copyPhase a).Lp (a.k + 1) = a.k + 1 := by
    rw [copyPhase_Lp a (a.k + 1) (by omega), hLp (a.k + 1) (by omega)]
  -- the `l_12` / `D22` block
  have hps : ∃ ps, pivotPhase a (copyPhase a) = Except.ok ps ∧
      ps.Lx = Function.update (copyPhase a).Lx a.k
        (a.Lx2 a.k + (a.cx2 0 - a.cx 0)) := by
    have hd : (copyPhase a).Lx a.k = a.Lx2 a.k := copyPhase_Lx a a.k (hst a.k hk)
    unfold pivotPhase
    by_cases h0 : 0 < a.k
    · rw [if_pos h0]
      simp only [hfind, hkrow, setL12, List.foldl_nil, hLpk, hd]
      exact ⟨_, rfl, by simp only [add_sub_assoc]⟩
    · rw [if_neg h0]
      simp only [hLpk, hd]
      exact ⟨_, rfl, by simp only [add_sub_assoc]⟩
  obtain ⟨ps, hps, hpsLx⟩ := hps
  have hval : ∀ p, p < a.n → ps.Lx p =
      if p = a.k then a.Lx2 a.k + (a.cx2 0 - a.cx 0) else a.Lx2 p := by
    intro p hp
    rw [hpsLx]
    by_cases hpk : p = a.k
    · rw [if_pos hpk, hpk, Function.update_same]
    · rw [if_neg hpk, Function.update_noteq hpk, copyPhase_Lx a p (hst p hp)]
  unfold ldlrowmodify
  simp only [hps]
  by_cases hlast : a.k < a.n - 1
  · rw [if_pos hlast]
    refine ⟨_, rfl, fun p hp => ?_⟩
    simp only
    have htc : (trailingColumn a (copyPhase a) ps).1 = ps.Lx := by
      unfold trailingColumn
      rw [hLpk, hLpk1]
      by_cases h0 : 0 < a.k
      · rw [if_pos h0, forRange_nil _ _ _ _ (le_refl _)]
      · rw [if_neg h0, forRange_nil _ _ _ _ (le_refl _)]
    have hrot : rotatePhase sqrt a (copyPhase a) ps.d ps.db ps.Lx =
        { Lx := ps.Lx, wu := fun _ => 0, wd := fun _ => 0, alpha := 1, alpha2 := 1 } := by
      unfold rotatePhase initDirections
      rw [hLpk, hLpk1, forRange_nil _ _ _ _ (le_refl _)]
      exact rotate_wu_zero _ _ _ _ _ (fun _ => rfl)
    rw [htc, hrot]
    exact hval p hp
  · rw [if_neg hlast]
    exact ⟨_, rfl, fun p hp => hval p hp⟩


/-! ## The forward substitution -/

section SolveLemmas

variable {K : Type} [Field K] [DecidableEq K]

theorem sum_map_ite_eq_zero (l : List Nat) (P : Nat → Prop) [DecidablePred P] (f : Nat → K)
    (h : ∀ p, p ∈ l → ¬ P p) : (l.map (fun p => if P p then f p else 0)).sum = 0 := by
  induction l with
  | nil => rfl
  | cons p l ih =>
    rw [List.map_cons, List.sum_cons, if_neg (h p (List.mem_cons_self _ _)),
      ih (fun q hq => h q (List.mem_cons_of_mem _ hq)), add_zero]

theorem sum_map_ite_eq_single (lo cnt : Nat) (g : Nat → Nat) (f : Nat → K) (i p : Nat)
    (hp1 : lo ≤ p) (hp2 : p < lo + cnt) (hpi : g p = i)
    (huniq : ∀ q, lo ≤ q → q < lo + cnt → g q = i → q = p) :
    ((List.range' lo cnt).map (fun q => if g q = i then f q else 0)).sum = f p := by
  induction cnt generalizing lo with
  | zero => omega
  | succ cnt ih =>
    rw [List.range'_succ, List.map_cons, List.sum_cons]
    by_cases hlo : lo = p
    · subst hlo
      rw [if_pos hpi, sum_map_ite_eq_zero, add_zero]
      intro q hq hqi
      rw [List.mem_range'_1] at hq
      have := huniq q (by omega) (by omega) hqi
      omega
    · have hne : g lo ≠ i := fun h => hlo (huniq lo (le_refl _) (by omega) h)
      rw [if_neg hne, zero_add]
      exact ih (lo + 1) (by omega) (by omega)
        (fun q h1 h2 h3 => huniq q (by omega) (by omega) h3)

/-- The loop of lines 140-143 on the stored entries `lo .. lo+cnt-1` of a sorted
update column. -/
theorem deltaInit_loop (k : Nat) (ci : Nat → Nat) (cx cx2 : Nat → K) (cnt lo : Nat)
    (dl : Nat → K)
    (hinc : ∀ p q, lo ≤ p → p < q → q < lo + cnt → ci p < ci q) (i : Nat) (hi : i < k) :
    let r := forBreak (fun p => decide (k ≤ ci p))
      (fun p dl => Function.update dl (ci p) (cx2 p - cx p)) (List.range' lo cnt) dl
    (∀ p, lo ≤ p → p < lo + cnt → ci p = i → r i = cx2 p - cx p) ∧
    ((∀ p, lo ≤ p → p < lo + cnt → ci p ≠ i) → r i = dl i) := by
  induction cnt generalizing lo dl with
  | zero =>
    simp only [List.range', forBreak]
    exact ⟨fun p h1 h2 => by omega, fun _ => by first | rfl | trivial⟩
  | succ cnt ih =>
    simp only [List.range', forBreak]
    by_cases hb : k ≤ ci lo
    · simp only [hb, decide_True, if_true]
      refine ⟨fun p h1 h2 h3 => ?_, fun _ => by first | rfl | trivial⟩
      rcases Nat.eq_or_lt_of_le h1 with h | h
      · subst h; omega
      · have := hinc lo p (le_refl _) h h2
        omega
    · simp only [hb, decide_False, Bool.false_eq_true, if_false]
      have ih' := ih (lo + 1) (Function.update dl (ci lo) (cx2 lo - cx lo))
        (fun p q h1 h2 h3 => hinc p q (by omega) h2 (by omega))
      simp only at ih'
      refine ⟨fun p h1 h2 h3 => ?_, fun h => ?_⟩
      · rcases Nat.eq_or_lt_of_le h1 with h | h
        · subst h
          rw [ih'.2 (fun q h4 h5 h6 => by
            have := hinc lo q (le_refl _) (by omega) (by omega)
            omega), h3, Function.update_same]
        · exact ih'.1 p (by omega) (by omega) h3
      · rw [ih'.2 (fun q h4 h5 => h q (by omega) (by omega)),
          Function.update_noteq (Ne.symm (h lo (le_refl _) (by omega)))]

/-- On the rows before `k`, the vector built by lines 139-143 is the change of
the update column. -/
theorem deltaInit_eq (a : Args K) (hs : PatternSorted a) (i : Nat) (hi : i < a.k) :
    deltaInit a i = colDelta a i := by
  have hl := deltaInit_loop a.k a.ci a.cx a.cx2 (a.cp 1 - a.cp 0) (a.cp 0) (fun _ => 0)
    (fun p q h1 h2 h3 => hs p q h1 h2 (by omega)) i hi
  simp only at hl
  unfold deltaInit colDelta
  by_cases hex : ∃ p, a.cp 0 ≤ p ∧ p < a.cp 0 + (a.cp 1 - a.cp 0) ∧ a.ci p = i
  · obtain ⟨p, h1, h2, h3⟩ := hex
    rw [hl.1 p h1 h2 h3]
    symm
    apply sum_map_ite_eq_single (a.cp 0) _ a.ci (fun q => a.cx2 q - a.cx q) i p h1 h2 h3
    intro q h4 h5 h6
    rcases Nat.lt_trichotomy q p with h | h | h
    · have := hs q p h4 h (by omega); omega
    · exact h
    · have := hs p q h1 h (by omega); omega
  · rw [hl.2 (fun p h1 h2 h3 => hex ⟨p, h1, h2, h3⟩)]
    symm
    apply sum_map_ite_eq_zero
    intro p hp h3
    rw [List.mem_range'_1] at hp
    exact hex ⟨p, hp.1, hp.2, h3⟩

/-- The inner loop of the forward substitution (lines 147-150) on the entries
`lo .. lo+cnt-1` of a column with increasing rows, none of them `j`. -/
theorem solve_inner_loop (k j : Nat) (Li : Nat → Nat) (Lx : Nat → K) (cnt lo : Nat)
    (dl : Nat → K) (hrow : ∀ p, lo ≤ p → p < lo + cnt → Li p ≠ j)
    (hinc : ∀ p q, lo ≤ p → p < q → q < lo + cnt → Li p < Li q) (i : Nat) (hi : i < k) :
    forBreak (fun p => decide (k ≤ Li p))
      (fun p dl => Function.update dl (Li p) (dl (Li p) - Lx p * dl j))
      (List.range' lo cnt) dl i
    = dl i - ((List.range' lo cnt).map (fun p => if Li p = i then Lx p else 0)).sum * dl j := by
  induction cnt generalizing lo dl with
  | zero => simp [forBreak]
  | succ cnt ih =>
    simp only [List.range', forBreak]
    by_cases hb : k ≤ Li lo
    · simp only [hb, decide_True, if_true]
      have hz := sum_map_ite_eq_zero (lo :: List.range' (lo + 1) cnt) (fun p => Li p = i) Lx
        (fun p hp hpi => by
          rcases List.mem_cons.1 hp with h | h
          · subst h; omega
          · rw [List.mem_range'_1] at h
            have := hinc lo p (le_refl _) (by omega) (by omega)
            omega)
      rw [hz]; ring
    · simp only [hb, decide_False, Bool.false_eq_true, if_false]
      rw [ih (lo + 1) _ (fun p h1 h2 => hrow p (by omega) (by omega))
        (fun p q h1 h2 h3 => hinc p q (by omega) h2 (by omega))]
      rw [List.map_cons, List.sum_cons,
        Function.update_noteq (Ne.symm (hrow lo (le_refl _) (by omega)))]
      by_cases hli : Li lo = i
      · rw [if_pos hli, ← hli, Function.update_same]; ring
      · rw [if_neg hli, Function.update_noteq (Ne.symm hli)]; ring

/-- Below or on the diagonal of a well formed column `j`, the strictly lower
triangular part has no entry in the rows `i ≤ j`. -/
theorem lowerEntry_eq_zero (m : Nat) (Lp Li : Nat → Nat) (Lx : Nat → K)
    (hv : ColumnsValid m Lp Li) (i j : Nat) (hj : j < m) (hij : i ≤ j) :
    lowerEntry Lp Li Lx i j = 0 := by
  unfold lowerEntry
  apply sum_map_ite_eq_zero
  intro p hp hpi
  rw [List.mem_range'_1] at hp
  obtain ⟨h1, h2, h3⟩ := hv j hj
  have := h3 (Lp j) p (le_refl _) (by omega) (by omega)
  omega

/-- One column of the forward substitution (lines 147-151). -/
theorem solveColumn_apply (k : Nat) (Lp Li : Nat → Nat) (Lx : Nat → K)
    (hv : ColumnsValid k Lp Li) (j : Nat) (hj : j < k) (dl : Nat → K) (i : Nat)
    (hi : i < k) :
    solveColumn k Lp Li Lx j dl i =
      if i = j then dl j / Lx (Lp j) else dl i - lowerEntry Lp Li Lx i j * dl j := by
  obtain ⟨h1, h2, h3⟩ := hv j hj
  have hrow : ∀ p, Lp j + 1 ≤ p → p < Lp j + 1 + (Lp (j + 1) - (Lp j + 1)) → Li p ≠ j := by
    intro p hp1 hp2
    have := h3 (Lp j) p (le_refl _) (by omega) (by omega)
    omega
  have hinc : ∀ p q, Lp j + 1 ≤ p → p < q → q < Lp j + 1 + (Lp (j + 1) - (Lp j + 1)) →
      Li p < Li q := fun p q hp hpq hq => h3 p q (by omega) hpq (by omega)
  unfold solveColumn
  by_cases hij : i = j
  · subst hij
    rw [if_pos rfl, Function.update_same,
      solve_inner_loop k i Li Lx _ _ dl hrow hinc i hi]
    have := lowerEntry_eq_zero k Lp Li Lx hv i i hi (le_refl _)
    unfold lowerEntry at this
    rw [this]; ring
  · rw [if_neg hij, Function.update_noteq hij,
      solve_inner_loop k j Li Lx _ _ dl hrow hinc i hi]
    rfl

/-- Invariant of the forward substitution after the columns `0 .. m-1`. -/
theorem solveL11_invariant (k : Nat) (Lp Li : Nat → Nat) (Lx : Nat → K)
    (hv : ColumnsValid k Lp Li) (hpiv : ∀ j, j < k → Lx (Lp j) ≠ 0) (dl : Nat → K)
    (m : Nat) (hm : m ≤ k) :
    let y := forRange 0 m (solveColumn k Lp Li Lx) dl
    (∀ i, i < m → Lx (Lp i) * y i
        + ∑ j in Finset.range i, lowerEntry Lp Li Lx i j * (Lx (Lp j) * y j) = dl i) ∧
    (∀ i, m ≤ i → i < k →
        y i = dl i - ∑ j in Finset.range m, lowerEntry Lp Li Lx i j * (Lx (Lp j) * y j)) := by
  induction m with
  | zero =>
    simp [forRange]
  | succ m ih =>
    have ihm := ih (by omega)
    simp only at ihm ⊢
    rw [forRange_succ_right _ _ _ _ (Nat.zero_le m)]
    obtain ⟨ihA, ihB⟩ := ihm
    generalize forRange 0 m (solveColumn k Lp Li Lx) dl = y at ihA ihB ⊢
    have hm' : m < k := by omega
    have hym : Lx (Lp m) * solveColumn k Lp Li Lx m y m = y m := by
      rw [solveColumn_apply k Lp Li Lx hv m hm' y m hm', if_pos rfl]
      field_simp [hpiv m hm']
    have hlt : ∀ i, i < m → solveColumn k Lp Li Lx m y i = y i := by
      intro i hi
      rw [solveColumn_apply k Lp Li Lx hv m hm' y i (by omega), if_neg (by omega),
        lowerEntry_eq_zero k Lp Li Lx hv i m hm' (by omega)]
      ring
    have hsum : ∀ i n', n' ≤ m →
        ∑ j in Finset.range n', lowerEntry Lp Li Lx i j *
          (Lx (Lp j) * solveColumn k Lp Li Lx m y j)
        = ∑ j in Finset.range n', lowerEntry Lp Li Lx i j * (Lx (Lp j) * y j) := by
      intro i n' hn'
      apply Finset.sum_congr rfl
      intro j hj
      rw [Finset.mem_range] at hj
      rw [hlt j (by omega)]
    refine ⟨fun i hi => ?_, fun i hi1 hi2 => ?_⟩
    · rcases Nat.eq_or_lt_of_le (Nat.le_of_lt_succ hi) with h | h
      · subst h
        rw [hym, hsum i i (le_refl _), ihB i (le_refl _) hm']
        ring
      · rw [hlt i h, hsum i i (by omega)]
        exact ihA i h
    · rw [Finset.sum_range_succ, hsum i m (le_refl _), hym,
        solveColumn_apply k Lp Li Lx hv m hm' y i hi2, if_neg (by omega),
        ihB i (by omega) hi2]
      ring

/-- The forward substitution solves `L11 * D11 * x = dl` for general arrays. -/
theorem solveL11_spec (k : Nat) (Lp Li : Nat → Nat) (Lx : Nat → K)
    (hv : ColumnsValid k Lp Li) (hpiv : ∀ j, j < k → Lx (Lp j) ≠ 0) (dl : Nat → K)
    (i : Nat) (hi : i < k) :
    ∑ j in Finset.range k,
      unitLower Lp Li Lx i j * Lx (Lp j) * solveL11 k Lp Li Lx dl j = dl i := by
  have hA := (solveL11_invariant k Lp Li Lx hv hpiv dl k (le_refl _)).1 i hi
  unfold solveL11
  generalize forRange 0 k (solveColumn k Lp Li Lx) dl = y at hA ⊢
  have hsub : Finset.range (i + 1) ⊆ Finset.range k := by
    intro j hj
    rw [Finset.mem_range] at hj ⊢
    omega
  rw [← Finset.sum_subset hsub, Finset.sum_range_succ, ← hA]
  · unfold unitLower
    rw [if_pos rfl, add_comm]
    congr 1
    · ring
    · apply Finset.sum_congr rfl
      intro j hj
      rw [Finset.mem_range] at hj
      rw [if_neg (by omega)]
      ring
  · intro j hj1 hj2
    rw [Finset.mem_range] at hj1 hj2
    unfold unitLower
    rw [if_neg (by omega), lowerEntry_eq_zero k Lp Li Lx hv i j hj1 (by omega)]
    ring

end SolveLemmas


section TransferLemmas

variable {K : Type} [Field K] [DecidableEq K]

theorem stored_of_column {K : Type} (a : Args K) (j p : Nat) (hj : j < a.n)
    (h1 : a.Lp2 j ≤ p) (h2 : p < a.Lp2 (j + 1)) : Stored a.Lp2 a.n p :=
  ⟨j, hj, h1, h2⟩

/-- The copied pattern is well formed on the columns where the input's is. -/
theorem copyPhase_columnsValid (a : Args K) (m : Nat) (hm : m ≤ a.n)
    (hv : ColumnsValid m a.Lp2 a.Li2) :
    ColumnsValid m (copyPhase a).Lp (copyPhase a).Li := by
  intro j hj
  obtain ⟨h1, h2, h3⟩ := hv j hj
  rw [copyPhase_Lp a j (by omega), copyPhase_Lp a (j + 1) (by omega)]
  refine ⟨h1, ?_, fun p q hp hpq hq => ?_⟩
  · rw [copyPhase_Li a _ ⟨j, by omega, le_refl _, h1⟩]; exact h2
  · rw [copyPhase_Li a p ⟨j, by omega, hp, by omega⟩,
      copyPhase_Li a q ⟨j, by omega, by omega, hq⟩]
    exact h3 p q hp hpq hq

theorem copyPhase_pivot (a : Args K) (j : Nat) (hj : j < a.n)
    (h : a.Lp2 j < a.Lp2 (j + 1)) :
    (copyPhase a).Lx ((copyPhase a).Lp j) = a.Lx2 (a.Lp2 j) := by
  rw [copyPhase_Lp a j (by omega), copyPhase_Lx a _ ⟨j, hj, le_refl _, h⟩]

theorem copyPhase_lowerEntry (a : Args K) (i j : Nat) (hj : j < a.n) :
    lowerEntry (copyPhase a).Lp (copyPhase a).Li (copyPhase a).Lx i j =
      lowerEntry a.Lp2 a.Li2 a.Lx2 i j := by
  unfold lowerEntry
  rw [copyPhase_Lp a j (by omega), copyPhase_Lp a (j + 1) (by omega)]
  congr 1
  apply List.map_congr_left
  intro p hp
  rw [List.mem_range'_1] at hp
  rw [copyPhase_Li a p ⟨j, hj, by omega, by omega⟩,
    copyPhase_Lx a p ⟨j, hj, by omega, by omega⟩]

end TransferLemmas

/-- Claim C8 (leading-block solve).  When the columns before `k` of `L` are well
formed with non-zero pivots and the update column is sorted, the vector `Δ`
left by the forward substitution (before any rescaling by the pivots) satisfies
`L11 * D11 * Δ = δ` on the rows `i < k`, where `δ[i] = after[i] - before[i]`. -/
theorem C8_leading_block_solve {K : Type} [Field K] [DecidableEq K] (a : Args K)
    (hkn : a.k ≤ a.n) (hv : ColumnsValid a.k a.Lp2 a.Li2)
    (hpiv : ∀ j, j < a.k → a.Lx2 (a.Lp2 j) ≠ 0) (hs : PatternSorted a)
    (i : Nat) (hi : i < a.k) :
    ∑ j in Finset.range a.k,
      unitLower a.Lp2 a.Li2 a.Lx2 i j * a.Lx2 (a.Lp2 j) * leadingDelta a j
      = colDelta a i := by
  unfold leadingDelta
  have hv' := copyPhase_columnsValid a a.k hkn hv
  have hpiv' : ∀ j, j < a.k → (copyPhase a).Lx ((copyPhase a).Lp j) ≠ 0 := by
    intro j hj
    rw [copyPhase_pivot a j (by omega) (hv j hj).1]
    exact hpiv j hj
  rw [← deltaInit_eq a hs i hi,
    ← solveL11_spec a.k _ _ _ hv' hpiv' (deltaInit a) i hi]
  apply Finset.sum_congr rfl
  intro j hj
  rw [Finset.mem_range] at hj
  unfold unitLower
  rw [copyPhase_lowerEntry a i j (by omega), copyPhase_pivot a j (by omega) (hv j hj).1]


/-! ## Scenario C -/

section Tridiagonal

variable {K : Type} [Field K] [DecidableEq K]

/-- The from-scratch factorization of a tridiagonal 3×3 matrix, in closed form. -/
theorem tridiagStore_denseLDL (c00 c10 c11 c21 c22 : K) :
    tridiagStore (denseLDL 3 (tridiagMatrix c00 c10 c11 c21 c22)) =
      [c00, c10 / c00, c11 - c10 / c00 * (c10 / c00) * c00,
       c21 / (c11 - c10 / c00 * (c10 / c00) * c00),
       c22 - c21 / (c11 - c10 / c00 * (c10 / c00) * c00) *
         (c21 / (c11 - c10 / c00 * (c10 / c00) * c00)) *
         (c11 - c10 / c00 * (c10 / c00) * c00)] := by
  simp [tridiagStore, denseLDL, forRange, ldlColumn, tridiagMatrix, List.range',
    Finset.sum_range_succ, Function.update]

end Tridiagonal

section TridiagonalKernel

variable {K : Type} [Field K] [DecidableEq K]

/-- The kernel on the tridiagonal 3×3 pattern with `k = 1`, in closed form. -/
theorem ldlrowmodify_tridiag (sqrt : K → K) (d0 l10 d1 l21 d2 b0 b1 b2 a0 a1 a2 db : K)
    (h1 : d1 ≠ 0) (h2 : d2 ≠ 0) (hl : l21 ≠ 0)
    (hdb : db = d1 + a1 - b1 - (a0 - b0) / d0 * d0 * (l10 + (l10 + (a0 - b0) / d0)))
    (hdb0 : db ≠ 0) (hc22 : d2 + l21 * l21 * d1 ≠ 0)
    (hs1 : sqrt d1 * sqrt d1 = d1) (hs2 : sqrt db * sqrt db = db) :
    ∃ out, ldlrowmodify sqrt (tridiagArgs [d0, l10, d1, l21, d2] [b0, b1, b2] [a0, a1, a2])
        = Except.ok out ∧
      values 5 out.Lx = [d0, l10 + (a0 - b0) / d0, db, (a2 - b2 + l21 * d1) / db,
        d2 + l21 * l21 * d1 - (a2 - b2 + l21 * d1) / db * ((a2 - b2 + l21 * d1) / db) * db] := by
  have hsq : sqrt d1 ≠ 0 := by
    intro h
    rw [h] at hs1
    simp at hs1
    exact h1 hs1.symm
  have hwu : l21 * sqrt d1 * (l21 * sqrt d1) = l21 * l21 * d1 := by
    linear_combination (l21 * l21) * hs1
  subst hdb
  refine ⟨_, rfl, ?_⟩
  simp [values, ldlrowmodify, tridiagArgs, copyPhase, pivotPhase, forRange, copyColumn, copyEntry,
      arr, trailingColumn, rotatePhase, rotateRow, initDirections, mergeStep, List.range',
      Function.update, findDiag, List.range, List.range.loop, accumW, setL12, solveL11,
      solveColumn, forBreak, deltaInit, pivotStep, rotateEntry, hl, hsq, List.find?]
  generalize d1 + a1 - b1 - (a0 - b0) / d0 * d0 * (l10 + (l10 + (a0 - b0) / d0)) = db
    at hs2 hdb0 ⊢
  have hB : (1 + l21 * sqrt d1 * (l21 * sqrt d1) / d2) * d2 = d2 + l21 * l21 * d1 := by
    rw [hwu]
    field_simp
  rw [hB, sub_mul, one_mul, div_mul_cancel₀ _ hc22]
  linear_combination (-((a2 - b2 + l21 * d1) / db * ((a2 - b2 + l21 * d1) / db))) * hs2

end TridiagonalKernel

section TridiagonalPosDef

variable {K : Type} [LinearOrderedField K]

/-- A positive definite tridiagonal 3×3 matrix has positive pivots. -/
theorem posDef_tridiag_pivots (c00 c10 c11 c21 c22 : K)
    (hC : PosDef 3 (tridiagMatrix c00 c10 c11 c21 c22)) :
    0 < c00 ∧ 0 < c11 - c10 / c00 * (c10 / c00) * c00 ∧
    0 < c22 - c21 / (c11 - c10 / c00 * (c10 / c00) * c00) *
         (c21 / (c11 - c10 / c00 * (c10 / c00) * c00)) *
         (c11 - c10 / c00 * (c10 / c00) * c00) := by
  have h0 : 0 < c00 := by
    have := hC (arr [1, 0, 0]) ⟨0, by decide, by simp [arr]⟩
    simpa [Finset.sum_range_succ, tridiagMatrix, arr] using this
  have h0' : c00 ≠ 0 := ne_of_gt h0
  have h1 : 0 < c11 - c10 / c00 * (c10 / c00) * c00 := by
    have := hC (arr [-(c10 / c00), 1, 0]) ⟨1, by decide, by simp [arr]⟩
    simp [Finset.sum_range_succ, tridiagMatrix, arr] at this
    exact lt_of_lt_of_eq this (by field_simp; ring)
  have h1' : c11 - c10 / c00 * (c10 / c00) * c00 ≠ 0 := ne_of_gt h1
  refine ⟨h0, h1, ?_⟩
  generalize hd1 : c11 - c10 / c00 * (c10 / c00) * c00 = d1 at h1 h1' ⊢
  have := hC (arr [c10 / c00 * (c21 / d1), -(c21 / d1), 1]) ⟨2, by decide, by simp [arr]⟩
  simp [Finset.sum_range_succ, tridiagMatrix, arr] at this
  have hc11 : c11 = d1 + c10 / c00 * (c10 / c00) * c00 := by rw [← hd1]; ring
  rw [hc11] at this
  exact lt_of_lt_of_eq this (by field_simp; ring)

end TridiagonalPosDef

section TridiagonalPosDef2

variable {K : Type} [LinearOrderedField K]

theorem denseLDL_tridiag_pivot1 (c00 c10 c11 c21 c22 : K) :
    (denseLDL 3 (tridiagMatrix c00 c10 c11 c21 c22)).2 1 =
      c11 - c10 / c00 * (c10 / c00) * c00 := by
  simp [denseLDL, forRange, ldlColumn, tridiagMatrix, List.range',
    Finset.sum_range_succ, Function.update]

/-- A tridiagonal 3×3 matrix with positive pivots is positive definite. -/
theorem posDef_tridiag_of_pivots (c00 c10 c11 c21 c22 : K) (h0 : 0 < c00)
    (h1 : 0 < c11 - c10 / c00 * (c10 / c00) * c00)
    (h2 : 0 < c22 - c21 / (c11 - c10 / c00 * (c10 / c00) * c00) *
         (c21 / (c11 - c10 / c00 * (c10 / c00) * c00)) *
         (c11 - c10 / c00 * (c10 / c00) * c00)) :
    PosDef 3 (tridiagMatrix c00 c10 c11 c21 c22) := by
  intro x hx
  have h0' : c00 ≠ 0 := ne_of_gt h0
  generalize hd1 : c11 - c10 / c00 * (c10 / c00) * c00 = d1 at h1 h2
  have h1' : d1 ≠ 0 := ne_of_gt h1
  generalize hd2 : c22 - c21 / d1 * (c21 / d1) * d1 = d2 at h2
  have hc11 : c11 = d1 + c10 / c00 * (c10 / c00) * c00 := by rw [← hd1]; ring
  have hc22 : c22 = d2 + c21 / d1 * (c21 / d1) * d1 := by rw [← hd2]; ring
  simp only [Finset.sum_range_succ, Finset.sum_range_zero, tridiagMatrix]
  simp
  suffices h : 0 < c00 * (x 0 + c10 / c00 * x 1) ^ 2 + d1 * (x 1 + c21 / d1 * x 2) ^ 2
      + d2 * x 2 ^ 2 by
    convert h using 1
    rw [hc11, hc22]
    field_simp
    ring
  have e0 : 0 ≤ c00 * (x 0 + c10 / c00 * x 1) ^ 2 := by positivity
  have e1 : 0 ≤ d1 * (x 1 + c21 / d1 * x 2) ^ 2 := by positivity
  have e2 : 0 ≤ d2 * x 2 ^ 2 := by positivity
  by_cases hx2 : x 2 = 0
  · by_cases hx1 : x 1 = 0
    · have hx0 : x 0 ≠ 0 := by
        obtain ⟨i, hi, hxi⟩ := hx
        interval_cases i
        · exact hxi
        · exact absurd hx1 hxi
        · exact absurd hx2 hxi
      have : 0 < c00 * (x 0 + c10 / c00 * x 1) ^ 2 := by
        rw [hx1]; simp only [mul_zero, add_zero]; positivity
      linarith
    · have : 0 < d1 * (x 1 + c21 / d1 * x 2) ^ 2 := by
        rw [hx2]; simp only [mul_zero, add_zero]; positivity
      linarith
  · have : 0 < d2 * x 2 ^ 2 := by positivity
    linarith

end TridiagonalPosDef2

/-- Claim C7 (scenario C).  For a positive definite tridiagonal 3×3 matrix `C`
with `C[1,2] ≠ 0`, factored from scratch, and a change of row and column 1 that
keeps the matrix positive definite, the call succeeds and returns the values of
the factorization of the changed matrix computed from scratch.  `sqrt` only has
to be a square root at the old and at the new pivot of column 1 (as the real
square root is, the pivots being positive). -/
theorem C7_tridiagonal_refactorization {K : Type} [LinearOrderedField K] (sqrt : K → K)
    (c00 c10 c11 c21 c22 b0 b1 b2 a0 a1 a2 : K)
    (hC : PosDef 3 (tridiagMatrix c00 c10 c11 c21 c22))
    (hC' : PosDef 3
      (tridiagMatrix c00 (c10 + (a0 - b0)) (c11 + (a1 - b1)) (c21 + (a2 - b2)) c22))
    (hc21 : c21 ≠ 0)
    (hs1 : sqrt ((denseLDL 3 (tridiagMatrix c00 c10 c11 c21 c22)).2 1) *
        sqrt ((denseLDL 3 (tridiagMatrix c00 c10 c11 c21 c22)).2 1) =
      (denseLDL 3 (tridiagMatrix c00 c10 c11 c21 c22)).2 1)
    (hs2 : sqrt ((denseLDL 3 (tridiagMatrix c00 (c10 + (a0 - b0)) (c11 + (a1 - b1))
          (c21 + (a2 - b2)) c22)).2 1) *
        sqrt ((denseLDL 3 (tridiagMatrix c00 (c10 + (a0 - b0)) (c11 + (a1 - b1))
          (c21 + (a2 - b2)) c22)).2 1) =
      (denseLDL 3 (tridiagMatrix c00 (c10 + (a0 - b0)) (c11 + (a1 - b1))
          (c21 + (a2 - b2)) c22)).2 1) :
    ∃ out, ldlrowmodify sqrt
        (tridiagArgs (tridiagStore (denseLDL 3 (tridiagMatrix c00 c10 c11 c21 c22)))
          [b0, b1, b2] [a0, a1, a2]) = Except.ok out ∧
      values 5 out.Lx = tridiagStore (denseLDL 3
        (tridiagMatrix c00 (c10 + (a0 - b0)) (c11 + (a1 - b1)) (c21 + (a2 - b2)) c22)) := by
  obtain ⟨h0, h1, h2⟩ := posDef_tridiag_pivots _ _ _ _ _ hC
  obtain ⟨_, h1', _⟩ := posDef_tridiag_pivots _ _ _ _ _ hC'
  rw [denseLDL_tridiag_pivot1] at hs1 hs2
  rw [tridiagStore_denseLDL, tridiagStore_denseLDL]
  have h0n : c00 ≠ 0 := ne_of_gt h0
  generalize hd1 : c11 - c10 / c00 * (c10 / c00) * c00 = d1 at h1 h2 hs1 ⊢
  generalize hd1' : c11 + (a1 - b1) - (c10 + (a0 - b0)) / c00 * ((c10 + (a0 - b0)) / c00) * c00
    = d1' at h1' hs2 ⊢
  have h1n : d1 ≠ 0 := ne_of_gt h1
  have h1n' : d1' ≠ 0 := ne_of_gt h1'
  have hl : c21 / d1 ≠ 0 := div_ne_zero hc21 h1n
  have hdb : d1' = d1 + a1 - b1 - (a0 - b0) / c00 * c00 * (c10 / c00 + (c10 / c00 + (a0 - b0) / c00)) := by
    rw [← hd1, ← hd1']
    field_simp
    ring
  have hc22 : c22 - c21 / d1 * (c21 / d1) * d1 + c21 / d1 * (c21 / d1) * d1 ≠ 0 := by
    have : 0 < c22 - c21 / d1 * (c21 / d1) * d1 + c21 / d1 * (c21 / d1) * d1 := by
      have : 0 ≤ c21 / d1 * (c21 / d1) * d1 := mul_nonneg (mul_self_nonneg _) (le_of_lt h1)
      linarith
    exact ne_of_gt this
  obtain ⟨out, ho, hv⟩ := ldlrowmodify_tridiag sqrt c00 (c10 / c00) d1 (c21 / d1)
    (c22 - c21 / d1 * (c21 / d1) * d1) b0 b1 b2 a0 a1 a2 d1' h1n (ne_of_gt h2) hl hdb h1n'
    hc22 hs1 hs2
  refine ⟨out, ho, ?_⟩
  rw [hv]
  have e1 : c10 / c00 + (a0 - b0) / c00 = (c10 + (a0 - b0)) / c00 := by ring
  have e2 : a2 - b2 + c21 / d1 * d1 = c21 + (a2 - b2) := by field_simp; ring
  rw [e1, e2]
  congr 5
  ring


section TridiagonalReconstruct

variable {K : Type} [Field K] [DecidableEq K]

/-- The from-scratch factorization of a tridiagonal 3×3 matrix with non-zero
pivots, stored with the tridiagonal pattern, is a factorization of the matrix:
`L * D * Lᵗ = C`. -/
theorem ldlt_tridiag_denseLDL (c00 c10 c11 c21 c22 : K) (before after : List K)
    (h0 : c00 ≠ 0) (h1 : c11 - c10 / c00 * (c10 / c00) * c00 ≠ 0) (i j : Nat) (hi : i < 3)
    (hj : j < 3) :
    ldlt 3 (inputFactor (tridiagArgs
        (tridiagStore (denseLDL 3 (tridiagMatrix c00 c10 c11 c21 c22))) before after)) i j
      = tridiagMatrix c00 c10 c11 c21 c22 i j := by
  rw [tridiagStore_denseLDL]
  generalize hd1 : c11 - c10 / c00 * (c10 / c00) * c00 = d1 at h1 ⊢
  have hc11 : c11 = d1 + c10 / c00 * (c10 / c00) * c00 := by rw [← hd1]; ring
  interval_cases i <;> interval_cases j <;>
    simp [ldlt, unitLower, lowerEntry, Finset.sum_range_succ, arr, tridiagArgs, inputFactor,
      tridiagMatrix, List.range'] <;>
    first
      | done
      | (rw [hc11]; field_simp; done)
      | (rw [hc11]; field_simp; ring)
      | (field_simp; done)
      | (field_simp; ring)

end TridiagonalReconstruct

/-! ## Checking the well-formedness of concrete inputs -/

theorem columnsValid_of_bounded (m : Nat) (Lp Li : Nat → Nat)
    (h : ∀ j, j < m → Lp j < Lp (j + 1) ∧ Li (Lp j) = j ∧
      ∀ q, q < Lp (j + 1) → ∀ p, p < q → Lp j ≤ p → Li p < Li q) :
    ColumnsValid m Lp Li :=
  fun j hj => ⟨(h j hj).1, (h j hj).2.1, fun p q h1 h2 h3 => (h j hj).2.2 q h3 p h2 h1⟩

theorem patternSorted_of_bounded {K : Type} (a : Args K)
    (h : ∀ q, q < a.cp 1 → ∀ p, p < q → a.cp 0 ≤ p → a.ci p < a.ci q) :
    PatternSorted a :=
  fun p q h1 h2 h3 => h q h3 p h2 h1


/-! ## The updated pivot -/

section PivotLemmas

variable {K : Type} [Field K] [DecidableEq K]

/-- The loop of lines 170-173 subtracts one term per recorded entry, when the
recorded columns are pairwise distinct. -/
theorem pivotStep_foldl (Lp2 : Nat → Nat) (Lx2 Lx : Nat → K) (krow : List (Nat × Nat))
    (hnd : krow.Pairwise (fun t u => t.1 ≠ u.1)) (dl : Nat → K) (db : K) :
    (krow.foldl (pivotStep Lp2 Lx2 Lx) (dl, db)).2 =
      db - (krow.map (fun t => dl t.1 * Lx2 (Lp2 t.1) * (Lx2 t.2 + Lx t.2))).sum := by
  induction krow generalizing dl db with
  | nil => simp
  | cons t krow ih =>
    rw [List.pairwise_cons] at hnd
    have hstep : pivotStep Lp2 Lx2 Lx (dl, db) t =
        (Function.update dl t.1 (dl t.1 * Lx2 (Lp2 t.1)),
          db - dl t.1 * Lx2 (Lp2 t.1) * (Lx2 t.2 + Lx t.2)) := by
      simp [pivotStep]
    rw [List.foldl_cons, hstep, ih hnd.2, List.map_cons, List.sum_cons]
    have hc : krow.map (fun u => Function.update dl t.1 (dl t.1 * Lx2 (Lp2 t.1)) u.1 *
          Lx2 (Lp2 u.1) * (Lx2 u.2 + Lx u.2))
        = krow.map (fun u => dl u.1 * Lx2 (Lp2 u.1) * (Lx2 u.2 + Lx u.2)) := by
      apply List.map_congr_left
      intro u hu
      rw [Function.update_noteq (Ne.symm (hnd.1 u hu))]
    rw [hc]
    ring

/-- Lines 155-157 add `Δ` at every recorded offset, when the recorded offsets are
pairwise distinct. -/
theorem setL12_of_mem (krow : List (Nat × Nat))
    (hnd : krow.Pairwise (fun t u => t.2 ≠ u.2)) (dl Lx : Nat → K) (t : Nat × Nat)
    (ht : t ∈ krow) : setL12 krow dl Lx t.2 = Lx t.2 + dl t.1 := by
  induction krow generalizing Lx with
  | nil => simp at ht
  | cons u krow ih =>
    rw [List.pairwise_cons] at hnd
    have hcons : setL12 (u :: krow) dl Lx =
        setL12 krow dl (Function.update Lx u.2 (Lx u.2 + dl u.1)) := rfl
    rw [hcons]
    rcases List.mem_cons.1 ht with h | h
    · subst h
      rw [setL12_of_not_mem krow dl _ t.2 (fun v hv => Ne.symm (hnd.1 v hv)),
        Function.update_same]
    · rw [ih hnd.2 _ h, Function.update_noteq (Ne.symm (hnd.1 t h))]

theorem krowSpec_succ (a : Args K) (m : Nat) :
    krowSpec a (m + 1) = krowSpec a m ++ (rowKOffsets a m).map (fun i => (m, i)) := by
  simp [krowSpec, List.range_succ]

/-- A well formed column holds row `k` at most once. -/
theorem rowKOffsets_pairwise (a : Args K) (j : Nat) (hv : ColumnsValid a.k a.Lp2 a.Li2)
    (R : Nat → Nat → Prop) : (rowKOffsets a j).Pairwise R := by
  unfold rowKOffsets
  have hp := (List.pairwise_lt_range' (a.Lp2 j) (a.Lp2 (j + 1) - a.Lp2 j)).filter
    (fun i => decide (a.Li2 i = a.k ∧ j < a.k))
  refine hp.imp_of_mem ?_
  intro p q hp hq hpq
  rw [List.mem_filter, List.mem_range'_1] at hp hq
  simp only [decide_eq_true_eq] at hp hq
  have := (hv j hp.2.2).2.2 p q (by omega) hpq (by omega)
  omega

/-- Under well formed columns the recorded columns strictly increase. -/
theorem krowSpec_pairwise (a : Args K) (m : Nat) (hv : ColumnsValid a.k a.Lp2 a.Li2) :
    (krowSpec a m).Pairwise (fun t u => t.1 < u.1) := by
  induction m with
  | zero => simp [krowSpec]
  | succ m ih =>
    rw [krowSpec_succ, List.pairwise_append]
    refine ⟨ih, ?_, ?_⟩
    · rw [List.pairwise_map]
      exact rowKOffsets_pairwise a m hv _
    · intro t ht u hu
      rw [mem_krowSpec] at ht
      rw [List.mem_map] at hu
      obtain ⟨i, _, rfl⟩ := hu
      exact ht.1

theorem columnsValid_Lp_mono (m : Nat) (Lp Li : Nat → Nat) (hv : ColumnsValid m Lp Li)
    (i j : Nat) (hij : i ≤ j) (hj : j ≤ m) : Lp i ≤ Lp j := by
  induction j with
  | zero =>
    have : i = 0 := by omega
    subst this
    exact le_refl _
  | succ j ih =>
    rcases Nat.eq_or_lt_of_le hij with h | h
    · subst h; exact le_refl _
    · have := ih (by omega) (by omega)
      have := (hv j (by omega)).1
      omega

end PivotLemmas

section PivotSums

variable {K : Type} [Field K] [DecidableEq K]

theorem find?_range_eq_some (q : Nat → Bool) (n c : Nat) (hc : c < n) (hq : q c = true)
    (hfirst : ∀ i, i < c → q i = false) : (List.range n).find? q = some c := by
  induction n with
  | zero => omega
  | succ n ih =>
    rw [List.range_succ, List.find?_append]
    rcases Nat.eq_or_lt_of_le (Nat.le_of_lt_succ hc) with h | h
    · subst h
      have : (List.range c).find? q = none := by
        rw [List.find?_eq_none]
        intro x hx
        rw [List.mem_range] at hx
        simp [hfirst x hx]
      rw [this]
      simp [hq]
    · rw [ih h]
      rfl

/-- The diagonal lookup of lines 161-166 finds the offset of row `k` in a sorted
update column. -/
theorem findDiag_eq_some (a : Args K) (hs : PatternSorted a) (hcp : a.cp 0 = 0) (c : Nat)
    (hc : c < a.cp 1) (hck : a.ci c = a.k) : findDiag a = some c := by
  unfold findDiag
  apply find?_range_eq_some _ _ c hc
  · simp [hck]
  · intro i hi
    have := hs i c (by omega) hi hc
    simp only [decide_eq_false_iff_not]
    omega

theorem Ico_add_sub (lo hi : Nat) : Finset.Ico lo (lo + (hi - lo)) = Finset.Ico lo hi := by
  ext x
  simp only [Finset.mem_Ico]
  omega

theorem sum_filter_range' (lo cnt : Nat) (q : Nat → Bool) (f : Nat → K) :
    (((List.range' lo cnt).filter q).map f).sum =
      ∑ p in Finset.Ico lo (lo + cnt), if q p = true then f p else 0 := by
  induction cnt with
  | zero => simp
  | succ cnt ih =>
    rw [List.range'_concat, List.filter_append, List.map_append, List.sum_append, ih,
      ← Nat.add_assoc, Finset.sum_Ico_succ_top (Nat.le_add_right lo cnt)]
    congr 1
    by_cases h : q (lo + cnt) = true
    · simp [h]
    · simp [h]

/-- A sum over the recorded entries of row `k`, column by column. -/
theorem krowSpec_sum (a : Args K) (m : Nat) (g : Nat × Nat → K) :
    ((krowSpec a m).map g).sum =
      ∑ j in Finset.range m, ∑ p in Finset.Ico (a.Lp2 j) (a.Lp2 (j + 1)),
        if a.Li2 p = a.k ∧ j < a.k then g (j, p) else 0 := by
  induction m with
  | zero => simp [krowSpec]
  | succ m ih =>
    rw [krowSpec_succ, List.map_append, List.sum_append, ih, Finset.sum_range_succ]
    congr 1
    unfold rowKOffsets
    rw [List.map_map, sum_filter_range', Ico_add_sub]
    apply Finset.sum_congr rfl
    intro p _
    simp

/-- The same sum restricted to the columns before `k`. -/
theorem krowSpec_sum_lt (a : Args K) (hkn : a.k ≤ a.n) (g : Nat × Nat → K) :
    ((krowSpec a a.n).map g).sum =
      ∑ j in Finset.range a.k, ∑ p in Finset.Ico (a.Lp2 j) (a.Lp2 (j + 1)),
        if a.Li2 p = a.k then g (j, p) else 0 := by
  rw [krowSpec_sum]
  have hsub : Finset.range a.k ⊆ Finset.range a.n := by
    intro j hj
    rw [Finset.mem_range] at hj ⊢
    omega
  rw [← Finset.sum_subset hsub]
  · apply Finset.sum_congr rfl
    intro j hj
    rw [Finset.mem_range] at hj
    apply Finset.sum_congr rfl
    intro p _
    simp [hj]
  · intro j _ hj
    rw [Finset.mem_range] at hj
    apply Finset.sum_eq_zero
    intro p _
    rw [if_neg (by omega)]

end PivotSums

section PivotPhaseSpec

variable {K : Type} [Field K] [DecidableEq K]

/-- The recorded offsets lie before the first entry of column `k`. -/
theorem krowSpec_offset_lt (a : Args K) (m : Nat) (hv : ColumnsValid a.k a.Lp2 a.Li2)
    (t : Nat × Nat) (ht : t ∈ krowSpec a m) : t.2 < a.Lp2 a.k := by
  rw [mem_krowSpec] at ht
  have := columnsValid_Lp_mono a.k a.Lp2 a.Li2 hv (t.1 + 1) a.k (by omega) (le_refl _)
  omega

theorem krowSpec_pairwise_offsets (a : Args K) (m : Nat)
    (hv : ColumnsValid a.k a.Lp2 a.Li2) :
    (krowSpec a m).Pairwise (fun t u => t.2 ≠ u.2) := by
  refine (krowSpec_pairwise a m hv).imp_of_mem ?_
  intro t u ht hu htu
  rw [mem_krowSpec] at ht hu
  have := columnsValid_Lp_mono a.k a.Lp2 a.Li2 hv (t.1 + 1) u.1 (by omega) (by omega)
  omega

/-- The `l_12` / `D22` block for `k > 0`: it succeeds when the update column
stores row `k`, adds `Δ` to the stored entries of row `k`, and leaves the
pivot `d + (after_k - before_k) - Σ (Δ_j D_j) (l_old + l_new)`. -/
theorem pivotPhase_spec (a : Args K) (hk0 : 0 < a.k) (hkn : a.k < a.n)
    (hv : ColumnsValid (a.k + 1) a.Lp2 a.Li2) (hs : PatternSorted a) (hcp : a.cp 0 = 0)
    (c : Nat) (hc : c < a.cp 1) (hck : a.ci c = a.k) :
    ∃ ps, pivotPhase a (copyPhase a) = Except.ok ps ∧
      ps.d = a.Lx2 (a.Lp2 a.k) ∧ ps.cind = c ∧ ps.db = ps.Lx (a.Lp2 a.k) ∧
      (ps.Lx (a.Lp2 a.k) = a.Lx2 (a.Lp2 a.k) + (a.cx2 c - a.cx c) -
        ∑ j in Finset.range a.k, ∑ p in Finset.Ico (a.Lp2 j) (a.Lp2 (j + 1)),
          if a.Li2 p = a.k then
            leadingDelta a j * a.Lx2 (a.Lp2 j) * (a.Lx2 p + (a.Lx2 p + leadingDelta a j))
          else 0) ∧
      (∀ j p, j < a.k → a.Lp2 j ≤ p → p < a.Lp2 (j + 1) → a.Li2 p = a.k →
        ps.Lx p = a.Lx2 p + leadingDelta a j) ∧
      (∀ q, q ≠ a.Lp2 a.k → (∀ t, t ∈ krowSpec a a.n → t.2 ≠ q) →
        ps.Lx q = (copyPhase a).Lx q) := by
  have hvk : ColumnsValid a.k a.Lp2 a.Li2 := fun j hj => hv j (by omega)
  have hLpk : (copyPhase a).Lp a.k = a.Lp2 a.k := copyPhase_Lp a a.k (by omega)
  have hkrow := copyPhase_krow a
  have hnot : ∀ t, t ∈ krowSpec a a.n → t.2 ≠ a.Lp2 a.k := fun t ht =>
    ne_of_lt (krowSpec_offset_lt a a.n hvk t ht)
  have hmemLx : ∀ t, t ∈ krowSpec a a.n →
      setL12 (krowSpec a a.n) (leadingDelta a) (copyPhase a).Lx t.2 =
        a.Lx2 t.2 + leadingDelta a t.1 := by
    intro t ht
    rw [setL12_of_mem _ (krowSpec_pairwise_offsets a a.n hvk) _ _ t ht]
    have ht' := (mem_krowSpec a a.n t).1 ht
    rw [copyPhase_Lx a t.2 ⟨t.1, ht'.1, ht'.2.2.1, ht'.2.2.2.1⟩]
  have hd : setL12 (krowSpec a a.n) (leadingDelta a) (copyPhase a).Lx (a.Lp2 a.k) =
      a.Lx2 (a.Lp2 a.k) := by
    rw [setL12_of_not_mem _ _ _ _ hnot,
      copyPhase_Lx a _ ⟨a.k, hkn, le_refl _, (hv a.k (by omega)).1⟩]
  have hfold := pivotStep_foldl a.Lp2 a.Lx2
    (setL12 (krowSpec a a.n) (leadingDelta a) (copyPhase a).Lx) (krowSpec a a.n)
    ((krowSpec_pairwise a a.n hvk).imp (fun h => ne_of_lt h)) (leadingDelta a)
    (a.Lx2 (a.Lp2 a.k) + a.cx2 c - a.cx c)
  have hmap : (krowSpec a a.n).map (fun t => leadingDelta a t.1 * a.Lx2 (a.Lp2 t.1) *
        (a.Lx2 t.2 + setL12 (krowSpec a a.n) (leadingDelta a) (copyPhase a).Lx t.2))
      = (krowSpec a a.n).map (fun t => leadingDelta a t.1 * a.Lx2 (a.Lp2 t.1) *
        (a.Lx2 t.2 + (a.Lx2 t.2 + leadingDelta a t.1))) := by
    apply List.map_congr_left
    intro t ht
    rw [hmemLx t ht]
  rw [hmap, krowSpec_sum_lt a (by omega)] at hfold
  have hps : pivotPhase a (copyPhase a) = Except.ok
      { Lx := Function.update
          (setL12 (krowSpec a a.n) (leadingDelta a) (copyPhase a).Lx) (a.Lp2 a.k)
          ((krowSpec a a.n).foldl (pivotStep a.Lp2 a.Lx2
            (setL12 (krowSpec a a.n) (leadingDelta a) (copyPhase a).Lx))
            (leadingDelta a, a.Lx2 (a.Lp2 a.k) + a.cx2 c - a.cx c)).2
        deltal12 := ((krowSpec a a.n).foldl (pivotStep a.Lp2 a.Lx2
            (setL12 (krowSpec a a.n) (leadingDelta a) (copyPhase a).Lx))
            (leadingDelta a, a.Lx2 (a.Lp2 a.k) + a.cx2 c - a.cx c)).1
        d := a.Lx2 (a.Lp2 a.k)
        db := ((krowSpec a a.n).foldl (pivotStep a.Lp2 a.Lx2
            (setL12 (krowSpec a a.n) (leadingDelta a) (copyPhase a).Lx))
            (leadingDelta a, a.Lx2 (a.Lp2 a.k) + a.cx2 c - a.cx c)).2
        cind := c } := by
    unfold pivotPhase
    rw [if_pos hk0]
    simp only [findDiag_eq_some a hs hcp c hc hck, hkrow, hLpk]
    unfold leadingDelta at hd ⊢
    rw [hd]
  refine ⟨_, hps, rfl, rfl, ?_, ?_, ?_, ?_⟩
  · simp only [Function.update_same]
  · simp only [Function.update_same]
    rw [hfold]
    congr 1
    ring
  · intro j p hj hp1 hp2 hpk
    have hmem : (j, p) ∈ krowSpec a a.n :=
      (mem_krowSpec a a.n (j, p)).2 ⟨by omega, hj, hp1, hp2, hpk⟩
    simp only
    rw [Function.update_noteq (hnot (j, p) hmem)]
    exact hmemLx (j, p) hmem
  · intro q hq1 hq2
    simp only
    rw [Function.update_noteq hq1, setL12_of_not_mem _ _ _ _ hq2]

end PivotPhaseSpec

/-- Claim C9 (updated pivot).  For `0 < k < n`, well formed columns `0 .. k` and a
sorted update column storing row `k` at offset `c`, the `l_12` / `D22` block
succeeds and leaves at the diagonal of column `k` the value
`d_old + (after_k - before_k) - Σ (Δ_j D_j) (l_old[k,j] + l_new[k,j])`, the sum
over the stored entries of row `k` in the columns `j < k`, where
`l_new[k,j] = l_old[k,j] + Δ_j` is the value it leaves at such an entry;
hence `c_kk + (after_k - before_k) - Σ D_j l_new[k,j]²` whenever
`d_old = c_kk - Σ D_j l_old[k,j]²`. -/
theorem C9_updated_pivot {K : Type} [Field K] [DecidableEq K] (a : Args K)
    (hk0 : 0 < a.k) (hkn : a.k < a.n) (hv : ColumnsValid (a.k + 1) a.Lp2 a.Li2)
    (hs : PatternSorted a) (hcp : a.cp 0 = 0) (c : Nat) (hc : c < a.cp 1)
    (hck : a.ci c = a.k) :
    ∃ ps, pivotPhase a (copyPhase a) = Except.ok ps ∧
      (ps.Lx (a.Lp2 a.k) = a.Lx2 (a.Lp2 a.k) + (a.cx2 c - a.cx c) -
        ∑ j in Finset.range a.k, ∑ p in Finset.Ico (a.Lp2 j) (a.Lp2 (j + 1)),
          if a.Li2 p = a.k then
            leadingDelta a j * a.Lx2 (a.Lp2 j) * (a.Lx2 p + ps.Lx p)
          else 0) ∧
      (∀ j p, j < a.k → a.Lp2 j ≤ p → p < a.Lp2 (j + 1) → a.Li2 p = a.k →
        ps.Lx p = a.Lx2 p + leadingDelta a j) ∧
      (∀ ckk : K,
        a.Lx2 (a.Lp2 a.k) = ckk -
          ∑ j in Finset.range a.k, ∑ p in Finset.Ico (a.Lp2 j) (a.Lp2 (j + 1)),
            (if a.Li2 p = a.k then a.Lx2 (a.Lp2 j) * a.Lx2 p ^ 2 else 0) →
        ps.Lx (a.Lp2 a.k) = ckk + (a.cx2 c - a.cx c) -
          ∑ j in Finset.range a.k, ∑ p in Finset.Ico (a.Lp2 j) (a.Lp2 (j + 1)),
            (if a.Li2 p = a.k then a.Lx2 (a.Lp2 j) * ps.Lx p ^ 2 else 0)) := by
  obtain ⟨ps, hps, _, _, _, h1, h2, _⟩ := pivotPhase_spec a hk0 hkn hv hs hcp c hc hck
  have hsum : ∀ (F G : Nat → Nat → K),
      (∀ j p, j < a.k → a.Lp2 j ≤ p → p < a.Lp2 (j + 1) → a.Li2 p = a.k → F j p = G j p) →
      (∑ j in Finset.range a.k, ∑ p in Finset.Ico (a.Lp2 j) (a.Lp2 (j + 1)),
          if a.Li2 p = a.k then F j p else 0)
        = ∑ j in Finset.range a.k, ∑ p in Finset.Ico (a.Lp2 j) (a.Lp2 (j + 1)),
          if a.Li2 p = a.k then G j p else 0 := by
    intro F G hFG
    apply Finset.sum_congr rfl
    intro j hj
    rw [Finset.mem_range] at hj
    apply Finset.sum_congr rfl
    intro p hp
    rw [Finset.mem_Ico] at hp
    by_cases hpk : a.Li2 p = a.k
    · rw [if_pos hpk, if_pos hpk, hFG j p hj hp.1 hp.2 hpk]
    · rw [if_neg hpk, if_neg hpk]
  refine ⟨ps, hps, ?_, h2, ?_⟩
  · rw [h1]
    congr 1
    exact hsum _ _ (fun j p hj hp1 hp2 hpk => by rw [h2 j p hj hp1 hp2 hpk])
  · intro ckk hd
    rw [h1, hd, sub_add_eq_add_sub, sub_sub]
    congr 1
    rw [← Finset.sum_add_distrib]
    apply Finset.sum_congr rfl
    intro j hj
    rw [Finset.mem_range] at hj
    rw [← Finset.sum_add_distrib]
    apply Finset.sum_congr rfl
    intro p hp
    rw [Finset.mem_Ico] at hp
    by_cases hpk : a.Li2 p = a.k
    · rw [if_pos hpk, if_pos hpk, if_pos hpk, h2 j p hj hp.1 hp.2 hpk]
      ring
    · rw [if_neg hpk, if_neg hpk, if_neg hpk, add_zero]


/-! ## The merge of the update column into `l_32` -/

section MergeLemmas

variable {K : Type} [Field K] [DecidableEq K]

theorem colDelta_of_mem (a : Args K) (hs : PatternSorted a) (t : Nat) (h1 : a.cp 0 ≤ t)
    (h2 : t < a.cp 1) : colDelta a (a.ci t) = a.cx2 t - a.cx t := by
  unfold colDelta
  apply sum_map_ite_eq_single (a.cp 0) _ a.ci (fun q => a.cx2 q - a.cx q) (a.ci t) t h1
    (by omega) rfl
  intro q h4 h5 h6
  rcases Nat.lt_trichotomy q t with h | h | h
  · have := hs q t h4 h h2; omega
  · exact h
  · have := hs t q h1 h (by omega); omega

theorem colDelta_eq_zero (a : Args K) (r : Nat)
    (h : ∀ t, a.cp 0 ≤ t → t < a.cp 1 → a.ci t ≠ r) : colDelta a r = 0 := by
  unfold colDelta
  apply sum_map_ite_eq_zero
  intro p hp
  rw [List.mem_range'_1] at hp
  exact h p hp.1 (by omega)

/-- The merge loop of lines 202-209 over the entries `lo .. hi-1` of column `k`,
started at the pattern offset `c + 1`: when the rows of the pattern after `k`
are rows of the column, and the row index found past the stored pattern
(`ci[cp[1]]`) is none of the rows of the column that come after every row of
the pattern, every entry gets the value `(Δc[r] + l32_old[r] * d - w[r]) / db`. -/
theorem merge_loop_spec (a : Args K) (Li : Nat → Nat) (w : Nat → K) (d db : K)
    (lo hi c : Nat) (Lx0 : Nat → K) (hs : PatternSorted a)
    (hinc : ∀ p q, lo ≤ p → p < q → q < hi → Li p < Li q)
    (hrow : ∀ p, lo ≤ p → p < hi → a.k < Li p)
    (hc0 : a.cp 0 ≤ c) (hc : c < a.cp 1) (hck : a.ci c = a.k)
    (hsub : ∀ t, c < t → t < a.cp 1 → ∃ p, lo ≤ p ∧ p < hi ∧ Li p = a.ci t)
    (hslack : ∀ p, lo ≤ p → p < hi → (∀ t, c < t → t < a.cp 1 → a.ci t < Li p) →
      Li p ≠ a.ci (a.cp 1)) :
    (∀ p, lo ≤ p → p < hi →
      (forRange lo hi (mergeStep a Li w d db) (Lx0, c + 1)).1 p =
        (colDelta a (Li p) + Lx0 p * d - w (Li p)) / db) ∧
    (∀ p, ¬ (lo ≤ p ∧ p < hi) →
      (forRange lo hi (mergeStep a Li w d db) (Lx0, c + 1)).1 p = Lx0 p) := by
  rcases Nat.lt_or_ge hi lo with hlt | hle
  · rw [forRange_nil _ _ _ _ (by omega)]
    exact ⟨fun p h1 h2 => by omega, fun p _ => rfl⟩
  have key := forRange_induction
    (fun q (st : (Nat → K) × Nat) =>
      c < st.2 ∧ st.2 ≤ a.cp 1 ∧
      (∀ t, c < t → t < st.2 → ∃ p, lo ≤ p ∧ p < q ∧ Li p = a.ci t) ∧
      (∀ t, st.2 ≤ t → t < a.cp 1 → ∀ p, lo ≤ p → p < q → Li p < a.ci t) ∧
      (∀ p, lo ≤ p → p < q →
        st.1 p = (colDelta a (Li p) + Lx0 p * d - w (Li p)) / db) ∧
      (∀ p, ¬ (lo ≤ p ∧ p < q) → st.1 p = Lx0 p))
    lo hi (mergeStep a Li w d db) (Lx0, c + 1) hle
    ⟨by simp, by simp; omega, fun t h1 h2 => by simp at h2; omega,
      fun t _ _ p h1 h2 => by omega, fun p h1 h2 => by omega, fun p _ => rfl⟩
    (by
      rintro q ⟨Lx, cind⟩ hq1 hq2 ⟨i1, i2, i3, i4, i5, i6⟩
      simp only at i1 i2 i3 i4 i5 i6
      have hold : Lx q = Lx0 q := i6 q (by omega)
      -- no pattern entry before `cind` holds the row of `q`
      have hbefore : ∀ t, a.cp 0 ≤ t → t < cind → a.ci t ≠ Li q := by
        intro t ht1 ht2 hE
        rcases Nat.lt_or_ge c t with h | h
        · obtain ⟨p, hp1, hp2, hp3⟩ := i3 t h ht2
          have := hinc p q hp1 hp2 hq2
          omega
        · have hkq := hrow q hq1 hq2
          rcases Nat.eq_or_lt_of_le h with h' | h'
          · subst h'; omega
          · have := hs t c ht1 h' hc
            omega
      unfold mergeStep
      by_cases hm : Li q = a.ci cind
      · -- the rows match
        have hcind : cind < a.cp 1 := by
          rcases Nat.eq_or_lt_of_le i2 with h | h
          · exfalso
            refine hslack q hq1 hq2 (fun t h1 h2 => ?_) (h ▸ hm)
            obtain ⟨p, hp1, hp2, hp3⟩ := i3 t h1 (by omega)
            have := hinc p q hp1 hp2 hq2
            omega
          · exact h
        simp only [hm, if_true]
        refine ⟨by omega, by omega, ?_, ?_, ?_, ?_⟩
        · intro t h1 h2
          rcases Nat.eq_or_lt_of_le (Nat.le_of_lt_succ h2) with h | h
          · subst h
            exact ⟨q, hq1, by omega, hm⟩
          · obtain ⟨p, hp1, hp2, hp3⟩ := i3 t h1 h
            exact ⟨p, hp1, by omega, hp3⟩
        · intro t h1 h2 p hp1 hp2
          have hlt : a.ci cind < a.ci t := hs cind t (by omega) (by omega) h2
          rcases Nat.eq_or_lt_of_le (Nat.le_of_lt_succ hp2) with h | h
          · subst h; omega
          · have := i4 cind (le_refl _) hcind p hp1 h
            omega
        · intro p hp1 hp2
          rcases Nat.eq_or_lt_of_le (Nat.le_of_lt_succ hp2) with h | h
          · subst h
            rw [Function.update_same, hold, hm,
              colDelta_of_mem a hs cind (by omega) hcind]
          · rw [Function.update_noteq (by omega), i5 p hp1 h]
        · intro p hp
          rw [Function.update_noteq (by omega), i6 p (by omega)]
      · -- no match
        simp only [hm, if_false]
        have hzero : colDelta a (Li q) = 0 := by
          apply colDelta_eq_zero
          intro t ht1 ht2 hE
          rcases Nat.lt_or_ge t cind with h | h
          · exact hbefore t ht1 h hE
          · -- `t` is a pattern row not yet consumed: it lies in the column, after `q`
            have hcl : c < cind := i1
            obtain ⟨p, hp1, hp2, hp3⟩ := hsub cind (by omega) (by omega)
            have hcq : a.ci cind ≤ a.ci t := by
              rcases Nat.eq_or_lt_of_le h with h' | h'
              · subst h'; exact le_refl _
              · exact le_of_lt (hs cind t (by omega) h' ht2)
            rcases Nat.lt_trichotomy p q with hpq | hpq | hpq
            · have := i4 cind (le_refl _) (by omega) p hp1 hpq
              omega
            · subst hpq; exact hm hp3
            · have := hinc q p hq1 hpq hp2
              omega
        refine ⟨i1, i2, ?_, ?_, ?_, ?_⟩
        · intro t h1 h2
          obtain ⟨p, hp1, hp2, hp3⟩ := i3 t h1 h2
          exact ⟨p, hp1, by omega, hp3⟩
        · intro t h1 h2 p hp1 hp2
          rcases Nat.eq_or_lt_of_le (Nat.le_of_lt_succ hp2) with h | h
          · subst h
            -- `ci t` is a row of the column, not before `p`
            obtain ⟨p', hp1', hp2', hp3'⟩ := hsub t (by omega) h2
            have hcq : a.ci cind ≤ a.ci t := by
              rcases Nat.eq_or_lt_of_le h1 with h' | h'
              · subst h'; exact le_refl _
              · exact le_of_lt (hs cind t (by omega) h' h2)
            obtain ⟨p'', hq1'', hq2'', hq3''⟩ := hsub cind (by omega) (by omega)
            rcases Nat.lt_trichotomy p'' p with hpq | hpq | hpq
            · have := i4 cind (le_refl _) (by omega) p'' hq1'' hpq
              omega
            · subst hpq; exact absurd hq3'' hm
            · have := hinc p p'' hq1 hpq hq2''
              omega
          · exact i4 t h1 h2 p hp1 h
        · intro p hp1 hp2
          rcases Nat.eq_or_lt_of_le (Nat.le_of_lt_succ hp2) with h | h
          · subst h
            rw [Function.update_same, hold, hzero, zero_add]
          · rw [Function.update_noteq (by omega), i5 p hp1 h]
        · intro p hp
          rw [Function.update_noteq (by omega), i6 p (by omega)])
  exact ⟨key.2.2.2.2.1, key.2.2.2.2.2⟩

end MergeLemmas

section TrailingColumnSpec

variable {K : Type} [Field K] [DecidableEq K]

/-- The `l_32` block for `0 < k < n-1` (lines 191-211).  When the update column
is sorted, stores row `k`, its rows after `k` are rows of column `k` of `L`, and
the row index found past its stored entries (`ci[cp[1]]`) is none of the rows of
column `k` that come after every row of the update column (there is no such row
when the last row of column `k` is in the update column), every stored row
`r > k` of column `k` gets the value `(Δc[r] + l32_old[r] * d_old - w[r]) / d_new`. -/
theorem trailingColumn_spec (a : Args K) (hk0 : 0 < a.k) (hkn : a.k + 1 < a.n)
    (hv : ColumnsValid (a.k + 1) a.Lp2 a.Li2) (hs : PatternSorted a) (hcp : a.cp 0 = 0)
    (c : Nat) (hc : c < a.cp 1) (hck : a.ci c = a.k)
    (hsub : ∀ t, c < t → t < a.cp 1 →
      ∃ p, a.Lp2 a.k + 1 ≤ p ∧ p < a.Lp2 (a.k + 1) ∧ a.Li2 p = a.ci t)
    (hslack : ∀ p, a.Lp2 a.k + 1 ≤ p → p < a.Lp2 (a.k + 1) →
      (∀ t, c < t → t < a.cp 1 → a.ci t < a.Li2 p) → a.Li2 p ≠ a.ci (a.cp 1)) :
    ∃ ps, pivotPhase a (copyPhase a) = Except.ok ps ∧
      ∀ p, a.Lp2 a.k + 1 ≤ p → p < a.Lp2 (a.k + 1) →
        (trailingColumn a (copyPhase a) ps).1 p =
          (colDelta a (a.Li2 p) + a.Lx2 p * a.Lx2 (a.Lp2 a.k)
            - accumW a (copyPhase a).Lp (copyPhase a).Li ps.deltal12 (a.Li2 p))
          / ps.Lx (a.Lp2 a.k) := by
  obtain ⟨ps, hps, hd, hcind, hdb, _, _, hframe⟩ :=
    pivotPhase_spec a hk0 (by omega) hv hs hcp c hc hck
  have hvk : ColumnsValid a.k a.Lp2 a.Li2 := fun j hj => hv j (by omega)
  obtain ⟨hne, hdiag, hinc⟩ := hv a.k (by omega)
  have hLi : ∀ p, a.Lp2 a.k ≤ p → p < a.Lp2 (a.k + 1) → (copyPhase a).Li p = a.Li2 p :=
    fun p h1 h2 => copyPhase_Li a p ⟨a.k, by omega, h1, h2⟩
  have hLx0 : ∀ p, a.Lp2 a.k + 1 ≤ p → p < a.Lp2 (a.k + 1) → ps.Lx p = a.Lx2 p := by
    intro p h1 h2
    rw [hframe p (by omega) (fun t ht => by
      have := krowSpec_offset_lt a a.n hvk t ht
      omega)]
    exact copyPhase_Lx a p ⟨a.k, by omega, by omega, h2⟩
  refine ⟨ps, hps, fun p hp1 hp2 => ?_⟩
  unfold trailingColumn
  rw [if_pos hk0, copyPhase_Lp a a.k (by omega), copyPhase_Lp a (a.k + 1) (by omega), hcind,
    hd, hdb]
  have hm := (merge_loop_spec a (copyPhase a).Li
    (accumW a (copyPhase a).Lp (copyPhase a).Li ps.deltal12) (a.Lx2 (a.Lp2 a.k))
    (ps.Lx (a.Lp2 a.k)) (a.Lp2 a.k + 1) (a.Lp2 (a.k + 1)) c ps.Lx hs
    (fun p q h1 h2 h3 => by
      rw [hLi p (by omega) (by omega), hLi q (by omega) h3]
      exact hinc p q (by omega) h2 h3)
    (fun p h1 h2 => by
      rw [hLi p (by omega) h2]
      have := hinc (a.Lp2 a.k) p (le_refl _) (by omega) h2
      omega)
    (by omega) hc hck
    (fun t h1 h2 => by
      obtain ⟨p, hp1, hp2, hp3⟩ := hsub t h1 h2
      exact ⟨p, hp1, hp2, by rw [hLi p (by omega) hp2]; exact hp3⟩)
    (fun p h1 h2 h3 => by
      rw [hLi p (by omega) h2] at h3 ⊢
      exact hslack p h1 h2 h3)).1 p hp1 hp2
  simp only
  rw [hm, hLi p (by omega) hp2, hLx0 p hp1 hp2]

end TrailingColumnSpec

/-! ## Witnesses -/

theorem C2_pattern_preserved_witness :
    ∃ out, ldlrowmodify Rat.sqrt denseExample = Except.ok out ∧
      (∀ j, j ≤ 3 → out.Lp j = denseExample.Lp2 j) ∧
      (∀ i, i < 6 → out.Li i = denseExample.Li2 i) :=
  ⟨_, rfl, C2_pattern_preserved Rat.sqrt denseExample _ (by decide) rfl⟩

theorem C5_last_column_witness :
    ∃ out, ldlrowmodify Rat.sqrt denseExample2 = Except.ok out ∧
      (∃ ps, pivotPhase denseExample2 (copyPhase denseExample2) = Except.ok ps ∧
        out.Lx = ps.Lx) ∧
      out.Lx 0 = 2 ∧ out.Lx 1 = 1 / 2 ∧ out.Lx 3 = 3 :=
  ⟨_, rfl,
    (C5_last_column Rat.sqrt denseExample2 _ (by decide) rfl).1,
    (C5_last_column Rat.sqrt denseExample2 _ (by decide) rfl).2 0
      ⟨0, by decide, by decide, by decide⟩ (by decide) (by decide),
    (C5_last_column Rat.sqrt denseExample2 _ (by decide) rfl).2 1
      ⟨0, by decide, by decide, by decide⟩ (by decide) (by decide),
    (C5_last_column Rat.sqrt denseExample2 _ (by decide) rfl).2 3
      ⟨1, by decide, by decide, by decide⟩ (by decide) (by decide)⟩

theorem C6_diagonal_update_witness :
    ∃ out, ldlrowmodify Rat.sqrt scenarioA = Except.ok out ∧
      ∀ p, p < 2 → out.Lx p = if p = 0 then 4 + (9 - 4) else scenarioA.Lx2 p :=
  C6_diagonal_update Rat.sqrt scenarioA (by decide) (by decide) (by decide) (by decide)
    (by decide)

theorem C7_tridiagonal_refactorization_witness :
    ∃ out, ldlrowmodify Rat.sqrt
        (tridiagArgs (tridiagStore (denseLDL 3 (tridiagMatrix 4 2 5 2 3)))
          [2, 5, 2] [4, 13, 1]) = Except.ok out ∧
      values 5 out.Lx = tridiagStore (denseLDL 3
        (tridiagMatrix 4 (2 + (4 - 2)) (5 + (13 - 5)) (2 + (1 - 2)) 3)) :=
  C7_tridiagonal_refactorization Rat.sqrt 4 2 5 2 3 2 5 2 4 13 1
    (posDef_tridiag_of_pivots 4 2 5 2 3 (by norm_num) (by norm_num) (by norm_num))
    (posDef_tridiag_of_pivots 4 (2 + (4 - 2)) (5 + (13 - 5)) (2 + (1 - 2)) 3
      (by norm_num) (by norm_num) (by norm_num))
    (by norm_num) (by decide!) (by decide!)

theorem C8_leading_block_solve_witness :
    ∑ j in Finset.range 2,
      unitLower denseExample2.Lp2 denseExample2.Li2 denseExample2.Lx2 1 j *
        denseExample2.Lx2 (denseExample2.Lp2 j) * leadingDelta denseExample2 j
      = colDelta denseExample2 1 :=
  C8_leading_block_solve denseExample2 (by decide)
    (columnsValid_of_bounded _ _ _ (by decide))
    (by decide!)
    (patternSorted_of_bounded _ (by decide))
    1 (by decide)

theorem C9_updated_pivot_witness :
    ∃ ps, pivotPhase denseExample2 (copyPhase denseExample2) = Except.ok ps ∧
      ps.Lx 2 = denseExample2.Lx2 2 + leadingDelta denseExample2 0 ∧
      ps.Lx 4 = denseExample2.Lx2 4 + leadingDelta denseExample2 1 :=
  (C9_updated_pivot denseExample2 (by decide) (by decide)
    (columnsValid_of_bounded _ _ _ (by decide)) (patternSorted_of_bounded _ (by decide))
    (by decide) 2 (by decide) (by decide)).imp
    (fun _ h => ⟨h.1,
      h.2.2.1 0 2 (by decide) (by decide) (by decide) (by decide),
      h.2.2.1 1 4 (by decide) (by decide) (by decide) (by decide)⟩)

/-! ## Inputs on which the code departs from the specification -/

section MissingRow

variable {K : Type} [Field K] [DecidableEq K]

/-- For `k > 0` the call fails when no stored entry of the update column has
row index `k`. -/
theorem ldlrowmodify_missing_row (sqrt : K → K) (a : Args K) (hk : 0 < a.k)
    (h : ∀ i, i < a.cp 1 → a.ci i ≠ a.k) :
    ldlrowmodify sqrt a = Except.error KernelError.missingKthElement := by
  have hf : findDiag a = none := by
    unfold findDiag
    rw [List.find?_eq_none]
    intro i hi
    rw [List.mem_range] at hi
    simpa using h i hi
  unfold ldlrowmodify pivotPhase
  simp only [if_pos hk, hf]

end MissingRow

/-- Claim C1 at `cancellationExample`: a well formed factor without zero entries
and with positive pivots of a dense positive definite matrix, and a change of
row and column 0 that keeps the pattern and positive definiteness.  The call
returns the values `[1,1,2,1,0,5]`: at row 1 the `L_33` loop brings `wu[2]` to
`1 - 1*1 = 0` and `wd[2]` to `2 - 1*1 = 1`, so row 2 is skipped and its pivot
stays 5.  The product `L' D' L'ᵗ` has the entry 9 at (2,2), the changed matrix
has 7 there, and the values `[1,1,2,1,0,3]` on the same pattern reproduce the
changed matrix. -/
theorem C1_gate_skips_downdate :
    ColumnsValid 3 cancellationExample.Lp2 cancellationExample.Li2 ∧
    PatternSorted cancellationExample ∧
    (∀ j, j < 3 → 0 < cancellationExample.Lx2 (cancellationExample.Lp2 j)) ∧
    (∀ p, p < 6 → cancellationExample.Lx2 p ≠ 0) ∧
    Rat.sqrt 1 * Rat.sqrt 1 = 1 ∧
    (ldlrowmodify Rat.sqrt cancellationExample).toOption.map (fun f => values 6 f.Lx)
      = some [1, 1, 2, 1, 0, 5] ∧
    (ldlrowmodify Rat.sqrt cancellationExample).toOption.map (fun f => ldlt 3 f 2 2)
      = some 9 ∧
    updatedMatrix cancellationExample (ldlt 3 (inputFactor cancellationExample)) 2 2 = 7 ∧
    (∀ i, i < 3 → ∀ j, j < 3 →
      ldlt 3 ({ Lp := cancellationExample.Lp2, Li := cancellationExample.Li2,
                Lx := arr [1, 1, 2, 1, 0, 3] } : Factor ℚ) i j
        = updatedMatrix cancellationExample
            (ldlt 3 (inputFactor cancellationExample)) i j) :=
  ⟨columnsValid_of_bounded _ _ _ (by decide), patternSorted_of_bounded _ (by decide),
    by decide!, by decide!, by decide!, by decide!, by decide!, by decide!, by decide!⟩

/-- Claim C3 at `missingRowZero`: `k = 0` and the update columns store row 1
only, yet the call raises no error and returns `diag(6, 3)`. -/
theorem C3_no_check_when_k_zero :
    missingRowZero.k = 0 ∧
    (∀ i, i < missingRowZero.cp 1 → missingRowZero.ci i ≠ missingRowZero.k) ∧
    (ldlrowmodify Rat.sqrt missingRowZero).toOption.map (fun f => values 2 f.Lx)
      = some [6, 3] :=
  ⟨rfl, by decide, by decide!⟩

/-- Claim C4 at `denseExample`: the call returns `out1` (values `[1,1,1,1,1,2]`:
row 2 is skipped because `wu[2] = 0`, although `wd[2] = 1`); the call on `out1`
with the two columns swapped returns `out2`, whose pivot of column 2 is 3 while
the original pivot is 2. -/
theorem C4_round_trip_fails :
    ∃ out1 out2, ldlrowmodify Rat.sqrt denseExample = Except.ok out1 ∧
      ldlrowmodify Rat.sqrt
        { denseExample with Lx2 := out1.Lx, cx := denseExample.cx2, cx2 := denseExample.cx }
        = Except.ok out2 ∧
      values 6 out1.Lx = [1, 1, 1, 1, 1, 2] ∧
      values 6 out2.Lx = [1, 1, 1, 1, 0, 3] ∧ values 6 denseExample.Lx2 = [1, 1, 1, 1, 0, 2] :=
  ⟨_, _, rfl, rfl, by decide!, by decide!, by decide!⟩

/-- Claim C10 at `staleSlack`: the update column stores row 1 only, so the
change of row 2 is 0 and the claimed value of the entry (2,1) is
`(0 + (1/2) * 4 - 0) / 5 = 2/5`.  The merge loop reads `ci[1]`, past the stored
entries, finds the row index 2 there and adds `cx2[1] - cx[1] = 1`: the entry
becomes `3/5`. -/
theorem C10_merge_reads_past_pattern :
    0 < staleSlack.k ∧ staleSlack.k < staleSlack.n - 1 ∧ staleSlack.cp 1 = 1 ∧
    staleSlack.ci 0 = staleSlack.k ∧ staleSlack.Li2 3 = 2 ∧ colDelta staleSlack 2 = 0 ∧
    (pivotPhase staleSlack (copyPhase staleSlack)).toOption.map
      (fun ps => (trailingColumn staleSlack (copyPhase staleSlack) ps).1 3) = some (3 / 5) ∧
    (pivotPhase staleSlack (copyPhase staleSlack)).toOption.map
      (fun ps => (colDelta staleSlack 2 + staleSlack.Lx2 3 * ps.d
        - accumW staleSlack (copyPhase staleSlack).Lp (copyPhase staleSlack).Li
            ps.deltal12 2) / ps.db) = some (2 / 5) :=
  ⟨by decide, by decide, by decide, by decide, by decide, by decide!, by decide!, by decide!⟩


/-! ## The pattern indexer -/

section IndexerLemmas

variable {K : Type} [Field K] [DecidableEq K]

/-- A list of pairs whose first components strictly increase and stay below `k`
has at most `k` entries. -/
theorem length_le_of_pairwise_lt (l : List (Nat × Nat)) (k : Nat)
    (hp : l.Pairwise (fun t u => t.1 < u.1)) (hk : ∀ t, t ∈ l → t.1 < k) :
    l.length ≤ k := by
  have hnd : (l.map Prod.fst).Nodup := by
    unfold List.Nodup
    rw [List.pairwise_map]
    exact hp.imp (fun h => ne_of_lt h)
  have hsub : (l.map Prod.fst).toFinset ⊆ Finset.range k := by
    intro x hx
    rw [List.mem_toFinset, List.mem_map] at hx
    obtain ⟨t, ht, rfl⟩ := hx
    exact Finset.mem_range.2 (hk t ht)
  have hc := Finset.card_le_card hsub
  rw [List.toFinset_card_of_nodup hnd, List.length_map, Finset.card_range] at hc
  exact hc

end IndexerLemmas

/-- Claim C17 (pattern indexer).  For `k ≤ n` and well formed columns before `k`,
the list built during the copy holds exactly the pairs (column `j`, offset `i`)
with `j < k`, `Lp[j] ≤ i < Lp[j+1]` and `Li[i] = k`, each once, with strictly
increasing columns; it has at most `k` entries and is empty for `k = 0`. -/
theorem C17_pattern_indexer {K : Type} [Field K] [DecidableEq K] (a : Args K)
    (hkn : a.k ≤ a.n) (hv : ColumnsValid a.k a.Lp2 a.Li2) :
    (∀ t : Nat × Nat, t ∈ (copyPhase a).krow ↔
      t.1 < a.k ∧ a.Lp2 t.1 ≤ t.2 ∧ t.2 < a.Lp2 (t.1 + 1) ∧ a.Li2 t.2 = a.k) ∧
    (copyPhase a).krow.Nodup ∧
    (copyPhase a).krow.Pairwise (fun t u => t.1 < u.1) ∧
    (copyPhase a).krow.length ≤ a.k ∧
    (a.k = 0 → (copyPhase a).krow = []) := by
  rw [copyPhase_krow]
  have hp := krowSpec_pairwise a a.n hv
  have hlen := length_le_of_pairwise_lt (krowSpec a a.n) a.k hp
    (fun t ht => ((mem_krowSpec a a.n t).1 ht).2.1)
  refine ⟨fun t => ?_, ?_, hp, hlen, fun h0 => ?_⟩
  · rw [mem_krowSpec]
    constructor
    · rintro ⟨_, h2, h3, h4, h5⟩
      exact ⟨h2, h3, h4, h5⟩
    · rintro ⟨h2, h3, h4, h5⟩
      exact ⟨by omega, h2, h3, h4, h5⟩
  · exact hp.imp (fun h hE => by rw [hE] at h; exact lt_irrefl _ h)
  · rw [h0] at hlen
    exact List.length_eq_zero.1 (Nat.le_zero.1 hlen)

theorem C17_pattern_indexer_witness :
    denseExample2.k ≤ denseExample2.n ∧
    ColumnsValid denseExample2.k denseExample2.Lp2 denseExample2.Li2 ∧
    (∀ t : Nat × Nat, t ∈ (copyPhase denseExample2).krow ↔
      t.1 < denseExample2.k ∧ denseExample2.Lp2 t.1 ≤ t.2 ∧
        t.2 < denseExample2.Lp2 (t.1 + 1) ∧ denseExample2.Li2 t.2 = denseExample2.k) ∧
    (copyPhase denseExample2).krow.Nodup ∧
    (copyPhase denseExample2).krow.Pairwise (fun t u => t.1 < u.1) ∧
    (copyPhase denseExample2).krow.length ≤ denseExample2.k ∧
    (denseExample2.k = 0 → (copyPhase denseExample2).krow = []) :=
  ⟨by decide, columnsValid_of_bounded _ _ _ (by decide),
   C17_pattern_indexer denseExample2 (by decide) (columnsValid_of_bounded _ _ _ (by decide))⟩

/-! ## What the trailing phases leave unchanged -/

section FrameLemmas

variable {K : Type} [Field K] [DecidableEq K]

/-- The merge loop (`k > 0`) writes only at the offsets it visits. -/
theorem merge_frame (a : Args K) (Li : Nat → Nat) (w : Nat → K) (d db : K) (lo hi : Nat)
    (st : (Nat → K) × Nat) (p : Nat) (hp : ¬ (lo ≤ p ∧ p < hi)) :
    (forRange lo hi (mergeStep a Li w d db) st).1 p = st.1 p := by
  rcases Nat.lt_or_ge hi lo with hlt | hle
  · rw [forRange_nil _ _ _ _ (by omega)]
  · exact forRange_induction (fun _ (t : (Nat → K) × Nat) => t.1 p = st.1 p) lo hi _ st hle
      rfl (fun q t h1 h2 ht => by
        have hne : p ≠ q := by omega
        unfold mergeStep
        by_cases hm : Li q = a.ci t.2
        · simp only [hm, if_true]
          rw [Function.update_noteq hne]; exact ht
        · simp only [hm, if_false]
          rw [Function.update_noteq hne]; exact ht)

/-- The merge loop (`k == 0`) writes only at the offsets it visits. -/
theorem merge0_frame (a : Args K) (Li : Nat → Nat) (d db : K) (lo hi : Nat)
    (st : (Nat → K) × Nat) (p : Nat) (hp : ¬ (lo ≤ p ∧ p < hi)) :
    (forRange lo hi (mergeStep0 a Li d db) st).1 p = st.1 p := by
  rcases Nat.lt_or_ge hi lo with hlt | hle
  · rw [forRange_nil _ _ _ _ (by omega)]
  · exact forRange_induction (fun _ (t : (Nat → K) × Nat) => t.1 p = st.1 p) lo hi _ st hle
      rfl (fun q t h1 h2 ht => by
        have hne : p ≠ q := by omega
        unfold mergeStep0
        by_cases hm : Li q = a.ci t.2
        · simp only [hm, if_true]
          rw [Function.update_noteq hne]; exact ht
        · simp only [hm, if_false]
          rw [Function.update_noteq hne]; exact ht)

/-- The `l_32` block writes only below the diagonal of column `k`. -/
theorem trailingColumn_frame (a : Args K) (s : CopyState K) (ps : PivotState K) (p : Nat)
    (hp : ¬ (s.Lp a.k + 1 ≤ p ∧ p < s.Lp (a.k + 1))) :
    (trailingColumn a s ps).1 p = ps.Lx p := by
  unfold trailingColumn
  by_cases hk : 0 < a.k
  · rw [if_pos hk]
    exact merge_frame a _ _ _ _ _ _ _ p hp
  · rw [if_neg hk]
    exact merge0_frame a _ _ _ _ _ _ p hp

/-- The inner loop of a row of the `L_33` loop writes `Lx` only at the offsets
it visits, and leaves `alpha`, `alpha2` alone. -/
theorem rotateEntry_loop_frame (Li : Nat → Nat) (i : Nat) (gamma gamma2 : K) (lo hi : Nat)
    (s : RotState K) :
    (∀ p, ¬ (lo ≤ p ∧ p < hi) →
      (forRange lo hi (rotateEntry Li i gamma gamma2) s).Lx p = s.Lx p) ∧
    (forRange lo hi (rotateEntry Li i gamma gamma2) s).alpha = s.alpha ∧
    (forRange lo hi (rotateEntry Li i gamma gamma2) s).alpha2 = s.alpha2 := by
  rcases Nat.lt_or_ge hi lo with hlt | hle
  · rw [forRange_nil _ _ _ _ (by omega)]
    exact ⟨fun _ _ => rfl, rfl, rfl⟩
  · exact forRange_induction
      (fun q (t : RotState K) => (∀ p, ¬ (lo ≤ p ∧ p < q) → t.Lx p = s.Lx p) ∧
        t.alpha = s.alpha ∧ t.alpha2 = s.alpha2) lo hi _ s hle
      ⟨fun _ _ => rfl, rfl, rfl⟩
      (fun q t h1 h2 ht => by
        refine ⟨fun p hp => ?_, ht.2.1, ht.2.2⟩
        have hne : p ≠ q := by omega
        simp only [rotateEntry]
        rw [Function.update_noteq hne, Function.update_noteq hne]
        exact ht.1 p (by omega))

/-- A row of the `L_33` loop writes `Lx` only at the diagonal entry of its
column and below it. -/
theorem rotateRow_frame (Lp Li : Nat → Nat) (i : Nat) (s : RotState K) (p : Nat)
    (hp1 : p ≠ Lp i) (hp2 : ¬ (Lp i + 1 ≤ p ∧ p < Lp (i + 1))) :
    (rotateRow Lp Li i s).Lx p = s.Lx p := by
  unfold rotateRow
  by_cases hw : s.wu i ≠ 0
  · rw [if_pos hw]
    simp only
    rw [(rotateEntry_loop_frame Li i _ _ _ _ _).1 p hp2]
    simp only
    rw [Function.update_noteq hp1, Function.update_noteq hp1]
  · rw [if_neg hw]

/-- The `L_33` loop over the rows `lo .. hi-1` writes `Lx` only in the columns
`lo .. hi-1`. -/
theorem rotate_frame (Lp Li : Nat → Nat) (lo hi : Nat) (s : RotState K) (p : Nat)
    (hp : ∀ i, lo ≤ i → i < hi → p ≠ Lp i ∧ ¬ (Lp i + 1 ≤ p ∧ p < Lp (i + 1))) :
    (forRange lo hi (rotateRow Lp Li) s).Lx p = s.Lx p := by
  rcases Nat.lt_or_ge hi lo with hlt | hle
  · rw [forRange_nil _ _ _ _ (by omega)]
  · exact forRange_induction (fun _ (t : RotState K) => t.Lx p = s.Lx p) lo hi _ s hle rfl
      (fun i t h1 h2 ht => by
        show (rotateRow Lp Li i t).Lx p = s.Lx p
        rw [rotateRow_frame Lp Li i t p (hp i h1 h2).1 (hp i h1 h2).2]
        exact ht)

/-- The `L_33` part writes `Lx` only in the columns `k+1 .. n-1`. -/
theorem rotatePhase_frame (sqrt : K → K) (a : Args K) (s : CopyState K) (d db : K)
    (Lx : Nat → K) (p : Nat)
    (hp : ∀ i, a.k + 1 ≤ i → i < a.n → p ≠ s.Lp i ∧ ¬ (s.Lp i + 1 ≤ p ∧ p < s.Lp (i + 1))) :
    (rotatePhase sqrt a s d db Lx).Lx p = Lx p := by
  unfold rotatePhase
  simp only
  rw [rotate_frame s.Lp s.Li _ _ _ p hp]

/-- The direction vector `wu` is zero when the stored entries below the
diagonal of column `k` of the input are zero. -/
theorem initDirections_wu_zero (sqrt : K → K) (a : Args K) (s : CopyState K) (d db : K)
    (Lx : Nat → K)
    (hz : ∀ p, s.Lp a.k + 1 ≤ p → p < s.Lp (a.k + 1) → a.Lx2 p = 0) (i : Nat) :
    (initDirections sqrt a s d db Lx).1 i = 0 := by
  unfold initDirections
  rcases Nat.lt_or_ge (s.Lp (a.k + 1)) (s.Lp a.k + 1) with hlt | hle
  · rw [forRange_nil _ _ _ _ (by omega)]
  · exact forRange_induction (fun _ (t : (Nat → K) × (Nat → K)) => t.1 i = 0) _ _ _ _ hle rfl
      (fun p t h1 h2 ht => by
        simp only
        by_cases hi : i = s.Li p
        · rw [hi, Function.update_same, hz p h1 h2, zero_mul]
        · rw [Function.update_noteq hi]; exact ht)

/-- Offsets of two distinct well formed columns are distinct: the columns are
laid out in increasing order. -/
theorem columnsValid_lt_of_lt (m : Nat) (Lp Li : Nat → Nat) (hv : ColumnsValid m Lp Li)
    (i j : Nat) (hij : i < j) (hj : j ≤ m) (p : Nat) (hp : p < Lp (i + 1)) : p < Lp j := by
  have := columnsValid_Lp_mono m Lp Li hv (i + 1) j (by omega) hj
  omega

end FrameLemmas

section FrameKernel

variable {K : Type} [Field K] [DecidableEq K]

/-- Away from the diagonal of column `k`, a successful `l_12` / `D22` block with
`k > 0` leaves the values of lines 155-157. -/
theorem pivotPhase_ok_Lx (a : Args K) (s : CopyState K) (ps : PivotState K)
    (h : pivotPhase a s = Except.ok ps) (hk : 0 < a.k) (q : Nat) (hq : q ≠ s.Lp a.k) :
    ps.Lx q = setL12 s.krow (solveL11 a.k s.Lp s.Li s.Lx (deltaInit a)) s.Lx q := by
  unfold pivotPhase at h
  rw [if_pos hk] at h
  simp only at h
  cases hf : findDiag a with
  | none => rw [hf] at h; simp at h
  | some cind =>
    rw [hf] at h
    simp only at h
    injection h with h
    subst h
    simp only
    rw [Function.update_noteq hq]

/-- The values of a successful call in a column after `k`, when `wu` starts
at zero. -/
theorem ldlrowmodify_after_k (sqrt : K → K) (a : Args K) (out : Factor K)
    (hk : a.k < a.n) (hv : ColumnsValid a.n a.Lp2 a.Li2)
    (hz : ∀ p, a.Lp2 a.k + 1 ≤ p → p < a.Lp2 (a.k + 1) → a.Lx2 p = 0)
    (h : ldlrowmodify sqrt a = Except.ok out) (j p : Nat) (hj1 : a.k < j) (hj2 : j < a.n)
    (hp1 : a.Lp2 j ≤ p) (hp2 : p < a.Lp2 (j + 1)) : out.Lx p = a.Lx2 p := by
  obtain ⟨_, _, ps, hps, hLx⟩ := ldlrowmodify_ok sqrt a out h
  have hLpk : (copyPhase a).Lp a.k = a.Lp2 a.k := copyPhase_Lp a a.k (by omega)
  have hLpk1 : (copyPhase a).Lp (a.k + 1) = a.Lp2 (a.k + 1) :=
    copyPhase_Lp a (a.k + 1) (by omega)
  have hkj : a.Lp2 (a.k + 1) ≤ a.Lp2 j :=
    columnsValid_Lp_mono a.n a.Lp2 a.Li2 hv (a.k + 1) j (by omega) (by omega)
  have hkk := (hv a.k hk).1
  have hps_p : ps.Lx p = a.Lx2 p := by
    rw [pivotPhase_frame a _ ps hps p (by rw [hLpk]; omega) (fun t ht => by
      rw [copyPhase_krow, mem_krowSpec] at ht
      have := columnsValid_lt_of_lt a.n a.Lp2 a.Li2 hv t.1 j (by omega) (by omega) t.2
        ht.2.2.2.1
      omega)]
    exact copyPhase_Lx a p ⟨j, hj2, hp1, hp2⟩
  rw [hLx]
  by_cases hlast : a.k < a.n - 1
  · rw [if_pos hlast]
    unfold rotatePhase
    simp only
    rw [rotate_wu_zero _ _ _ _ _ (fun i => initDirections_wu_zero sqrt a _ _ _ _
      (fun q h1 h2 => hz q (by omega) (by omega)) i)]
    simp only
    rw [trailingColumn_frame a _ ps p (by rw [hLpk1]; omega)]
    exact hps_p
  · rw [if_neg hlast]
    exact hps_p

/-- The values of a successful call in a column before `k` are those left by
the `l_12` / `D22` block. -/
theorem ldlrowmodify_before_k (sqrt : K → K) (a : Args K) (out : Factor K)
    (hkn : a.k < a.n) (hv : ColumnsValid a.n a.Lp2 a.Li2)
    (h : ldlrowmodify sqrt a = Except.ok out) (j p : Nat) (hj : j < a.k)
    (hp2 : p < a.Lp2 (j + 1)) :
    ∃ ps, pivotPhase a (copyPhase a) = Except.ok ps ∧ out.Lx p = ps.Lx p := by
  obtain ⟨_, _, ps, hps, hLx⟩ := ldlrowmodify_ok sqrt a out h
  refine ⟨ps, hps, ?_⟩
  have hpk : p < a.Lp2 a.k :=
    columnsValid_lt_of_lt a.n a.Lp2 a.Li2 hv j a.k hj (by omega) p hp2
  rw [hLx]
  by_cases hlast : a.k < a.n - 1
  · rw [if_pos hlast, rotatePhase_frame sqrt a _ _ _ _ p (fun i hi1 hi2 => by
      rw [copyPhase_Lp a i (by omega), copyPhase_Lp a (i + 1) (by omega)]
      have := columnsValid_Lp_mono a.n a.Lp2 a.Li2 hv a.k i (by omega) (by omega)
      constructor <;> omega),
      trailingColumn_frame a _ ps p (by rw [copyPhase_Lp a a.k (by omega)]; omega)]
  · rw [if_neg hlast]

end FrameKernel

/-- Claim C15 (leading columns).  For `0 < k < n`, a well formed pattern and a
successful call, every stored entry with row index `k` in a column `j < k` has
the output value `input + Δ[j]`, and every other stored value of the columns
`0 .. k-1` equals the input's. -/
theorem C15_leading_columns {K : Type} [Field K] [DecidableEq K] (sqrt : K → K)
    (a : Args K) (out : Factor K) (hk0 : 0 < a.k) (hkn : a.k < a.n)
    (hv : ColumnsValid a.n a.Lp2 a.Li2) (h : ldlrowmodify sqrt a = Except.ok out) :
    (∀ j p, j < a.k → a.Lp2 j ≤ p → p < a.Lp2 (j + 1) → a.Li2 p = a.k →
      out.Lx p = a.Lx2 p + leadingDelta a j) ∧
    (∀ j p, j < a.k → a.Lp2 j ≤ p → p < a.Lp2 (j + 1) → a.Li2 p ≠ a.k →
      out.Lx p = a.Lx2 p) := by
  have hvk : ColumnsValid a.k a.Lp2 a.Li2 := fun j hj => hv j (by omega)
  have hLpk : (copyPhase a).Lp a.k = a.Lp2 a.k := copyPhase_Lp a a.k (by omega)
  have hps_q : ∀ j p, j < a.k → p < a.Lp2 (j + 1) →
      out.Lx p = setL12 (krowSpec a a.n) (leadingDelta a) (copyPhase a).Lx p := by
    intro j p hj hp2
    obtain ⟨ps, hps, hout⟩ := ldlrowmodify_before_k sqrt a out hkn hv h j p hj hp2
    have hpk : p < a.Lp2 a.k :=
      columnsValid_lt_of_lt a.n a.Lp2 a.Li2 hv j a.k hj (by omega) p hp2
    rw [hout, pivotPhase_ok_Lx a _ ps hps hk0 p (by rw [hLpk]; omega), copyPhase_krow]
    rfl
  refine ⟨fun j p hj hp1 hp2 hpk => ?_, fun j p hj hp1 hp2 hpk => ?_⟩
  · have hmem : (j, p) ∈ krowSpec a a.n :=
      (mem_krowSpec a a.n (j, p)).2 ⟨by omega, hj, hp1, hp2, hpk⟩
    rw [hps_q j p hj hp2,
      setL12_of_mem _ (krowSpec_pairwise_offsets a a.n hvk) _ _ (j, p) hmem,
      copyPhase_Lx a p ⟨j, by omega, hp1, hp2⟩]
  · rw [hps_q j p hj hp2, setL12_of_not_mem _ _ _ p (fun t ht hE => by
      rw [mem_krowSpec] at ht
      exact hpk (hE ▸ ht.2.2.2.2)),
      copyPhase_Lx a p ⟨j, by omega, hp1, hp2⟩]

theorem C15_leading_columns_witness :
    ∃ out, ldlrowmodify Rat.sqrt denseExample = Except.ok out ∧
      (∀ j p, j < denseExample.k → denseExample.Lp2 j ≤ p → p < denseExample.Lp2 (j + 1) →
        denseExample.Li2 p = denseExample.k →
        out.Lx p = denseExample.Lx2 p + leadingDelta denseExample j) ∧
      (∀ j p, j < denseExample.k → denseExample.Lp2 j ≤ p → p < denseExample.Lp2 (j + 1) →
        denseExample.Li2 p ≠ denseExample.k → out.Lx p = denseExample.Lx2 p) :=
  ⟨_, rfl, C15_leading_columns Rat.sqrt denseExample _ (by decide) (by decide)
    (columnsValid_of_bounded _ _ _ (by decide)) rfl⟩

/-- Claim C16 (skipped rows).  An iteration of the `L_33` loop at a row `i` with
`wu[i] = 0` leaves the whole state (pivots, stored values, `alpha`, `alpha2`,
`wu`, `wd`) unchanged, whatever `wd[i]` is; and when every stored value below
the diagonal of column `k` of the input is `0`, a successful call returns the
input's values in the columns `k+1 .. n-1`. -/
theorem C16_skipped_rows {K : Type} [Field K] [DecidableEq K] (sqrt : K → K)
    (a : Args K) (out : Factor K) (hk : a.k < a.n) (hv : ColumnsValid a.n a.Lp2 a.Li2)
    (hz : ∀ p, a.Lp2 a.k + 1 ≤ p → p < a.Lp2 (a.k + 1) → a.Lx2 p = 0)
    (h : ldlrowmodify sqrt a = Except.ok out) :
    (∀ (Lp Li : Nat → Nat) (i : Nat) (s : RotState K), s.wu i = 0 →
      rotateRow Lp Li i s = s) ∧
    (∀ j p, a.k < j → j < a.n → a.Lp2 j ≤ p → p < a.Lp2 (j + 1) → out.Lx p = a.Lx2 p) := by
  refine ⟨fun Lp Li i s hw => ?_, fun j p hj1 hj2 hp1 hp2 =>
    ldlrowmodify_after_k sqrt a out hk hv hz h j p hj1 hj2 hp1 hp2⟩
  unfold rotateRow
  rw [if_neg (by rw [hw]; exact fun hne => hne rfl)]

theorem C16_skipped_rows_witness :
    ∃ out, ldlrowmodify Rat.sqrt denseExample = Except.ok out ∧
      (∀ (Lp Li : Nat → Nat) (i : Nat) (s : RotState ℚ), s.wu i = 0 →
        rotateRow Lp Li i s = s) ∧
      (∀ j p, denseExample.k < j → j < denseExample.n → denseExample.Lp2 j ≤ p →
        p < denseExample.Lp2 (j + 1) → out.Lx p = denseExample.Lx2 p) :=
  ⟨_, rfl, C16_skipped_rows Rat.sqrt denseExample _ (by decide)
    (columnsValid_of_bounded _ _ _ (by decide))
    (fun p h1 h2 => (by decide! : ∀ p, p < denseExample.Lp2 (denseExample.k + 1) →
      denseExample.Lp2 denseExample.k + 1 ≤ p → denseExample.Lx2 p = 0) p h2 h1) rfl⟩

/-! ## The boundary `k = 0` -/

section KZero

variable {K : Type} [Field K] [DecidableEq K]

theorem mergeStep0_eq (a : Args K) (Li : Nat → Nat) (d db : K) :
    mergeStep0 a Li d db = mergeStep a Li (fun _ => 0) d db := by
  funext p st
  simp [mergeStep0, mergeStep]

/-- The call for `k = 0 < n-1` on a well formed pattern.  When the update
column is sorted, stores row 0 first, its rows after 0 are rows of column 0 of
`L`, and the row index found past its stored entries (`ci[cp[1]]`) is none of
the rows of column 0 that come after every row of the update column, the call
succeeds, the pivot of column 0 is `d_old + (after_0 - before_0)` and every
stored row `r > 0` of column 0 is `(Δc[r] + l32_old[r] * d_old) / d_new`. -/
theorem ldlrowmodify_k_zero_spec (sqrt : K → K) (a : Args K) (hk : a.k = 0)
    (hn : 1 < a.n) (hv : ColumnsValid a.n a.Lp2 a.Li2) (hs : PatternSorted a)
    (hcp : a.cp 0 = 0) (hc : 0 < a.cp 1) (hc0 : a.ci 0 = 0)
    (hsub : ∀ t, 0 < t → t < a.cp 1 →
      ∃ p, a.Lp2 0 + 1 ≤ p ∧ p < a.Lp2 1 ∧ a.Li2 p = a.ci t)
    (hslack : ∀ p, a.Lp2 0 + 1 ≤ p → p < a.Lp2 1 →
      (∀ t, 0 < t → t < a.cp 1 → a.ci t < a.Li2 p) → a.Li2 p ≠ a.ci (a.cp 1)) :
    ∃ out, ldlrowmodify sqrt a = Except.ok out ∧
      out.Lx (a.Lp2 0) = a.Lx2 (a.Lp2 0) + (a.cx2 0 - a.cx 0) ∧
      ∀ p, a.Lp2 0 + 1 ≤ p → p < a.Lp2 1 →
        out.Lx p = (colDelta a (a.Li2 p) + a.Lx2 p * a.Lx2 (a.Lp2 0)) / out.Lx (a.Lp2 0) := by
  obtain ⟨hne, hdiag, hinc⟩ := hv 0 (by omega)
  have hLp0 : (copyPhase a).Lp 0 = a.Lp2 0 := copyPhase_Lp a 0 (by omega)
  have hLp1 : (copyPhase a).Lp 1 = a.Lp2 1 := copyPhase_Lp a 1 (by omega)
  have hLi : ∀ p, a.Lp2 0 ≤ p → p < a.Lp2 1 → (copyPhase a).Li p = a.Li2 p :=
    fun p h1 h2 => copyPhase_Li a p ⟨0, by omega, h1, h2⟩
  have hLx : ∀ p, a.Lp2 0 ≤ p → p < a.Lp2 1 → (copyPhase a).Lx p = a.Lx2 p :=
    fun p h1 h2 => copyPhase_Lx a p ⟨0, by omega, h1, h2⟩
  -- the values in column 0 are not touched by the `L_33` loop
  have hrot : ∀ (d db : K) (Lx : Nat → K) (p : Nat), p < a.Lp2 1 →
      (rotatePhase sqrt a (copyPhase a) d db Lx).Lx p = Lx p := by
    intro d db Lx p hp
    apply rotatePhase_frame
    intro i hi1 hi2
    rw [copyPhase_Lp a i (by omega), copyPhase_Lp a (i + 1) (by omega)]
    have := columnsValid_Lp_mono a.n a.Lp2 a.Li2 hv 1 i (by omega) (by omega)
    simp only [Nat.zero_add] at this
    constructor <;> omega
  unfold ldlrowmodify
  simp only
  have hpiv : pivotPhase a (copyPhase a) = Except.ok
      { Lx := Function.update (copyPhase a).Lx (a.Lp2 0)
          (a.Lx2 (a.Lp2 0) + a.cx2 0 - a.cx 0)
        deltal12 := fun _ => 0
        d := a.Lx2 (a.Lp2 0)
        db := a.Lx2 (a.Lp2 0) + a.cx2 0 - a.cx 0
        cind := 0 } := by
    unfold pivotPhase
    rw [if_neg (by omega), hk, hLp0, hLx _ (le_refl _) hne]
  rw [hpiv]
  simp only
  rw [if_pos (by omega)]
  refine ⟨_, rfl, ?_, ?_⟩
  · simp only
    rw [hrot _ _ _ _ hne, trailingColumn_frame a _ _ _ (by rw [hk, hLp0]; omega)]
    simp only
    rw [Function.update_same, add_sub_assoc]
  · intro p hp1 hp2
    simp only
    rw [hrot _ _ _ _ hp2, hrot _ _ _ _ hne,
      trailingColumn_frame a _ _ (a.Lp2 0) (by rw [hk, hLp0]; omega)]
    simp only
    rw [Function.update_same]
    unfold trailingColumn
    rw [if_neg (by omega), hk, hLp0]
    simp only [Nat.zero_add]
    rw [hLp1, hcp, mergeStep0_eq]
    have hm := (merge_loop_spec a (copyPhase a).Li (fun _ => 0) (a.Lx2 (a.Lp2 0))
      (a.Lx2 (a.Lp2 0) + a.cx2 0 - a.cx 0) (a.Lp2 0 + 1) (a.Lp2 1) 0
      (Function.update (copyPhase a).Lx (a.Lp2 0) (a.Lx2 (a.Lp2 0) + a.cx2 0 - a.cx 0)) hs
      (fun p q h1 h2 h3 => by
        rw [hLi p (by omega) (by omega), hLi q (by omega) h3]
        exact hinc p q (by omega) h2 h3)
      (fun p h1 h2 => by
        rw [hLi p (by omega) h2, hk]
        have := hinc (a.Lp2 0) p (le_refl _) (by omega) h2
        omega)
      (by omega) hc (by rw [hc0, hk])
      (fun t h1 h2 => by
        obtain ⟨p, hp1, hp2, hp3⟩ := hsub t h1 h2
        exact ⟨p, hp1, hp2, by rw [hLi p (by omega) hp2]; exact hp3⟩)
      (fun p h1 h2 h3 => by
        rw [hLi p (by omega) h2] at h3 ⊢
        exact hslack p h1 h2 h3)).1 p hp1 hp2
    simp only [Nat.zero_add] at hm
    rw [hm, hLi p (by omega) hp2, Function.update_noteq (by omega), hLx p (by omega) hp2,
      sub_zero]

end KZero

/-- Claim C11 at `staleSlack0`: `k = 0`, the update columns store row 0 first
and nothing else, so the change of row 1 is 0 and the claimed value of the
entry (1,0) is `(0 + (1/2) * 4) / 9 = 2/9`.  The pivot of column 0 is
`4 + (9 - 4) = 9` as claimed, but the merge loop reads `ci[1]`, past the stored
entries, finds the row index 1 there and adds `cx2[1] - cx[1] = 1`: the entry
(1,0) of the output is `1/3`. -/
theorem C11_merge_reads_past_pattern :
    staleSlack0.k = 0 ∧ staleSlack0.cp 1 = 1 ∧ staleSlack0.ci 0 = 0 ∧
    ColumnsValid 2 staleSlack0.Lp2 staleSlack0.Li2 ∧ staleSlack0.Li2 1 = 1 ∧
    colDelta staleSlack0 1 = 0 ∧
    (ldlrowmodify Rat.sqrt staleSlack0).toOption.map (fun f => (f.Lx 0, f.Lx 1))
      = some (9, 1 / 3) ∧
    (colDelta staleSlack0 1 + staleSlack0.Lx2 1 * staleSlack0.Lx2 0) / 9 = 2 / 9 :=
  ⟨rfl, by decide, by decide, columnsValid_of_bounded _ _ _ (by decide), by decide,
    by decide!, by decide!, by decide!⟩

/-- Claim C12 at `cancellationExample` (`k = 0`, positive pivots): the direction
vectors start with `wu[2] = 1`, `wd[2] = 2`; the trailing block of the input has
the entry 6 at (2,2), so the claimed entry is `6 + 1*1 - 2*2 = 3`, while the
trailing block of the output has 5 there (row 2 is skipped: `wu[2]` has become
0 when the loop reaches it). -/
theorem C12_trailing_block_misses_downdate :
    (∀ j, j < 3 → 0 < cancellationExample.Lx2 (cancellationExample.Lp2 j)) ∧
    (pivotPhase cancellationExample (copyPhase cancellationExample)).toOption.map
      (fun ps =>
        ((initDirections Rat.sqrt cancellationExample (copyPhase cancellationExample)
            ps.d ps.db
            (trailingColumn cancellationExample (copyPhase cancellationExample) ps).1).1 2,
         (initDirections Rat.sqrt cancellationExample (copyPhase cancellationExample)
            ps.d ps.db
            (trailingColumn cancellationExample (copyPhase cancellationExample) ps).1).2 2))
      = some (1, 2) ∧
    ldltTrailing 0 3 (inputFactor cancellationExample) 2 2 = 6 ∧
    (ldlrowmodify Rat.sqrt cancellationExample).toOption.map
      (fun f => ldltTrailing 0 3 f 2 2) = some 5 :=
  ⟨by decide!, by decide!, by decide!, by decide!⟩

/-- Claim C19 at `patternEndsEarly`: the update column is sorted, stores row
`k = 1` and nothing else (`cp[1] = 1`), a subset of the rows {1,2} of column 1
of `L`; the merge loop makes one read of `ci`, at the offset `cind = 1`, which
is not below `cp[1]`. -/
theorem C19_merge_read_out_of_bounds :
    patternEndsEarly.k < patternEndsEarly.n - 1 ∧ PatternSorted patternEndsEarly ∧
    patternEndsEarly.cp 1 = 1 ∧ patternEndsEarly.ci 0 = patternEndsEarly.k ∧
    patternEndsEarly.Li2 (patternEndsEarly.Lp2 1) = 1 ∧
    (pivotPhase patternEndsEarly (copyPhase patternEndsEarly)).toOption.map
      (fun ps => trailingColumnReads patternEndsEarly (copyPhase patternEndsEarly) ps)
      = some [1] :=
  ⟨by decide, patternSorted_of_bounded _ (by decide), by decide, by decide, by decide,
    by decide!⟩


/-! ## The accumulator `w` -/

section AccumulatorLemmas

variable {K : Type} [Field K] [DecidableEq K]

/-- The vector left by the loop of lines 170-173: rescaled by the pivot at the
recorded columns, untouched elsewhere. -/
theorem pivotStep_foldl_fst (Lp2 : Nat → Nat) (Lx2 Lx : Nat → K) (krow : List (Nat × Nat))
    (hnd : krow.Pairwise (fun t u => t.1 ≠ u.1)) (dl : Nat → K) (db : K) (j : Nat) :
    ((∃ t, t ∈ krow ∧ t.1 = j) →
      (krow.foldl (pivotStep Lp2 Lx2 Lx) (dl, db)).1 j = dl j * Lx2 (Lp2 j)) ∧
    ((¬ ∃ t, t ∈ krow ∧ t.1 = j) →
      (krow.foldl (pivotStep Lp2 Lx2 Lx) (dl, db)).1 j = dl j) := by
  induction krow generalizing dl db with
  | nil =>
    refine ⟨fun h => ?_, fun _ => rfl⟩
    obtain ⟨t, ht, _⟩ := h
    simp at ht
  | cons u krow ih =>
    rw [List.pairwise_cons] at hnd
    have hstep : pivotStep Lp2 Lx2 Lx (dl, db) u =
        (Function.update dl u.1 (dl u.1 * Lx2 (Lp2 u.1)),
          db - dl u.1 * Lx2 (Lp2 u.1) * (Lx2 u.2 + Lx u.2)) := by
      simp [pivotStep]
    rw [List.foldl_cons, hstep]
    have ih' := ih hnd.2 (Function.update dl u.1 (dl u.1 * Lx2 (Lp2 u.1)))
      (db - dl u.1 * Lx2 (Lp2 u.1) * (Lx2 u.2 + Lx u.2))
    by_cases huj : u.1 = j
    · have hno : ¬ ∃ t, t ∈ krow ∧ t.1 = j := by
        rintro ⟨t, ht, htj⟩
        exact hnd.1 t ht (by rw [huj, htj])
      refine ⟨fun _ => ?_, fun h => ?_⟩
      · rw [ih'.2 hno, ← huj, Function.update_same]
      · exact absurd ⟨u, List.mem_cons_self _ _, huj⟩ h
    · refine ⟨fun h => ?_, fun h => ?_⟩
      · obtain ⟨t, ht, htj⟩ := h
        rcases List.mem_cons.1 ht with h' | h'
        · exact absurd (h' ▸ htj) huj
        · rw [ih'.1 ⟨t, h', htj⟩, Function.update_noteq (Ne.symm huj)]
      · rw [ih'.2 (fun ⟨t, ht, htj⟩ => h ⟨t, List.mem_cons_of_mem _ ht, htj⟩),
          Function.update_noteq (Ne.symm huj)]

/-- The vector `deltal12` after a successful `l_12` / `D22` block with `k > 0`. -/
theorem pivotPhase_ok_deltal12 (a : Args K) (s : CopyState K) (ps : PivotState K)
    (h : pivotPhase a s = Except.ok ps) (hk : 0 < a.k) :
    ∃ db0 : K, ps.deltal12 =
      (s.krow.foldl (pivotStep a.Lp2 a.Lx2
          (setL12 s.krow (solveL11 a.k s.Lp s.Li s.Lx (deltaInit a)) s.Lx))
        (solveL11 a.k s.Lp s.Li s.Lx (deltaInit a), db0)).1 := by
  unfold pivotPhase at h
  rw [if_pos hk] at h
  simp only at h
  cases hf : findDiag a with
  | none => rw [hf] at h; simp at h
  | some cind =>
    rw [hf] at h
    simp only at h
    injection h with h
    subst h
    exact ⟨_, rfl⟩

/-- The inner loop of lines 196-198 adds to `w[r]`, `r > k`, the stored values
of row `r` times `c`. -/
theorem accumW_inner (k : Nat) (Li : Nat → Nat) (Lx2 : Nat → K) (c : K) (l : List Nat)
    (w0 : Nat → K) (r : Nat) (hr : k < r) :
    (l.foldl (fun w p =>
        if k < Li p then Function.update w (Li p) (w (Li p) + Lx2 p * c) else w) w0) r
      = w0 r + (l.map (fun p => if Li p = r then Lx2 p else 0)).sum * c := by
  induction l generalizing w0 with
  | nil => simp
  | cons p l ih =>
    rw [List.foldl_cons, ih, List.map_cons, List.sum_cons]
    by_cases hpr : Li p = r
    · rw [if_pos (by omega), if_pos hpr, ← hpr, Function.update_same]
      ring
    · rw [if_neg hpr]
      by_cases hkp : k < Li p
      · rw [if_pos hkp, Function.update_noteq (Ne.symm hpr)]
        ring
      · rw [if_neg hkp]
        ring

/-- Lines 194-199 on a well formed leading pattern: `w[r] = Σ_j L[r,j] * dl[j]`
for the rows `r > k`. -/
theorem accumW_spec (a : Args K) (Lp Li : Nat → Nat) (hv : ColumnsValid a.k Lp Li)
    (dl : Nat → K) (r : Nat) (hr : a.k < r) :
    accumW a Lp Li dl r = ∑ j in Finset.range a.k, lowerEntry Lp Li a.Lx2 r j * dl j := by
  unfold accumW
  have key := forRange_induction
    (fun m (w : Nat → K) => w r = ∑ j in Finset.range m, lowerEntry Lp Li a.Lx2 r j * dl j)
    0 a.k
    (fun j w => forRange (Lp j) (Lp (j + 1)) (fun p w =>
      if a.k < Li p then Function.update w (Li p) (w (Li p) + a.Lx2 p * dl j) else w) w)
    (fun _ => 0) (Nat.zero_le _) (by simp)
    (fun j w _ hj hw => by
      obtain ⟨hne, hdiag, _⟩ := hv j hj
      show (forRange (Lp j) (Lp (j + 1)) _ w) r = _
      unfold forRange
      rw [accumW_inner a.k Li a.Lx2 (dl j) _ w r hr, Finset.sum_range_succ, hw]
      congr 2
      unfold lowerEntry
      have hcnt : Lp (j + 1) - Lp j = (Lp (j + 1) - (Lp j + 1)) + 1 := by omega
      rw [hcnt, List.range'_succ, List.map_cons, List.sum_cons, if_neg (by omega), zero_add])
  exact key

theorem copyPhase_lowerEntry_input (a : Args K) (i j : Nat) (hj : j < a.n) :
    lowerEntry (copyPhase a).Lp (copyPhase a).Li a.Lx2 i j =
      lowerEntry a.Lp2 a.Li2 a.Lx2 i j := by
  unfold lowerEntry
  rw [copyPhase_Lp a j (by omega), copyPhase_Lp a (j + 1) (by omega)]
  congr 1
  apply List.map_congr_left
  intro p hp
  rw [List.mem_range'_1] at hp
  rw [copyPhase_Li a p ⟨j, hj, by omega, by omega⟩]

end AccumulatorLemmas

/-- For `0 < k ≤ n`, well formed columns before `k` and a successful `l_12` /
`D22` block: the vector `deltal12` used by lines 194-199 is `D_j * Δ[j]` at the
columns `j < k` that store row `k` (the columns `krowcol` of the rescaling loop
of lines 170-173) and `Δ[j]` at the others, and
`w[r] = Σ_{j<k} L_old[r,j] * deltal12[j]` for every row `r > k`. -/
theorem accumW_pivotPhase_spec {K : Type} [Field K] [DecidableEq K] (a : Args K)
    (ps : PivotState K) (hk0 : 0 < a.k) (hkn : a.k ≤ a.n)
    (hv : ColumnsValid a.k a.Lp2 a.Li2)
    (h : pivotPhase a (copyPhase a) = Except.ok ps) :
    (∀ j, j < a.k → (∃ p, a.Lp2 j ≤ p ∧ p < a.Lp2 (j + 1) ∧ a.Li2 p = a.k) →
      ps.deltal12 j = leadingDelta a j * a.Lx2 (a.Lp2 j)) ∧
    (∀ j, j < a.k → (¬ ∃ p, a.Lp2 j ≤ p ∧ p < a.Lp2 (j + 1) ∧ a.Li2 p = a.k) →
      ps.deltal12 j = leadingDelta a j) ∧
    (∀ r, a.k < r →
      accumW a (copyPhase a).Lp (copyPhase a).Li ps.deltal12 r =
        ∑ j in Finset.range a.k, lowerEntry a.Lp2 a.Li2 a.Lx2 r j * ps.deltal12 j) := by
  obtain ⟨db0, hdl⟩ := pivotPhase_ok_deltal12 a _ ps h hk0
  rw [copyPhase_krow] at hdl
  have hfst := fun j => pivotStep_foldl_fst a.Lp2 a.Lx2
    (setL12 (krowSpec a a.n) (solveL11 a.k (copyPhase a).Lp (copyPhase a).Li
      (copyPhase a).Lx (deltaInit a)) (copyPhase a).Lx) (krowSpec a a.n)
    ((krowSpec_pairwise a a.n hv).imp (fun h => ne_of_lt h))
    (solveL11 a.k (copyPhase a).Lp (copyPhase a).Li (copyPhase a).Lx (deltaInit a)) db0 j
  have hmem : ∀ j, j < a.k → ((∃ t, t ∈ krowSpec a a.n ∧ t.1 = j) ↔
      ∃ p, a.Lp2 j ≤ p ∧ p < a.Lp2 (j + 1) ∧ a.Li2 p = a.k) := by
    intro j hj
    constructor
    · rintro ⟨t, ht, rfl⟩
      rw [mem_krowSpec] at ht
      exact ⟨t.2, ht.2.2.1, ht.2.2.2.1, ht.2.2.2.2⟩
    · rintro ⟨p, h1, h2, h3⟩
      exact ⟨(j, p), (mem_krowSpec a a.n (j, p)).2 ⟨by omega, hj, h1, h2, h3⟩, rfl⟩
  have h1 : ∀ j, j < a.k → (∃ p, a.Lp2 j ≤ p ∧ p < a.Lp2 (j + 1) ∧ a.Li2 p = a.k) →
      ps.deltal12 j = leadingDelta a j * a.Lx2 (a.Lp2 j) := by
    intro j hj hst
    rw [hdl, (hfst j).1 ((hmem j hj).2 hst)]
    rfl
  have h2 : ∀ j, j < a.k → (¬ ∃ p, a.Lp2 j ≤ p ∧ p < a.Lp2 (j + 1) ∧ a.Li2 p = a.k) →
      ps.deltal12 j = leadingDelta a j := by
    intro j hj hst
    rw [hdl, (hfst j).2 (fun hex => hst ((hmem j hj).1 hex))]
    rfl
  have h3 : ∀ r, a.k < r →
      accumW a (copyPhase a).Lp (copyPhase a).Li ps.deltal12 r =
        ∑ j in Finset.range a.k, lowerEntry a.Lp2 a.Li2 a.Lx2 r j * ps.deltal12 j := by
    intro r hr
    rw [accumW_spec a _ _ (copyPhase_columnsValid a a.k hkn hv) ps.deltal12 r hr]
    apply Finset.sum_congr rfl
    intro j hj
    rw [Finset.mem_range] at hj
    rw [copyPhase_lowerEntry_input a r j (by omega)]
  exact ⟨h1, h2, h3⟩

/-- Claim C13 (accumulator `w`).  For `0 < k ≤ n`, well formed columns before
`k`, a successful `l_12` / `D22` block and an update that leaves the pattern of
`L` unchanged (the solution `Δ` of phase 2 is `0` at every column `j < k` that
does not store row `k`, where the new row `k` of `L` has no slot): for every row
`r > k` the value `w[r]` used in phase 3 is `Σ_{j<k} L_old[r,j] * D_j * Δ[j]`,
i.e. `w = L31 * D11 * Δ`. -/
theorem C13_accumulator {K : Type} [Field K] [DecidableEq K] (a : Args K)
    (ps : PivotState K) (hk0 : 0 < a.k) (hkn : a.k ≤ a.n)
    (hv : ColumnsValid a.k a.Lp2 a.Li2)
    (h : pivotPhase a (copyPhase a) = Except.ok ps)
    (hpat : ∀ j, j < a.k → (¬ ∃ p, a.Lp2 j ≤ p ∧ p < a.Lp2 (j + 1) ∧ a.Li2 p = a.k) →
      leadingDelta a j = 0) :
    ∀ r, a.k < r →
      accumW a (copyPhase a).Lp (copyPhase a).Li ps.deltal12 r =
        ∑ j in Finset.range a.k,
          lowerEntry a.Lp2 a.Li2 a.Lx2 r j * a.Lx2 (a.Lp2 j) * leadingDelta a j := by
  obtain ⟨h1, h2, h3⟩ := accumW_pivotPhase_spec a ps hk0 hkn hv h
  intro r hr
  rw [h3 r hr]
  apply Finset.sum_congr rfl
  intro j hj
  rw [Finset.mem_range] at hj
  by_cases hst : ∃ p, a.Lp2 j ≤ p ∧ p < a.Lp2 (j + 1) ∧ a.Li2 p = a.k
  · rw [h1 j hj hst]; ring
  · rw [h2 j hj hst, hpat j hj hst]; ring

theorem C13_accumulator_witness :
    0 < leadingChange.k ∧ leadingChange.k < leadingChange.n - 1 ∧
    leadingDelta leadingChange 0 = 1 / 2 ∧
    (∃ ps, pivotPhase leadingChange (copyPhase leadingChange) = Except.ok ps ∧
      accumW leadingChange (copyPhase leadingChange).Lp (copyPhase leadingChange).Li
          ps.deltal12 2 = 1 ∧
      ∀ r, leadingChange.k < r →
        accumW leadingChange (copyPhase leadingChange).Lp (copyPhase leadingChange).Li
            ps.deltal12 r =
          ∑ j in Finset.range leadingChange.k,
            lowerEntry leadingChange.Lp2 leadingChange.Li2 leadingChange.Lx2 r j *
              leadingChange.Lx2 (leadingChange.Lp2 j) * leadingDelta leadingChange j) :=
  ⟨by decide, by decide, by decide!, _, rfl, by decide!,
    C13_accumulator leadingChange _ (by decide) (by decide)
      (columnsValid_of_bounded _ _ _ (by decide)) rfl
      (fun j hj hno => absurd (by
        have hj0 : j = 0 := Nat.lt_one_iff.1 hj
        subst hj0
        exact ⟨1, by decide, by decide, by decide⟩) hno)⟩

/-- Outside the contract of the function (an update that would change the
pattern of `L`): at `unstoredRowK` column 0 does not store row `k = 1` and the
update changes the entry (0,1), so `Δ[0] = 1/2` is not rescaled by the pivot
`D_0 = 2` and `w[2]` is `1 * (1/2) = 1/2`, not `L_old[2,0] * D_0 * Δ[0] = 1`. -/
theorem accumW_off_pattern :
    0 < unstoredRowK.k ∧ unstoredRowK.k < unstoredRowK.n - 1 ∧
    leadingDelta unstoredRowK 0 = 1 / 2 ∧
    (¬ ∃ p, unstoredRowK.Lp2 0 ≤ p ∧ p < unstoredRowK.Lp2 1 ∧
      unstoredRowK.Li2 p = unstoredRowK.k) ∧
    (pivotPhase unstoredRowK (copyPhase unstoredRowK)).toOption.map
      (fun ps => accumW unstoredRowK (copyPhase unstoredRowK).Lp
        (copyPhase unstoredRowK).Li ps.deltal12 2) = some (1 / 2) ∧
    ∑ j in Finset.range unstoredRowK.k,
      lowerEntry unstoredRowK.Lp2 unstoredRowK.Li2 unstoredRowK.Lx2 2 j *
        unstoredRowK.Lx2 (unstoredRowK.Lp2 j) * leadingDelta unstoredRowK j = 1 :=
  ⟨by decide, by decide, by decide!,
    (by decide : ¬ ∃ p, p < unstoredRowK.Lp2 1 ∧ (unstoredRowK.Lp2 0 ≤ p ∧
      unstoredRowK.Li2 p = unstoredRowK.k)) ∘
      (fun ⟨p, h1, h2, h3⟩ => ⟨p, h2, h1, h3⟩),
    by decide!, by decide!⟩


/-! ## The two orderings of the `L_33` loop -/

section FoldLemmas

theorem foldl_comm_of_forall {σ ι : Type} (f : ι → σ → σ) (g : σ → σ) (l : List ι)
    (h : ∀ q, q ∈ l → ∀ s, f q (g s) = g (f q s)) (s : σ) :
    l.foldl (fun s q => f q s) (g s) = g (l.foldl (fun s q => f q s) s) := by
  induction l generalizing s with
  | nil => rfl
  | cons q l ih =>
    rw [List.foldl_cons, List.foldl_cons, h q (List.mem_cons_self _ _),
      ih (fun q' hq' => h q' (List.mem_cons_of_mem _ hq'))]

/-- A loop whose body is `f` followed by `g` equals the loop of `f` followed by
the loop of `g`, when each `g p` commutes with the later `f q`. -/
theorem foldl_interleave {σ ι : Type} (f g : ι → σ → σ) (l : List ι)
    (h : l.Pairwise (fun p q => ∀ s, f q (g p s) = g p (f q s))) (s : σ) :
    l.foldl (fun s p => g p (f p s)) s =
      l.foldl (fun s p => g p s) (l.foldl (fun s p => f p s) s) := by
  induction l generalizing s with
  | nil => rfl
  | cons p l ih =>
    rw [List.pairwise_cons] at h
    rw [List.foldl_cons, List.foldl_cons, List.foldl_cons, ih h.2,
      foldl_comm_of_forall f (g p) l (fun q hq => h.1 q hq)]

theorem foldl_congr_mem {σ ι : Type} (f g : ι → σ → σ) (l : List ι)
    (h : ∀ p, p ∈ l → ∀ s, f p s = g p s) (s : σ) :
    l.foldl (fun s p => f p s) s = l.foldl (fun s p => g p s) s := by
  induction l generalizing s with
  | nil => rfl
  | cons p l ih =>
    rw [List.foldl_cons, List.foldl_cons, h p (List.mem_cons_self _ _),
      ih (fun q hq => h q (List.mem_cons_of_mem _ hq))]

end FoldLemmas

section TwoPassLemmas

variable {K : Type} [Field K] [DecidableEq K]

theorem RotState.ext_fields (s t : RotState K) (h1 : s.Lx = t.Lx) (h2 : s.wu = t.wu)
    (h3 : s.wd = t.wd) (h4 : s.alpha = t.alpha) (h5 : s.alpha2 = t.alpha2) : s = t := by
  cases s
  cases t
  simp only at h1 h2 h3 h4 h5
  subst h1 h2 h3 h4 h5
  rfl

/-- The body of the inner loop is its update half followed by its downdate half. -/
theorem rotateEntry_eq (Li : Nat → Nat) (i : Nat) (gamma gamma2 : K) (p : Nat)
    (s : RotState K) :
    rotateEntry Li i gamma gamma2 p s =
      downdateEntry Li i gamma2 p (updateEntry Li i gamma p s) := rfl

/-- The update half at `q` and the downdate half at `p ≠ q` commute. -/
theorem updateEntry_downdateEntry_comm (Li : Nat → Nat) (i j : Nat) (gamma gamma2 : K)
    (p q : Nat) (hpq : p ≠ q) (s : RotState K) :
    updateEntry Li j gamma q (downdateEntry Li i gamma2 p s) =
      downdateEntry Li i gamma2 p (updateEntry Li j gamma q s) := by
  apply RotState.ext_fields
  · simp only [updateEntry, downdateEntry]
    rw [Function.update_noteq (Ne.symm hpq), Function.update_noteq hpq,
      Function.update_comm hpq]
  · simp only [updateEntry, downdateEntry]
    rw [Function.update_noteq (Ne.symm hpq)]
  · simp only [updateEntry, downdateEntry]
    rw [Function.update_noteq hpq]
  · rfl
  · rfl

end TwoPassLemmas

section TwoPassRows

variable {K : Type} [Field K] [DecidableEq K]

/-- The inner loop is its update loop followed by its downdate loop. -/
theorem rotateEntry_loop_eq (Li : Nat → Nat) (i : Nat) (gamma gamma2 : K) (lo hi : Nat)
    (s : RotState K) :
    forRange lo hi (rotateEntry Li i gamma gamma2) s =
      forRange lo hi (downdateEntry Li i gamma2) (forRange lo hi (updateEntry Li i gamma) s) := by
  unfold forRange
  have h := foldl_interleave (updateEntry Li i gamma) (downdateEntry Li i gamma2)
    (List.range' lo (hi - lo))
    ((List.pairwise_lt_range' lo (hi - lo)).imp (fun {p q} hpq s =>
      updateEntry_downdateEntry_comm Li i i gamma gamma2 p q (ne_of_lt hpq) s)) s
  exact h

/-- What the update loop of a row leaves unchanged. -/
theorem updateEntry_loop_frame (Li : Nat → Nat) (i : Nat) (gamma : K) (lo hi : Nat)
    (s : RotState K) :
    (forRange lo hi (updateEntry Li i gamma) s).wd = s.wd ∧
    (forRange lo hi (updateEntry Li i gamma) s).alpha = s.alpha ∧
    (forRange lo hi (updateEntry Li i gamma) s).alpha2 = s.alpha2 ∧
    (∀ x, ¬ (lo ≤ x ∧ x < hi) →
      (forRange lo hi (updateEntry Li i gamma) s).Lx x = s.Lx x) ∧
    (∀ r, (∀ q, lo ≤ q → q < hi → Li q ≠ r) →
      (forRange lo hi (updateEntry Li i gamma) s).wu r = s.wu r) := by
  rcases Nat.lt_or_ge hi lo with hlt | hle
  · rw [forRange_nil _ _ _ _ (by omega)]
    exact ⟨rfl, rfl, rfl, fun _ _ => rfl, fun _ _ => rfl⟩
  · exact forRange_induction
      (fun m (t : RotState K) => t.wd = s.wd ∧ t.alpha = s.alpha ∧ t.alpha2 = s.alpha2 ∧
        (∀ x, ¬ (lo ≤ x ∧ x < m) → t.Lx x = s.Lx x) ∧
        (∀ r, (∀ q, lo ≤ q → q < hi → Li q ≠ r) → t.wu r = s.wu r)) lo hi _ s hle
      ⟨rfl, rfl, rfl, fun _ _ => rfl, fun _ _ => rfl⟩
      (fun q t h1 h2 ht => by
        refine ⟨ht.1, ht.2.1, ht.2.2.1, fun x hx => ?_, fun r hr => ?_⟩
        · simp only [updateEntry]
          rw [Function.update_noteq (by omega)]
          exact ht.2.2.2.1 x (by omega)
        · simp only [updateEntry]
          rw [Function.update_noteq (Ne.symm (hr q h1 h2))]
          exact ht.2.2.2.2 r hr)

/-- What the downdate loop of a row leaves unchanged. -/
theorem downdateEntry_loop_frame (Li : Nat → Nat) (i : Nat) (gamma2 : K) (lo hi : Nat)
    (s : RotState K) :
    (forRange lo hi (downdateEntry Li i gamma2) s).wu = s.wu ∧
    (forRange lo hi (downdateEntry Li i gamma2) s).alpha = s.alpha ∧
    (forRange lo hi (downdateEntry Li i gamma2) s).alpha2 = s.alpha2 ∧
    (∀ x, ¬ (lo ≤ x ∧ x < hi) →
      (forRange lo hi (downdateEntry Li i gamma2) s).Lx x = s.Lx x) := by
  rcases Nat.lt_or_ge hi lo with hlt | hle
  · rw [forRange_nil _ _ _ _ (by omega)]
    exact ⟨rfl, rfl, rfl, fun _ _ => rfl⟩
  · exact forRange_induction
      (fun m (t : RotState K) => t.wu = s.wu ∧ t.alpha = s.alpha ∧ t.alpha2 = s.alpha2 ∧
        (∀ x, ¬ (lo ≤ x ∧ x < m) → t.Lx x = s.Lx x)) lo hi _ s hle
      ⟨rfl, rfl, rfl, fun _ _ => rfl⟩
      (fun q t h1 h2 ht => by
        refine ⟨ht.1, ht.2.1, ht.2.2.1, fun x hx => ?_⟩
        simp only [downdateEntry]
        rw [Function.update_noteq (by omega)]
        exact ht.2.2.2 x (by omega))

/-- The update half at `q` commutes with the assignment of the pivot at a
different offset `x` and of `alpha2`. -/
theorem updateEntry_setPivot_comm (Li : Nat → Nat) (j : Nat) (gamma : K) (q x : Nat)
    (v b : K) (hqx : q ≠ x) (s : RotState K) :
    updateEntry Li j gamma q { s with Lx := Function.update s.Lx x v, alpha2 := b } =
      { updateEntry Li j gamma q s with
        Lx := Function.update (updateEntry Li j gamma q s).Lx x v, alpha2 := b } := by
  apply RotState.ext_fields
  · simp only [updateEntry]
    rw [Function.update_noteq hqx, Function.update_comm hqx]
  · simp only [updateEntry]
    rw [Function.update_noteq hqx]
  · rfl
  · rfl
  · rfl

/-- The downdate half at `p` commutes with the assignment of the pivot at a
different offset `x` and of `alpha`. -/
theorem downdateEntry_setPivot_comm (Li : Nat → Nat) (i : Nat) (gamma2 : K) (p x : Nat)
    (v b : K) (hpx : p ≠ x) (s : RotState K) :
    downdateEntry Li i gamma2 p { s with Lx := Function.update s.Lx x v, alpha := b } =
      { downdateEntry Li i gamma2 p s with
        Lx := Function.update (downdateEntry Li i gamma2 p s).Lx x v, alpha := b } := by
  apply RotState.ext_fields
  · simp only [downdateEntry]
    rw [Function.update_noteq hpx, Function.update_comm hpx]
  · rfl
  · simp only [downdateEntry]
    rw [Function.update_noteq hpx]
  · rfl
  · rfl

/-- The update loop of a row commutes with the assignment of a pivot that lies
before the loop's offsets and of `alpha2`. -/
theorem updateEntry_loop_setPivot (Li : Nat → Nat) (i : Nat) (gamma : K) (lo hi x : Nat)
    (v b : K) (hx : x < lo) (s : RotState K) :
    forRange lo hi (updateEntry Li i gamma)
        { s with Lx := Function.update s.Lx x v, alpha2 := b } =
      { forRange lo hi (updateEntry Li i gamma) s with
        Lx := Function.update (forRange lo hi (updateEntry Li i gamma) s).Lx x v,
        alpha2 := b } := by
  unfold forRange
  exact foldl_comm_of_forall (updateEntry Li i gamma)
    (fun t : RotState K => { t with Lx := Function.update t.Lx x v, alpha2 := b })
    (List.range' lo (hi - lo)) (fun q hq t => by
      rw [List.mem_range'_1] at hq
      exact updateEntry_setPivot_comm Li i gamma q x v b (by omega) t) s

/-- A row of the `L_33` loop is its update step followed by its downdate step,
when the rows stored below the diagonal of column `i` differ from `i`. -/
theorem rotateRow_eq (Lp Li : Nat → Nat) (i : Nat)
    (hrow : ∀ q, Lp i + 1 ≤ q → q < Lp (i + 1) → Li q ≠ i) (s : RotState K) :
    rotateRow Lp Li i s = downdateRow Lp Li i (updateRow Lp Li i s) := by
  by_cases hw : s.wu i ≠ 0
  · have hu := updateEntry_loop_frame Li i
      (s.wu i / ((s.alpha + s.wu i * s.wu i / s.Lx (Lp i)) * s.Lx (Lp i)))
      (Lp i + 1) (Lp (i + 1))
      { s with Lx := Function.update s.Lx (Lp i)
                ((s.alpha + s.wu i * s.wu i / s.Lx (Lp i)) / s.alpha * s.Lx (Lp i)),
               alpha := s.alpha + s.wu i * s.wu i / s.Lx (Lp i) }
    obtain ⟨hu1, hu2, hu3, hu4, hu5⟩ := hu
    have hudef : updateRow Lp Li i s = forRange (Lp i + 1) (Lp (i + 1))
        (updateEntry Li i
          (s.wu i / ((s.alpha + s.wu i * s.wu i / s.Lx (Lp i)) * s.Lx (Lp i))))
        { s with Lx := Function.update s.Lx (Lp i)
                  ((s.alpha + s.wu i * s.wu i / s.Lx (Lp i)) / s.alpha * s.Lx (Lp i)),
                 alpha := s.alpha + s.wu i * s.wu i / s.Lx (Lp i) } := by
      unfold updateRow
      rw [if_pos hw]
    have hgate : (updateRow Lp Li i s).wu i ≠ 0 := by
      rw [hudef, hu5 i hrow]
      exact hw
    have hdiag : (updateRow Lp Li i s).Lx (Lp i) =
        (s.alpha + s.wu i * s.wu i / s.Lx (Lp i)) / s.alpha * s.Lx (Lp i) := by
      rw [hudef, hu4 (Lp i) (by omega)]
      simp only [Function.update_same]
    have hwd : (updateRow Lp Li i s).wd = s.wd := by rw [hudef, hu1]
    have ha2 : (updateRow Lp Li i s).alpha2 = s.alpha2 := by rw [hudef, hu3]
    unfold rotateRow downdateRow
    rw [if_pos hw, if_pos hgate]
    simp only [Function.update_same, hdiag, hwd, ha2]
    rw [rotateEntry_loop_eq]
    congr 1
    rw [hudef]
    refine (updateEntry_loop_setPivot Li i _ _ _ (Lp i) _ _ (by omega)
      { s with Lx := Function.update s.Lx (Lp i)
                ((s.alpha + s.wu i * s.wu i / s.Lx (Lp i)) / s.alpha * s.Lx (Lp i)),
               alpha := s.alpha + s.wu i * s.wu i / s.Lx (Lp i) }).trans ?_
    apply RotState.ext_fields
    · rfl
    · rfl
    · exact hu1.symm ▸ rfl
    · rfl
    · rfl
  · have hu : updateRow Lp Li i s = s := by
      unfold updateRow
      rw [if_neg hw]
    unfold rotateRow
    rw [if_neg hw, hu]
    unfold downdateRow
    rw [if_neg hw]

end TwoPassRows

section TwoPassCommute

variable {K : Type} [Field K] [DecidableEq K]

/-- The downdate step of row `i` commutes with every state transformation that
keeps what the step reads before its loop and commutes with its writes. -/
theorem downdateRow_comm_of (Lp Li : Nat → Nat) (i : Nat) (g : RotState K → RotState K)
    (h1 : ∀ t, (g t).wu i = t.wu i) (h2 : ∀ t, (g t).wd i = t.wd i)
    (h3 : ∀ t, (g t).alpha2 = t.alpha2) (h4 : ∀ t, (g t).Lx (Lp i) = t.Lx (Lp i))
    (h5 : ∀ gamma2 p, Lp i + 1 ≤ p → p < Lp (i + 1) → ∀ t,
      downdateEntry Li i gamma2 p (g t) = g (downdateEntry Li i gamma2 p t))
    (h6 : ∀ v b t, ({ g t with Lx := Function.update (g t).Lx (Lp i) v, alpha2 := b } :
        RotState K) = g { t with Lx := Function.update t.Lx (Lp i) v, alpha2 := b })
    (s : RotState K) :
    downdateRow Lp Li i (g s) = g (downdateRow Lp Li i s) := by
  unfold downdateRow
  rw [h1 s]
  by_cases hw : s.wu i ≠ 0
  · rw [if_pos hw, if_pos hw]
    simp only [h2 s, h3 s, h4 s]
    rw [h6]
    unfold forRange
    exact foldl_comm_of_forall (downdateEntry Li i _) g _ (fun p hp t => by
      rw [List.mem_range'_1] at hp
      exact h5 _ p hp.1 (by omega) t) _
  · rw [if_neg hw, if_neg hw]

/-- The update step of row `j` commutes with every state transformation that
keeps what the step reads before its loop and commutes with its writes. -/
theorem updateRow_comm_of (Lp Li : Nat → Nat) (j : Nat) (g : RotState K → RotState K)
    (h1 : ∀ t, (g t).wu j = t.wu j) (h3 : ∀ t, (g t).alpha = t.alpha)
    (h4 : ∀ t, (g t).Lx (Lp j) = t.Lx (Lp j))
    (h5 : ∀ gamma q, Lp j + 1 ≤ q → q < Lp (j + 1) → ∀ t,
      updateEntry Li j gamma q (g t) = g (updateEntry Li j gamma q t))
    (h6 : ∀ v b t, ({ g t with Lx := Function.update (g t).Lx (Lp j) v, alpha := b } :
        RotState K) = g { t with Lx := Function.update t.Lx (Lp j) v, alpha := b })
    (s : RotState K) :
    updateRow Lp Li j (g s) = g (updateRow Lp Li j s) := by
  unfold updateRow
  rw [h1 s]
  by_cases hw : s.wu j ≠ 0
  · rw [if_pos hw, if_pos hw]
    simp only [h3 s, h4 s]
    rw [h6]
    unfold forRange
    exact foldl_comm_of_forall (updateEntry Li j _) g _ (fun q hq t => by
      rw [List.mem_range'_1] at hq
      exact h5 _ q hq.1 (by omega) t) _
  · rw [if_neg hw, if_neg hw]

/-- What the downdate step of row `i` leaves unchanged. -/
theorem downdateRow_frame (Lp Li : Nat → Nat) (i : Nat) (s : RotState K) :
    (downdateRow Lp Li i s).wu = s.wu ∧ (downdateRow Lp Li i s).alpha = s.alpha ∧
    (∀ x, x ≠ Lp i → ¬ (Lp i + 1 ≤ x ∧ x < Lp (i + 1)) →
      (downdateRow Lp Li i s).Lx x = s.Lx x) := by
  unfold downdateRow
  by_cases hw : s.wu i ≠ 0
  · rw [if_pos hw]
    simp only
    obtain ⟨f1, f2, _, f4⟩ := downdateEntry_loop_frame Li i
      (s.wd i / ((s.alpha2 - s.wd i * s.wd i / s.Lx (Lp i)) * s.Lx (Lp i)))
      (Lp i + 1) (Lp (i + 1))
      { s with Lx := Function.update s.Lx (Lp i)
                ((s.alpha2 - s.wd i * s.wd i / s.Lx (Lp i)) / s.alpha2 * s.Lx (Lp i)),
               alpha2 := s.alpha2 - s.wd i * s.wd i / s.Lx (Lp i) }
    refine ⟨f1, f2, fun x hx1 hx2 => ?_⟩
    rw [f4 x hx2]
    exact Function.update_noteq hx1 _ _
  · rw [if_neg hw]
    exact ⟨rfl, rfl, fun _ _ _ => rfl⟩

/-- The downdate step of row `i` commutes with the update half at an offset
outside column `i` whose row index is not `i`. -/
theorem downdateRow_updateEntry_comm (Lp Li : Nat → Nat) (i j : Nat) (gamma : K) (q : Nat)
    (hq1 : q ≠ Lp i) (hq2 : ¬ (Lp i + 1 ≤ q ∧ q < Lp (i + 1))) (hq3 : Li q ≠ i)
    (s : RotState K) :
    downdateRow Lp Li i (updateEntry Li j gamma q s) =
      updateEntry Li j gamma q (downdateRow Lp Li i s) := by
  refine downdateRow_comm_of Lp Li i (updateEntry Li j gamma q) (fun t => ?_) (fun t => rfl)
    (fun t => rfl) (fun t => ?_) (fun gamma2 p hp1 hp2 t => ?_) (fun v b t => ?_) s
  · simp only [updateEntry]
    exact Function.update_noteq (Ne.symm hq3) _ _
  · simp only [updateEntry]
    exact Function.update_noteq (Ne.symm hq1) _ _
  · exact (updateEntry_downdateEntry_comm Li i j gamma gamma2 p q (by omega) t).symm
  · exact (updateEntry_setPivot_comm Li j gamma q (Lp i) v b hq1 t).symm

/-- The downdate step of row `i` commutes with the assignment of a pivot outside
column `i` and of `alpha`. -/
theorem downdateRow_setPivot_comm (Lp Li : Nat → Nat) (i x : Nat) (v b : K)
    (hx1 : x ≠ Lp i) (hx2 : ¬ (Lp i + 1 ≤ x ∧ x < Lp (i + 1))) (s : RotState K) :
    downdateRow Lp Li i { s with Lx := Function.update s.Lx x v, alpha := b } =
      { downdateRow Lp Li i s with
        Lx := Function.update (downdateRow Lp Li i s).Lx x v, alpha := b } := by
  refine downdateRow_comm_of Lp Li i
    (fun t : RotState K => { t with Lx := Function.update t.Lx x v, alpha := b })
    (fun t => rfl) (fun t => rfl) (fun t => rfl) (fun t => ?_)
    (fun gamma2 p hp1 hp2 t => ?_) (fun v2 b2 t => ?_) s
  · exact Function.update_noteq (Ne.symm hx1) _ _
  · exact downdateEntry_setPivot_comm Li i gamma2 p x v b (by omega) t
  · apply RotState.ext_fields
    · exact Function.update_comm hx1 v v2 t.Lx
    · rfl
    · rfl
    · rfl
    · rfl

/-- The update step of a row commutes with the downdate step of another row
whose column is disjoint from the first row's and stores no entry of that row. -/
theorem updateRow_downdateRow_comm (Lp Li : Nat → Nat) (i j : Nat)
    (h1 : Lp j ≠ Lp i) (h2 : ¬ (Lp i + 1 ≤ Lp j ∧ Lp j < Lp (i + 1)))
    (h3 : ∀ q, Lp j + 1 ≤ q → q < Lp (j + 1) →
      q ≠ Lp i ∧ ¬ (Lp i + 1 ≤ q ∧ q < Lp (i + 1)) ∧ Li q ≠ i)
    (s : RotState K) :
    updateRow Lp Li j (downdateRow Lp Li i s) =
      downdateRow Lp Li i (updateRow Lp Li j s) := by
  refine updateRow_comm_of Lp Li j (downdateRow Lp Li i) (fun t => ?_) (fun t => ?_)
    (fun t => ?_) (fun gamma q hq1 hq2 t => ?_) (fun v b t => ?_) s
  · rw [(downdateRow_frame Lp Li i t).1]
  · exact (downdateRow_frame Lp Li i t).2.1
  · exact (downdateRow_frame Lp Li i t).2.2 (Lp j) h1 h2
  · obtain ⟨a1, a2, a3⟩ := h3 q hq1 hq2
    exact (downdateRow_updateEntry_comm Lp Li i j gamma q a1 a2 a3 t).symm
  · exact (downdateRow_setPivot_comm Lp Li i (Lp j) v b h1 h2 t).symm

/-- On well-formed columns the `L_33` loop equals the loop of the update steps
followed by the loop of the downdate steps. -/
theorem rotate_rows_eq (Lp Li : Nat → Nat) (n lo hi : Nat) (hv : ColumnsValid n Lp Li)
    (hhi : hi ≤ n) (s : RotState K) :
    forRange lo hi (rotateRow Lp Li) s =
      forRange lo hi (downdateRow Lp Li) (forRange lo hi (updateRow Lp Li) s) := by
  have hbelow : ∀ i, i < n → ∀ q, Lp i + 1 ≤ q → q < Lp (i + 1) → i < Li q := by
    intro i hi q hq1 hq2
    obtain ⟨_, hd, hs⟩ := hv i hi
    have := hs (Lp i) q (le_refl _) (by omega) hq2
    omega
  unfold forRange
  rw [foldl_congr_mem (fun i t => rotateRow Lp Li i t)
    (fun i t => downdateRow Lp Li i (updateRow Lp Li i t)) _ (fun i hi t => by
      rw [List.mem_range'_1] at hi
      exact rotateRow_eq Lp Li i (fun q hq1 hq2 =>
        Nat.ne_of_gt (hbelow i (by omega) q hq1 hq2)) t)]
  refine foldl_interleave (updateRow Lp Li) (downdateRow Lp Li) _ ?_ s
  refine ((List.pairwise_lt_range' lo (hi - lo)).imp_of_mem ?_)
  intro i j hi hj hij t
  rw [List.mem_range'_1] at hi hj
  have hjn : j < n := by omega
  have hm := columnsValid_Lp_mono n Lp Li hv (i + 1) j (by omega) (by omega)
  have hi1 := (hv i (by omega)).1
  refine updateRow_downdateRow_comm Lp Li i j (by omega) (by omega)
    (fun q hq1 hq2 => ⟨by omega, by omega, ?_⟩) t
  have := hbelow j hjn q hq1 hq2
  omega

end TwoPassCommute

section TwoPassKernel

variable {K : Type} [Field K] [DecidableEq K]

/-- On well-formed columns the two-pass variant of the `L_33` part computes the
same state as the interleaved loop of the code. -/
theorem rotatePhaseTwoPass_eq (sqrt : K → K) (a : Args K) (s : CopyState K) (d db : K)
    (Lx : Nat → K) (hv : ColumnsValid a.n s.Lp s.Li) :
    rotatePhaseTwoPass sqrt a s d db Lx = rotatePhase sqrt a s d db Lx := by
  unfold rotatePhaseTwoPass rotatePhase
  exact (rotate_rows_eq s.Lp s.Li a.n (a.k + 1) a.n hv (le_refl _) _).symm

/-- On well-formed columns the kernel with the two-pass variant returns what the
kernel returns. -/
theorem ldlrowmodifyTwoPass_eq (sqrt : K → K) (a : Args K)
    (hv : ColumnsValid a.n a.Lp2 a.Li2) :
    ldlrowmodifyTwoPass sqrt a = ldlrowmodify sqrt a := by
  have h := fun (d db : K) (Lx : Nat → K) => rotatePhaseTwoPass_eq sqrt a (copyPhase a) d db Lx
    (copyPhase_columnsValid a a.n (le_refl _) hv)
  unfold ldlrowmodifyTwoPass ldlrowmodify
  simp only [h]

end TwoPassKernel

/-- Claim C14, amended: the interleaved ordering of the rotation loop and the
two-pass variant (all update steps for the rows `k+1 .. n-1`, then all downdate
steps for the same rows, each gated on `wu[i] != 0`) are equivalent.  For every
input whose columns are well formed, every field of values and every `sqrt`, the
two kernels return the same result (the same error or the same output).  The
proof rearranges the assignments only and uses no law of arithmetic. -/
theorem C14_two_pass_equivalent {K : Type} [Field K] [DecidableEq K] (sqrt : K → K)
    (a : Args K) (hv : ColumnsValid a.n a.Lp2 a.Li2) :
    ldlrowmodifyTwoPass sqrt a = ldlrowmodify sqrt a := by
  have h := fun (d db : K) (Lx : Nat → K) => rotatePhaseTwoPass_eq sqrt a (copyPhase a) d db Lx
    (copyPhase_columnsValid a a.n (le_refl _) hv)
  unfold ldlrowmodifyTwoPass ldlrowmodify
  simp only [h]

theorem C14_two_pass_equivalent_witness :
    ColumnsValid cancellationExample.n cancellationExample.Lp2 cancellationExample.Li2 ∧
    ldlrowmodifyTwoPass Rat.sqrt cancellationExample =
      ldlrowmodify Rat.sqrt cancellationExample :=
  ⟨columnsValid_of_bounded _ _ _ (by decide),
   C14_two_pass_equivalent Rat.sqrt cancellationExample
     (columnsValid_of_bounded _ _ _ (by decide))⟩

/-- Claim C14 as stated is false: no input with well-formed columns makes the
two orderings of the rotation produce different results. -/
theorem C14_no_input_separates_orderings :
    ¬ ∃ (sqrt : ℚ → ℚ) (a : Args ℚ), ColumnsValid a.n a.Lp2 a.Li2 ∧
      ldlrowmodifyTwoPass sqrt a ≠ ldlrowmodify sqrt a :=
  fun ⟨sqrt, a, hv, hne⟩ => hne (ldlrowmodifyTwoPass_eq sqrt a hv)

/-! ## The identity update (`before = after`) -/

section IdentityPhases

variable {K : Type} [Field K] [DecidableEq K]

theorem foldl_fixed {σ ι : Type} (f : σ → ι → σ) (l : List ι) (s : σ)
    (h : ∀ x, f s x = s) : l.foldl f s = s := by
  induction l with
  | nil => rfl
  | cons x xs ih => rw [List.foldl_cons, h x, ih]

theorem forRange_fixed {σ : Type} (lo hi : Nat) (body : Nat → σ → σ) (s : σ)
    (h : ∀ p, body p s = s) : forRange lo hi body s = s :=
  foldl_fixed (fun s p => body p s) _ s h

theorem forBreak_fixed {σ : Type} (brk : Nat → Bool) (body : Nat → σ → σ) (l : List Nat)
    (s : σ) (h : ∀ p, body p s = s) : forBreak brk body l s = s := by
  induction l with
  | nil => rfl
  | cons x xs ih =>
    unfold forBreak
    split
    · rfl
    · rw [h x, ih]

theorem foldl_fst_fixed {α β ι : Type} (f : α × β → ι → α × β) (l : List ι)
    (h : ∀ s x, (f s x).1 = s.1) (s : α × β) : (l.foldl f s).1 = s.1 := by
  induction l generalizing s with
  | nil => rfl
  | cons x xs ih => rw [List.foldl_cons, ih, h]

/-- With `cx2 = cx` the vector `deltal12` is initialised to zero. -/
theorem deltaInit_zero (a : Args K) (hc : a.cx2 = a.cx) : deltaInit a = fun _ => 0 := by
  unfold deltaInit
  apply forBreak_fixed
  intro p
  rw [hc, sub_self]
  exact Function.update_eq_self (a.ci p) (fun _ => (0 : K))

/-- The forward substitution maps the zero vector to itself. -/
theorem solveL11_zero (k : Nat) (Lp Li : Nat → Nat) (Lx : Nat → K) :
    solveL11 k Lp Li Lx (fun _ => 0) = fun _ => 0 := by
  unfold solveL11
  apply forRange_fixed
  intro j
  unfold solveColumn
  have h1 : forBreak (fun p => decide (k ≤ Li p))
      (fun p dl => Function.update dl (Li p) (dl (Li p) - Lx p * dl j))
      (List.range' (Lp j + 1) (Lp (j + 1) - (Lp j + 1))) (fun _ => (0 : K)) = fun _ => 0 := by
    apply forBreak_fixed
    intro p
    show Function.update (fun _ => (0 : K)) (Li p) ((0 : K) - Lx p * 0) = _
    rw [mul_zero, sub_zero]
    exact Function.update_eq_self (Li p) (fun _ => (0 : K))
  simp only [h1, zero_div]
  exact Function.update_eq_self j (fun _ => (0 : K))

/-- Adding the zero vector to the stored entries of row `k` changes nothing. -/
theorem setL12_zero (krow : List (Nat × Nat)) (Lx : Nat → K) :
    setL12 krow (fun _ => 0) Lx = Lx := by
  unfold setL12
  apply foldl_fixed
  intro t
  simp only [add_zero]
  exact Function.update_eq_self t.2 Lx

/-- The pivot loop keeps the zero vector and the pivot. -/
theorem pivotStep_foldl_zero (Lp2 : Nat → Nat) (Lx2 Lx : Nat → K) (krow : List (Nat × Nat))
    (d : K) :
    krow.foldl (pivotStep Lp2 Lx2 Lx) (fun _ => 0, d) = (fun _ => 0, d) := by
  apply foldl_fixed
  intro t
  unfold pivotStep
  simp only [zero_mul, Function.update_same, sub_zero]
  rw [Function.update_eq_self t.1 (fun _ => (0 : K))]

/-- The diagonal lookup succeeds when the update column stores row `k`. -/
theorem findDiag_isSome (a : Args K) (c : Nat) (hc : c < a.cp 1) (hck : a.ci c = a.k) :
    ∃ c0, findDiag a = some c0 := by
  unfold findDiag
  rw [← Option.isSome_iff_exists, List.find?_isSome]
  exact ⟨c, List.mem_range.2 hc, by simp [hck]⟩

/-- With `cx2 = cx` the `l_12` / `D22` block succeeds and leaves the values and
the pivot as they are. -/
theorem pivotPhase_identity (a : Args K) (s : CopyState K) (hc : a.cx2 = a.cx)
    (hmem : 0 < a.k → ∃ c, c < a.cp 1 ∧ a.ci c = a.k) :
    ∃ c, pivotPhase a s = Except.ok
      { Lx := s.Lx, deltal12 := (fun _ => 0), d := s.Lx (s.Lp a.k),
        db := s.Lx (s.Lp a.k), cind := c } := by
  unfold pivotPhase
  by_cases hk : 0 < a.k
  · obtain ⟨c, hc1, hc2⟩ := hmem hk
    obtain ⟨c0, hc0⟩ := findDiag_isSome a c hc1 hc2
    refine ⟨c0, ?_⟩
    rw [if_pos hk]
    simp only [hc0, deltaInit_zero a hc, solveL11_zero, setL12_zero, hc, add_sub_cancel_right,
      pivotStep_foldl_zero]
    rw [Function.update_eq_self]
  · refine ⟨0, ?_⟩
    rw [if_neg hk]
    simp only [hc, add_sub_cancel_right]
    rw [Function.update_eq_self]

/-- The accumulator of the zero vector is zero. -/
theorem accumW_zero (a : Args K) (Lp Li : Nat → Nat) :
    accumW a Lp Li (fun _ => 0) = fun _ => 0 := by
  unfold accumW
  apply forRange_fixed
  intro j
  apply forRange_fixed
  intro p
  split
  · simp only [mul_zero, add_zero]
    exact Function.update_eq_self (Li p) (fun _ => (0 : K))
  · rfl

/-- With `cx2 = cx`, a zero accumulator and `db = d ≠ 0` the merge loop leaves
the values as they are. -/
theorem trailingColumn_identity (a : Args K) (s : CopyState K) (ps : PivotState K)
    (hc : a.cx2 = a.cx) (hdl : ps.deltal12 = fun _ => 0) (hdb : ps.db = ps.d)
    (hd : ps.d ≠ 0) : (trailingColumn a s ps).1 = ps.Lx := by
  unfold trailingColumn
  split
  · unfold forRange
    rw [foldl_fst_fixed (fun st p => mergeStep a s.Li _ ps.d ps.db p st) _ (fun st p => ?_)]
    unfold mergeStep
    rw [hdl, accumW_zero, hc, hdb]
    beta_reduce
    split
    · simp only [sub_self, zero_add, sub_zero, mul_div_cancel_right₀ _ hd]
      exact Function.update_eq_self p st.1
    · simp only [sub_zero, mul_div_cancel_right₀ _ hd]
      exact Function.update_eq_self p st.1
  · unfold forRange
    rw [foldl_fst_fixed (fun st p => mergeStep0 a s.Li ps.d ps.db p st) _ (fun st p => ?_)]
    unfold mergeStep0
    rw [hc, hdb]
    beta_reduce
    split
    · simp only [sub_self, zero_add, mul_div_cancel_right₀ _ hd]
      exact Function.update_eq_self p st.1
    · simp only [mul_div_cancel_right₀ _ hd]
      exact Function.update_eq_self p st.1

/-- With `db = d` and values equal to the input's in column `k`, the two
direction vectors are equal, and they vanish at the rows that column `k` does
not store below its diagonal. -/
theorem initDirections_identity (sqrt : K → K) (a : Args K) (s : CopyState K) (d : K)
    (Lx : Nat → K)
    (hLx : ∀ p, s.Lp a.k + 1 ≤ p → p < s.Lp (a.k + 1) → Lx p = a.Lx2 p) :
    (initDirections sqrt a s d d Lx).1 = (initDirections sqrt a s d d Lx).2 ∧
    ∀ r, (initDirections sqrt a s d d Lx).1 r ≠ 0 →
      ∃ p, s.Lp a.k + 1 ≤ p ∧ p < s.Lp (a.k + 1) ∧ s.Li p = r := by
  unfold initDirections
  rcases Nat.lt_or_ge (s.Lp (a.k + 1)) (s.Lp a.k + 1) with hlt | hle
  · rw [forRange_nil _ _ _ _ (by omega)]
    exact ⟨rfl, fun r hr => absurd rfl hr⟩
  · exact forRange_induction
      (fun m (st : (Nat → K) × (Nat → K)) => st.1 = st.2 ∧
        ∀ r, st.1 r ≠ 0 → ∃ p, s.Lp a.k + 1 ≤ p ∧ p < s.Lp (a.k + 1) ∧ s.Li p = r)
      _ _ _ _ hle ⟨rfl, fun r hr => absurd rfl hr⟩
      (fun p st h1 h2 hst => by
        refine ⟨?_, fun r hr => ?_⟩
        · show Function.update st.1 (s.Li p) _ = Function.update st.2 (s.Li p) _
          rw [hst.1, hLx p h1 h2]
        · by_cases hrp : r = s.Li p
          · exact ⟨p, h1, h2, hrp.symm⟩
          · apply hst.2 r
            intro h0
            apply hr
            show Function.update st.1 (s.Li p) _ r = 0
            rw [Function.update_noteq hrp]
            exact h0)

end IdentityPhases

section RotationAlgebra

variable {K : Type} [Field K]

/-- The downdate coefficient `beta2` after an update step with the same
direction: `beta2 = 1 / beta`. -/
theorem rot_beta2 (α D a B : K) (hα : α ≠ 0) (hD : D ≠ 0) (hB0 : B ≠ 0)
    (hB : B * D = α * D + a * a) :
    1 / α - (a * (1 / α)) * (a * (1 / α)) / (B / α * D) = 1 / B := by
  field_simp
  linear_combination (α * α * B) * hB

/-- The downdate step restores the pivot. -/
theorem rot_pivot (α D B : K) (hα : α ≠ 0) (hB0 : B ≠ 0) :
    (1 / B) / (1 / α) * (B / α * D) = D := by
  field_simp
  ring

/-- The downdate half of an entry restores the value and keeps the two
directions proportional. -/
theorem rot_entry (α D a u l B : K) (hα : α ≠ 0) (hD : D ≠ 0) (hB0 : B ≠ 0)
    (hB : B * D = α * D + a * a) :
    u * (1 / α) - a * (1 / α) * (l + a / (B * D) * (u - a * l)) = (u - a * l) * (1 / B) ∧
    (l + a / (B * D) * (u - a * l)) -
      (a * (1 / α)) / ((1 / B) * (B / α * D)) * ((u - a * l) * (1 / B)) = l := by
  constructor
  · field_simp
    linear_combination (α * B * (u - a * l)) * hB
  · field_simp
    ring

end RotationAlgebra

section IdentityRotation

variable {K : Type} [LinearOrderedField K] [DecidableEq K]

/-- The inner loop of a row whose two directions are proportional
(`wd = wu / α`): the values are restored, the touched rows have
`wd = wu / B`, the other rows are left alone. -/
theorem rotateEntry_loop_identity (Li : Nat → Nat) (i lo hi : Nat) (α D a B : K)
    (hα : α ≠ 0) (hD : D ≠ 0) (hB0 : B ≠ 0) (hB : B * D = α * D + a * a)
    (t0 : RotState K) (hle : lo ≤ hi)
    (hwu : t0.wu i = a) (hwd : t0.wd i = a * (1 / α))
    (hrel : ∀ q, lo ≤ q → q < hi → t0.wd (Li q) = t0.wu (Li q) * (1 / α))
    (hne : ∀ q, lo ≤ q → q < hi → Li q ≠ i)
    (hinj : ∀ p q, lo ≤ p → p < q → q < hi → Li p ≠ Li q) :
    ∃ T, forRange lo hi (rotateEntry Li i (a / (B * D))
        ((a * (1 / α)) / ((1 / B) * (B / α * D)))) t0 = T ∧
      T.Lx = t0.Lx ∧ T.alpha = t0.alpha ∧ T.alpha2 = t0.alpha2 ∧
      (∀ r, (∃ q, lo ≤ q ∧ q < hi ∧ Li q = r) → T.wd r = T.wu r * (1 / B)) ∧
      (∀ r, (¬ ∃ q, lo ≤ q ∧ q < hi ∧ Li q = r) → T.wu r = t0.wu r ∧ T.wd r = t0.wd r) := by
  have h := forRange_induction
    (fun m (t : RotState K) => t.Lx = t0.Lx ∧ t.alpha = t0.alpha ∧ t.alpha2 = t0.alpha2 ∧
      t.wu i = a ∧ t.wd i = a * (1 / α) ∧
      (∀ r, (∃ q, lo ≤ q ∧ q < m ∧ Li q = r) → t.wd r = t.wu r * (1 / B)) ∧
      (∀ r, (¬ ∃ q, lo ≤ q ∧ q < m ∧ Li q = r) → t.wu r = t0.wu r ∧ t.wd r = t0.wd r))
    lo hi (rotateEntry Li i (a / (B * D)) ((a * (1 / α)) / ((1 / B) * (B / α * D)))) t0 hle
    ⟨rfl, rfl, rfl, hwu, hwd, fun r ⟨q, h1, h2, _⟩ => absurd h2 (by omega),
      fun r _ => ⟨rfl, rfl⟩⟩
    (fun q t h1 h2 ht => by
      obtain ⟨tLx, ta, ta2, twu, twd, ttouched, tun⟩ := ht
      have hun : ¬ ∃ q', lo ≤ q' ∧ q' < q ∧ Li q' = Li q :=
        fun ⟨q', g1, g2, g3⟩ => hinj q' q g1 g2 h2 g3
      obtain ⟨u1, u2⟩ := tun (Li q) hun
      have hwdq : t.wd (Li q) = t.wu (Li q) * (1 / α) := by
        rw [u1, u2]
        exact hrel q h1 h2
      obtain ⟨k1, k2⟩ := rot_entry α D a (t.wu (Li q)) (t.Lx q) B hα hD hB0 hB
      have hi1 : i ≠ Li q := Ne.symm (hne q h1 h2)
      have e_wu : (rotateEntry Li i (a / (B * D))
          ((a * (1 / α)) / ((1 / B) * (B / α * D))) q t).wu =
          Function.update t.wu (Li q) (t.wu (Li q) - a * t.Lx q) := by
        simp only [rotateEntry, twu]
      have e_wd : (rotateEntry Li i (a / (B * D))
          ((a * (1 / α)) / ((1 / B) * (B / α * D))) q t).wd =
          Function.update t.wd (Li q) ((t.wu (Li q) - a * t.Lx q) * (1 / B)) := by
        simp only [rotateEntry, twu, twd, Function.update_same, hwdq]
        rw [k1]
      have e_Lx : (rotateEntry Li i (a / (B * D))
          ((a * (1 / α)) / ((1 / B) * (B / α * D))) q t).Lx = t.Lx := by
        simp only [rotateEntry, twu, twd, Function.update_same, hwdq, Function.update_idem]
        rw [k1, k2]
        exact Function.update_eq_self q t.Lx
      refine ⟨e_Lx.trans tLx, ta, ta2, ?_, ?_, fun r hr => ?_, fun r hr => ?_⟩
      · rw [e_wu, Function.update_noteq hi1]
        exact twu
      · rw [e_wd, Function.update_noteq hi1]
        exact twd
      · rw [e_wu, e_wd]
        by_cases hrq : r = Li q
        · subst hrq
          simp only [Function.update_same]
        · rw [Function.update_noteq hrq, Function.update_noteq hrq]
          obtain ⟨q', g1, g2, g3⟩ := hr
          apply ttouched r
          refine ⟨q', g1, ?_, g3⟩
          rcases Nat.lt_or_ge q' q with g | g
          · exact g
          · have : q' = q := by omega
            subst this
            exact absurd g3.symm hrq
      · have hrq : r ≠ Li q := fun hE => hr ⟨q, h1, by omega, hE.symm⟩
        rw [e_wu, e_wd, Function.update_noteq hrq, Function.update_noteq hrq]
        exact tun r (fun ⟨q', g1, g2, g3⟩ => hr ⟨q', g1, by omega, g3⟩))
  exact ⟨_, rfl, h.1, h.2.1, h.2.2.1, h.2.2.2.2.2.1, h.2.2.2.2.2.2⟩

end IdentityRotation

section IdentityRows

variable {K : Type} [LinearOrderedField K] [DecidableEq K]

/-- A row of the `L_33` loop whose two directions are proportional
(`wd = wu * alpha2`, `alpha2 = 1 / alpha`) restores the values of its column and
its pivot, keeps `alpha2 = 1 / alpha` and `alpha > 0`, keeps the two directions
proportional at the rows of its column, and leaves the other rows alone. -/
theorem rotateRow_identity (Lp Li : Nat → Nat) (i : Nat) (S : RotState K)
    (hα : 0 < S.alpha) (hα2 : S.alpha2 = 1 / S.alpha) (hD : 0 < S.Lx (Lp i))
    (hlt : Lp i < Lp (i + 1)) (hwd : S.wd i = S.wu i * S.alpha2)
    (hrel : ∀ q, Lp i + 1 ≤ q → q < Lp (i + 1) → S.wd (Li q) = S.wu (Li q) * S.alpha2)
    (hne : ∀ q, Lp i + 1 ≤ q → q < Lp (i + 1) → Li q ≠ i)
    (hinj : ∀ p q, Lp i + 1 ≤ p → p < q → q < Lp (i + 1) → Li p ≠ Li q) :
    ∃ T, rotateRow Lp Li i S = T ∧ T.Lx = S.Lx ∧ 0 < T.alpha ∧ T.alpha2 = 1 / T.alpha ∧
      (∀ r, (∃ q, Lp i + 1 ≤ q ∧ q < Lp (i + 1) ∧ Li q = r) →
        T.wd r = T.wu r * T.alpha2) ∧
      (∀ r, (¬ ∃ q, Lp i + 1 ≤ q ∧ q < Lp (i + 1) ∧ Li q = r) →
        S.wu i ≠ 0 → T.wu r = S.wu r ∧ T.wd r = S.wd r) ∧
      (S.wu i = 0 → T = S) := by
  by_cases hw : S.wu i ≠ 0
  · have hα0 : S.alpha ≠ 0 := ne_of_gt hα
    have hD0 : S.Lx (Lp i) ≠ 0 := ne_of_gt hD
    have hBpos : 0 < S.alpha + S.wu i * S.wu i / S.Lx (Lp i) :=
      add_pos_of_pos_of_nonneg hα (div_nonneg (mul_self_nonneg _) (le_of_lt hD))
    have hB0 : S.alpha + S.wu i * S.wu i / S.Lx (Lp i) ≠ 0 := ne_of_gt hBpos
    have hB : (S.alpha + S.wu i * S.wu i / S.Lx (Lp i)) * S.Lx (Lp i) =
        S.alpha * S.Lx (Lp i) + S.wu i * S.wu i := by
      field_simp
    have hb2 := rot_beta2 S.alpha (S.Lx (Lp i)) (S.wu i) _ hα0 hD0 hB0 hB
    have hpiv := rot_pivot S.alpha (S.Lx (Lp i)) _ hα0 hB0
    have hwd1 : S.wd i = S.wu i * (1 / S.alpha) := by rw [hwd, hα2]
    obtain ⟨T, hT, t1, t2, t3, t4, t5⟩ := rotateEntry_loop_identity Li i (Lp i + 1)
      (Lp (i + 1)) S.alpha (S.Lx (Lp i)) (S.wu i) _ hα0 hD0 hB0 hB
      { Lx := S.Lx, wu := S.wu, wd := S.wd,
        alpha := S.alpha + S.wu i * S.wu i / S.Lx (Lp i),
        alpha2 := 1 / (S.alpha + S.wu i * S.wu i / S.Lx (Lp i)) }
      (by omega) rfl hwd1 (fun q g1 g2 => by rw [hrel q g1 g2, hα2]) hne hinj
    have hrow : rotateRow Lp Li i S = T := by
      rw [← hT]
      unfold rotateRow
      rw [if_pos hw]
      simp only [Function.update_same, Function.update_idem, hwd1, hα2, hb2, hpiv]
      rw [Function.update_eq_self]
    refine ⟨T, hrow, t1, ?_, ?_, fun r hr => ?_, fun r hr _ => t5 r hr,
      fun h0 => absurd h0 hw⟩
    · rw [t2]
      exact hBpos
    · rw [t2, t3]
    · rw [t4 r hr, t3]
  · have h0 : S.wu i = 0 := not_not.1 hw
    have hrow : rotateRow Lp Li i S = S := by
      unfold rotateRow
      rw [if_neg hw]
    exact ⟨S, hrow, rfl, hα, hα2, fun r ⟨q, g1, g2, g3⟩ => g3 ▸ hrel q g1 g2,
      fun r _ h => absurd h0 h, fun _ => rfl⟩

/-- In a pattern closed under fill from column `k` on, two rows `r1 < r2` stored
below the diagonal of a column `j ≥ k` give a stored entry `(r2, r1)`. -/
theorem inCol_fill (k n : Nat) (Lp Li : Nat → Nat) (hv : ColumnsValid n Lp Li)
    (hfc : FillClosed k n Lp Li) (j : Nat) (hj1 : k ≤ j) (hj2 : j < n) (r1 r2 : Nat)
    (hr : r1 < r2)
    (h1 : ∃ q, Lp j + 1 ≤ q ∧ q < Lp (j + 1) ∧ Li q = r1)
    (h2 : ∃ q, Lp j + 1 ≤ q ∧ q < Lp (j + 1) ∧ Li q = r2) :
    ∃ q, Lp r1 + 1 ≤ q ∧ q < Lp (r1 + 1) ∧ Li q = r2 := by
  obtain ⟨p, p1, p2, p3⟩ := h1
  obtain ⟨q, q1, q2, q3⟩ := h2
  have hpq : p < q := by
    rcases Nat.lt_or_ge p q with g | g
    · exact g
    · rcases Nat.eq_or_lt_of_le g with g | g
      · subst g
        omega
      · have := (hv j hj2).2.2 q p (by omega) g p2
        omega
  obtain ⟨t, t1, t2, t3⟩ := hfc j hj1 hj2 p q (by omega) hpq q2
  rw [p3] at t1 t2
  exact ⟨t, by omega, t2, by rw [t3, q3]⟩

/-- The `L_33` loop started with proportional directions supported on the rows
of one column of a pattern closed under fill, and with positive pivots, returns
the values it started with. -/
theorem rotate_identity (k n : Nat) (Lp Li : Nat → Nat) (hv : ColumnsValid n Lp Li)
    (hfc : FillClosed k n Lp Li)
    (hrows : ∀ j, k < j → j < n → ∀ q, Lp j ≤ q → q < Lp (j + 1) → Li q < n)
    (S : RotState K) (hkn : k < n)
    (hpos : ∀ i, k < i → i < n → 0 < S.Lx (Lp i))
    (hα : 0 < S.alpha) (hα2 : S.alpha2 = 1 / S.alpha)
    (hrel : ∀ r, S.wd r = S.wu r * S.alpha2)
    (hsupp : ∀ r, S.wu r ≠ 0 → ∃ q, Lp k + 1 ≤ q ∧ q < Lp (k + 1) ∧ Li q = r) :
    (forRange (k + 1) n (rotateRow Lp Li) S).Lx = S.Lx := by
  have h := forRange_induction
    (fun i (t : RotState K) => t.Lx = S.Lx ∧ 0 < t.alpha ∧ t.alpha2 = 1 / t.alpha ∧
      (∀ r, i ≤ r → r < n → t.wd r = t.wu r * t.alpha2) ∧
      (∀ r1 r2, i ≤ r1 → r1 < r2 → r2 < n → t.wu r1 ≠ 0 → t.wu r2 ≠ 0 →
        ∃ q, Lp r1 + 1 ≤ q ∧ q < Lp (r1 + 1) ∧ Li q = r2))
    (k + 1) n (rotateRow Lp Li) S (by omega)
    ⟨rfl, hα, hα2, fun r _ _ => hrel r, fun r1 r2 _ h12 _ g1 g2 =>
      inCol_fill k n Lp Li hv hfc k (le_refl _) hkn r1 r2 h12 (hsupp r1 g1) (hsupp r2 g2)⟩
    (fun i t h1 h2 ht => by
      obtain ⟨tLx, ta, ta2, trel, tsupp⟩ := ht
      have hbelow : ∀ q, Lp i + 1 ≤ q → q < Lp (i + 1) → i < Li q := by
        intro q g1 g2
        obtain ⟨_, hd, hs⟩ := hv i h2
        have := hs (Lp i) q (le_refl _) (by omega) g2
        omega
      obtain ⟨T, hT, T1, T2, T3, T4, T5, T6⟩ := rotateRow_identity Lp Li i t ta ta2
        (by rw [tLx]; exact hpos i (by omega) h2) (hv i h2).1
        (trel i (le_refl _) h2)
        (fun q g1 g2 => trel (Li q) (le_of_lt (hbelow q g1 g2))
          (hrows i (by omega) h2 q (by omega) g2))
        (fun q g1 g2 => Nat.ne_of_gt (hbelow q g1 g2))
        (fun p q g1 g2 g3 => Nat.ne_of_lt ((hv i h2).2.2 p q (by omega) g2 g3))
      show (rotateRow Lp Li i t).Lx = S.Lx ∧ 0 < (rotateRow Lp Li i t).alpha ∧
        (rotateRow Lp Li i t).alpha2 = 1 / (rotateRow Lp Li i t).alpha ∧
        (∀ r, i + 1 ≤ r → r < n →
          (rotateRow Lp Li i t).wd r = (rotateRow Lp Li i t).wu r * (rotateRow Lp Li i t).alpha2) ∧
        (∀ r1 r2, i + 1 ≤ r1 → r1 < r2 → r2 < n → (rotateRow Lp Li i t).wu r1 ≠ 0 →
          (rotateRow Lp Li i t).wu r2 ≠ 0 →
          ∃ q, Lp r1 + 1 ≤ q ∧ q < Lp (r1 + 1) ∧ Li q = r2)
      rw [hT]
      by_cases hw : t.wu i = 0
      · rw [T6 hw]
        exact ⟨tLx, ta, ta2, fun r g1 g2 => trel r (by omega) g2,
          fun r1 r2 g1 g2 g3 g4 g5 => tsupp r1 r2 (by omega) g2 g3 g4 g5⟩
      · have hin : ∀ r, i + 1 ≤ r → r < n → T.wu r ≠ 0 →
            ∃ q, Lp i + 1 ≤ q ∧ q < Lp (i + 1) ∧ Li q = r := by
          intro r g1 g2 g3
          by_contra hnot
          have e := (T5 r hnot hw).1
          rw [e] at g3
          exact hnot (tsupp i r (le_refl _) (by omega) g2 hw g3)
        refine ⟨T1.trans tLx, T2, T3, fun r g1 g2 => ?_, fun r1 r2 g1 g2 g3 g4 g5 => ?_⟩
        · by_cases hr : ∃ q, Lp i + 1 ≤ q ∧ q < Lp (i + 1) ∧ Li q = r
          · exact T4 r hr
          · obtain ⟨e1, e2⟩ := T5 r hr hw
            have hz : t.wu r = 0 := by
              by_contra hne
              exact hr (tsupp i r (le_refl _) (by omega) g2 hw hne)
            rw [e1, e2, trel r (by omega) g2, hz, zero_mul, zero_mul]
        · exact inCol_fill k n Lp Li hv hfc i (by omega) h2 r1 r2 g2
            (hin r1 g1 (by omega) g4) (hin r2 (by omega) g3 g5))
  exact h.1

end IdentityRows

section IdentityKernel

variable {K : Type} [Field K] [DecidableEq K]

theorem fillClosed_of_bounded (k n : Nat) (Lp Li : Nat → Nat)
    (h : ∀ j, j < n → k ≤ j → ∀ q, q < Lp (j + 1) → ∀ p, p < q → Lp j < p →
      (List.range (Lp (Li p + 1))).any (fun t => decide (Lp (Li p) < t ∧ Li t = Li q)) = true) :
    FillClosed k n Lp Li := by
  intro j hj1 hj2 p q hp hpq hq
  obtain ⟨t, t1, t2⟩ := List.any_eq_true.1 (h j hj2 hj1 q hq p hpq hp)
  rw [decide_eq_true_eq] at t2
  exact ⟨t, t2.1, List.mem_range.1 t1, t2.2⟩

/-- The copy keeps the closure under fill of the pattern. -/
theorem copyPhase_fillClosed (a : Args K)
    (hrows : ∀ j, j < a.n → a.k ≤ j → ∀ q, q < a.Lp2 (j + 1) → a.Lp2 j ≤ q → a.Li2 q < a.n)
    (hfc : FillClosed a.k a.n a.Lp2 a.Li2) :
    FillClosed a.k a.n (copyPhase a).Lp (copyPhase a).Li := by
  intro j hj1 hj2 p q hp hpq hq
  rw [copyPhase_Lp a j (by omega)] at hp
  rw [copyPhase_Lp a (j + 1) (by omega)] at hq
  have hpn := hrows j hj2 hj1 p (by omega) (by omega)
  rw [copyPhase_Li a p ⟨j, hj2, by omega, by omega⟩,
    copyPhase_Li a q ⟨j, hj2, by omega, hq⟩, copyPhase_Lp a _ (by omega),
    copyPhase_Lp a _ (by omega)]
  obtain ⟨t, t1, t2, t3⟩ := hfc j hj1 hj2 p q hp hpq hq
  exact ⟨t, t1, t2, by rw [copyPhase_Li a t ⟨a.Li2 p, hpn, by omega, t2⟩]; exact t3⟩

end IdentityKernel

/-- Claim C18, amended with the closure of the pattern under fill.  Over an
ordered field (exact arithmetic), for `k < n`, well formed columns with row
indices below `n` and positive pivots from column `k` on, a pattern closed under
fill from column `k` on, an update column that stores row `k` (when `k > 0`), and
`before = after` (the same value array): the kernel succeeds and every stored
value of the output equals the input's. -/
theorem C18_identity_update {K : Type} [LinearOrderedField K] [DecidableEq K]
    (sqrt : K → K) (a : Args K) (hkn : a.k < a.n) (hv : ColumnsValid a.n a.Lp2 a.Li2)
    (hrows : ∀ j, j < a.n → a.k ≤ j → ∀ q, q < a.Lp2 (j + 1) → a.Lp2 j ≤ q → a.Li2 q < a.n)
    (hfc : FillClosed a.k a.n a.Lp2 a.Li2)
    (hpos : ∀ i, i < a.n → a.k ≤ i → 0 < a.Lx2 (a.Lp2 i))
    (hmem : 0 < a.k → ∃ c, c < a.cp 1 ∧ a.ci c = a.k)
    (hc : a.cx2 = a.cx) :
    ∃ out, ldlrowmodify sqrt a = Except.ok out ∧
      ∀ p, Stored a.Lp2 a.n p → out.Lx p = a.Lx2 p := by
  have hLp : ∀ j, j ≤ a.n → (copyPhase a).Lp j = a.Lp2 j := copyPhase_Lp a
  have hpiv : ∀ i, i < a.n → a.k ≤ i → 0 < (copyPhase a).Lx ((copyPhase a).Lp i) := by
    intro i h1 h2
    rw [hLp i (by omega), copyPhase_Lx a _ ⟨i, h1, le_refl _, (hv i h1).1⟩]
    exact hpos i h1 h2
  obtain ⟨c, hps⟩ := pivotPhase_identity a (copyPhase a) hc hmem
  have hd : (copyPhase a).Lx ((copyPhase a).Lp a.k) ≠ 0 := ne_of_gt (hpiv a.k hkn (le_refl _))
  have hcol : ∀ p, (copyPhase a).Lp a.k + 1 ≤ p → p < (copyPhase a).Lp (a.k + 1) →
      (copyPhase a).Lx p = a.Lx2 p := by
    intro p h1 h2
    rw [hLp a.k (by omega)] at h1
    rw [hLp (a.k + 1) (by omega)] at h2
    exact copyPhase_Lx a p ⟨a.k, hkn, by omega, h2⟩
  unfold ldlrowmodify
  simp only [hps]
  by_cases hlast : a.k < a.n - 1
  · rw [if_pos hlast]
    refine ⟨_, rfl, fun p hp => ?_⟩
    rw [trailingColumn_identity a (copyPhase a) _ hc rfl rfl hd]
    obtain ⟨w1, w2⟩ := initDirections_identity sqrt a (copyPhase a)
      ((copyPhase a).Lx ((copyPhase a).Lp a.k)) (copyPhase a).Lx hcol
    unfold rotatePhase
    simp only
    rw [rotate_identity a.k a.n (copyPhase a).Lp (copyPhase a).Li
      (copyPhase_columnsValid a a.n (le_refl _) hv) (copyPhase_fillClosed a hrows hfc)
      (fun j h1 h2 q h3 h4 => by
        rw [hLp j (by omega)] at h3
        rw [hLp (j + 1) (by omega)] at h4
        rw [copyPhase_Li a q ⟨j, h2, h3, h4⟩]
        exact hrows j h2 (by omega) q h4 h3)
      _ hkn (fun i h1 h2 => hpiv i h2 (by omega)) one_pos (by simp)
      (fun r => by
        show _ = _ * (1 : K)
        rw [mul_one, w1])
      w2]
    exact copyPhase_Lx a p hp
  · rw [if_neg hlast]
    exact ⟨_, rfl, fun p hp => copyPhase_Lx a p hp⟩

theorem C18_identity_update_witness :
    ∃ out, ldlrowmodify Rat.sqrt identityExample = Except.ok out ∧
      ∀ p, Stored identityExample.Lp2 identityExample.n p →
        out.Lx p = identityExample.Lx2 p :=
  C18_identity_update Rat.sqrt identityExample (by decide)
    (columnsValid_of_bounded _ _ _ (by decide)) (by decide)
    (fillClosed_of_bounded _ _ _ _ (by decide)) (by decide!)
    (fun h => absurd h (by decide)) rfl

/-- Claim C18 as stated fails at `openPattern`: the columns are well formed, the
pivots are positive, the stored factor is the exact factor of
`[[1,1,1],[1,2,1],[1,1,2]]`, the update column is sorted, stores row `k = 0` and
only rows of column 0 of `L`, and `before = after`; the output values are
`[1,1,1,1,-1/2]`, not the input's `[1,1,1,1,1]`.  The pattern is not closed under
fill: column 0 stores the rows 1 and 2, column 1 does not store row 2. -/
theorem C18_identity_fails_on_open_pattern :
    ColumnsValid openPattern.n openPattern.Lp2 openPattern.Li2 ∧
    (∀ i, i < openPattern.n → 0 < openPattern.Lx2 (openPattern.Lp2 i)) ∧
    (∀ i, i < 3 → ∀ j, j < 3 → ldlt 3 (inputFactor openPattern) i j =
      (arr [arr [1, 1, 1], arr [1, 2, 1], arr [1, 1, 2]] : Nat → Nat → ℚ) i j) ∧
    PatternSorted openPattern ∧ openPattern.ci 0 = openPattern.k ∧
    (∀ p, p < openPattern.cp 1 → openPattern.Li2 (openPattern.Lp2 0 + p) = openPattern.ci p) ∧
    openPattern.cx2 = openPattern.cx ∧
    values 5 openPattern.Lx2 = [1, 1, 1, 1, 1] ∧
    (ldlrowmodify Rat.sqrt openPattern).toOption.map (fun out => values 5 out.Lx) =
      some [1, 1, 1, 1, -1 / 2] ∧
    ¬ FillClosed openPattern.k openPattern.n openPattern.Lp2 openPattern.Li2 :=
  ⟨columnsValid_of_bounded _ _ _ (by decide), by decide!, by decide!,
    patternSorted_of_bounded _ (by decide), by decide, by decide, rfl, by decide!, by decide!,
    fun h => absurd (h 0 (by decide) (by decide) 1 2 (by decide) (by decide) (by decide))
      (by
        rintro ⟨t, t1, t2, t3⟩
        have e1 : openPattern.Lp2 (openPattern.Li2 1) = 3 := by decide
        have e2 : openPattern.Lp2 (openPattern.Li2 1 + 1) = 4 := by decide
        rw [e1] at t1
        rw [e2] at t2
        omega)⟩
end LdlRowModify
